import Mathlib

/-!
# Verification of the CareerNova-AI LLM orchestration and normalization layer

A shallow embedding of the JSON-repair / schema-normalization / model-fallback
pipeline of `generator.py`, the job-matching fallback and cache of
`jobs_engine.py`, and the intent router of `rag_engine.py`.

JSON numbers are modelled as integers (floating point is out of scope of the
embedding); strings are modelled over ASCII where serialization fidelity
matters.
-/

set_option maxHeartbeats 1000000

namespace CareerNova

/-- A parsed JSON value, as produced by Python's `json.loads`
(numbers restricted to integers). -/
inductive Json where
  | null
  | bool (b : Bool)
  | num (n : Int)
  | str (s : String)
  | arr (elems : List Json)
  | obj (fields : List (String × Json))
  deriving Repr

/-- `isinstance(v, list)`. -/
def Json.isList : Json → Bool
  | .arr _ => true
  | _ => false

/-- `isinstance(v, dict)`. -/
def Json.isDict : Json → Bool
  | .obj _ => true
  | _ => false

/-- `isinstance(v, str)`. -/
def Json.isStr : Json → Bool
  | .str _ => true
  | _ => false

/-- Python truthiness `bool(v)` of a JSON-decoded value. -/
def Json.truthy : Json → Bool
  | .null => false
  | .bool b => b
  | .num n => n != 0
  | .str s => s != ""
  | .arr es => !es.isEmpty
  | .obj fs => !fs.isEmpty

/-- Auxiliary for `pyTitle`: walk the characters remembering whether the
previous character was alphabetic. -/
def pyTitleGo : Bool → List Char → List Char
  | _, [] => []
  | prevAlpha, c :: cs =>
    (if c.isAlpha then (if prevAlpha then c.toLower else c.toUpper) else c)
      :: pyTitleGo c.isAlpha cs

/-- Python `str.title()` (ASCII model): a letter not following a letter is
uppercased, a letter following a letter is lowercased. -/
def pyTitle (s : String) : String :=
  String.mk (pyTitleGo false s.data)

/-- Hex digit character for a nibble (lowercase, as Python emits). -/
def hexDigitChar (n : Nat) : Char :=
  if n < 10 then Char.ofNat (48 + n) else Char.ofNat (87 + n)

/-- Escaping of one character inside a Python `repr` of a string. -/
def pyReprEsc (c : Char) : List Char :=
  if c = '\\' then ['\\', '\\']
  else if c = '\'' then ['\\', '\'']
  else if c = '\n' then ['\\', 'n']
  else if c = '\r' then ['\\', 'r']
  else if c = '\t' then ['\\', 't']
  else if c.toNat < 32 then
    ['\\', 'x', hexDigitChar (c.toNat / 16), hexDigitChar (c.toNat % 16)]
  else [c]

/-- Python `repr` of a string (single-quoted with escapes). -/
def pyReprStr (s : String) : List Char :=
  '\'' :: s.data.flatMap pyReprEsc ++ ['\'']

mutual

/-- Python `repr` of a JSON-decoded value (ASCII model). -/
def pyRepr : Json → List Char
  | .null => ['N', 'o', 'n', 'e']
  | .bool true => ['T', 'r', 'u', 'e']
  | .bool false => ['F', 'a', 'l', 's', 'e']
  | .num n => (toString n).data
  | .str s => pyReprStr s
  | .arr es => '\x5b' :: pyReprItems es ++ ['\x5d']
  | .obj fs => '\x7b' :: pyReprFields fs ++ ['\x7d']

/-- Comma-separated `repr`s of list items. -/
def pyReprItems : List Json → List Char
  | [] => []
  | [e] => pyRepr e
  | e :: es => pyRepr e ++ ',' :: ' ' :: pyReprItems es

/-- Comma-separated `repr`s of dict entries. -/
def pyReprFields : List (String × Json) → List Char
  | [] => []
  | [kv] => pyReprStr kv.1 ++ ':' :: ' ' :: pyRepr kv.2
  | kv :: kvs => pyReprStr kv.1 ++ ':' :: ' ' :: pyRepr kv.2 ++ ',' :: ' ' :: pyReprFields kvs

end

/-- Python `str(v)` of a JSON-decoded value: strings unchanged, containers and
scalars via their `repr`. -/
def pyStr : Json → String
  | .str s => s
  | v => String.mk (pyRepr v)

/-- `dict.get` on a parsed JSON object (keys of a Python dict are unique). -/
def jsonGet : List (String × Json) → String → Option Json
  | [], _ => none
  | (k', v) :: rest, k => if k' = k then some v else jsonGet rest k

/-- The `defaults` dict of `_validate_and_normalise`, in insertion order. -/
def normDefaults (username : String) : List (String × Json) :=
  [ ("name", .str (if username ≠ "" then pyTitle username else "Unknown")),
    ("role", .str ""),
    ("tagline", .str ""),
    ("bio", .str ""),
    ("skills", .arr []),
    ("projects", .arr []),
    ("experience", .arr []),
    ("education", .arr []),
    ("achievements", .arr []),
    ("contact", .obj []) ]

/-- The per-field type coercion of `_validate_and_normalise`: a list default
forces non-lists to the default, a dict default forces non-dicts to the
default, a string default string-converts truthy non-strings and defaults
falsy ones. -/
def coerceField (dflt : Json) (val : Json) : Json :=
  let v1 := if dflt.isList && !val.isList then dflt else val
  let v2 := if dflt.isDict && !v1.isDict then dflt else v1
  if dflt.isStr && !v2.isStr then (if v2.truthy then .str (pyStr v2) else dflt) else v2

/-- `_validate_and_normalise(data, username)`: reject non-dicts, then rebuild
the ten required keys with coerced values (`data.get(key, default)`). -/
def validateAndNormalise (data : Json) (username : String) :
    Except String (List (String × Json)) :=
  match data with
  | .obj fields =>
    .ok ((normDefaults username).map (fun kd =>
      (kd.1, coerceField kd.2 ((jsonGet fields kd.1).getD kd.2))))
  | _ => .error "LLM returned non-dict JSON"

/-! ## Lemmas about the field coercion -/

theorem Json.isList_arr (xs : List Json) : (Json.arr xs).isList = true := rfl

theorem Json.isDict_obj (fs : List (String × Json)) : (Json.obj fs).isDict = true := rfl

theorem Json.isStr_str (s : String) : (Json.str s).isStr = true := rfl

theorem coerceField_arr (ds : List Json) (val : Json) :
    coerceField (.arr ds) val = if val.isList then val else .arr ds := by
  cases val <;> simp [coerceField, Json.isList, Json.isDict, Json.isStr]

theorem coerceField_obj (ds : List (String × Json)) (val : Json) :
    coerceField (.obj ds) val = if val.isDict then val else .obj ds := by
  cases val <;> simp [coerceField, Json.isList, Json.isDict, Json.isStr]

theorem coerceField_str (s : String) (val : Json) :
    coerceField (.str s) val =
      if val.isStr then val else if val.truthy then .str (pyStr val) else .str s := by
  cases val <;> simp [coerceField, Json.isList, Json.isDict, Json.isStr]

theorem coerceField_arr_default (val : Json) :
    coerceField (.arr []) val = match val with | .arr xs => .arr xs | _ => .arr [] := by
  cases val <;> simp [coerceField_arr, Json.isList]

theorem coerceField_obj_default (val : Json) :
    coerceField (.obj []) val = match val with | .obj fs => .obj fs | _ => .obj [] := by
  cases val <;> simp [coerceField_obj, Json.isDict]

theorem coerceField_str_default (s : String) (val : Json) :
    ∃ t, coerceField (.str s) val = .str t := by
  rw [coerceField_str]
  cases val <;> simp [Json.isStr] <;> split <;> exact ⟨_, rfl⟩

theorem coerceField_idem (dflt val : Json) :
    coerceField dflt (coerceField dflt val) = coerceField dflt val := by
  cases dflt with
  | arr ds =>
    rw [coerceField_arr, coerceField_arr]
    by_cases h : val.isList <;> simp [h]
  | obj ds =>
    rw [coerceField_obj, coerceField_obj]
    by_cases h : val.isDict <;> simp [h]
  | str s =>
    rw [coerceField_str, coerceField_str]
    by_cases h : val.isStr
    · simp [h]
    · by_cases h2 : val.truthy <;> simp [h, h2, Json.isStr_str]
  | null => cases val <;> simp [coerceField, Json.isList, Json.isDict, Json.isStr]
  | bool b => cases val <;> simp [coerceField, Json.isList, Json.isDict, Json.isStr]
  | num n => cases val <;> simp [coerceField, Json.isList, Json.isDict, Json.isStr]

/-- C3: every one of the ten required keys is present after normalization;
list-typed keys degrade to `[]` on a missing or non-list value, `contact`
degrades to `{}` on a missing or non-dict value, string-typed keys always
hold strings. -/
theorem validateAndNormalise_schema (fields : List (String × Json)) (u : String) :
    ∃ out, validateAndNormalise (.obj fields) u = .ok out ∧
      (∀ k ∈ ["name", "role", "tagline", "bio", "skills", "projects", "experience",
              "education", "achievements", "contact"], (jsonGet out k).isSome) ∧
      (∀ k ∈ ["skills", "projects", "experience", "education", "achievements"],
        jsonGet out k = some (match jsonGet fields k with
          | some (.arr xs) => .arr xs
          | _ => .arr [])) ∧
      (jsonGet out "contact" = some (match jsonGet fields "contact" with
          | some (.obj fs) => .obj fs
          | _ => .obj [])) ∧
      (∀ k ∈ ["name", "role", "tagline", "bio"], ∃ s, jsonGet out k = some (.str s)) := by
  refine ⟨_, rfl, ?_, ?_, ?_, ?_⟩
  · intro k hk
    simp only [List.mem_cons, List.not_mem_nil, or_false] at hk
    rcases hk with rfl | rfl | rfl | rfl | rfl | rfl | rfl | rfl | rfl | rfl <;>
      simp [normDefaults, jsonGet, String.reduceEq]
  · intro k hk
    simp only [List.mem_cons, List.not_mem_nil, or_false] at hk
    rcases hk with rfl | rfl | rfl | rfl | rfl <;>
      · simp only [normDefaults, List.map, jsonGet, String.reduceEq, reduceIte]
        rcases h : jsonGet fields _ with _ | v
        · simp [h, coerceField_arr_default]
        · cases v <;> simp [h, coerceField_arr_default]
  · simp only [normDefaults, List.map, jsonGet, String.reduceEq, reduceIte]
    rcases h : jsonGet fields "contact" with _ | v
    · simp [h, coerceField_obj_default]
    · cases v <;> simp [h, coerceField_obj_default]
  · intro k hk
    simp only [List.mem_cons, List.not_mem_nil, or_false] at hk
    rcases hk with rfl | rfl | rfl | rfl <;>
      · simp only [normDefaults, List.map, jsonGet, String.reduceEq, reduceIte]
        exact (coerceField_str_default _ _).imp (fun t ht => by rw [ht])

/-- Witness for C3 at a concrete input: `skills` missing and `contact`
supplied as a list. -/
theorem validateAndNormalise_schema_witness :
    ∃ out, validateAndNormalise (.obj [("contact", Json.arr [])]) "bob" = .ok out ∧
      (∀ k ∈ ["name", "role", "tagline", "bio", "skills", "projects", "experience",
              "education", "achievements", "contact"], (jsonGet out k).isSome) ∧
      (∀ k ∈ ["skills", "projects", "experience", "education", "achievements"],
        jsonGet out k = some (match jsonGet [("contact", Json.arr [])] k with
          | some (.arr xs) => .arr xs
          | _ => .arr [])) ∧
      (jsonGet out "contact" = some (match jsonGet [("contact", Json.arr [])] "contact" with
          | some (.obj fs) => .obj fs
          | _ => .obj [])) ∧
      (∀ k ∈ ["name", "role", "tagline", "bio"], ∃ s, jsonGet out k = some (.str s)) :=
  validateAndNormalise_schema [("contact", Json.arr [])] "bob"

/-- C9: normalization is idempotent — re-normalizing its own output returns
the same mapping. -/
theorem validateAndNormalise_idem (fields : List (String × Json)) (u : String)
    (out : List (String × Json)) (h : validateAndNormalise (.obj fields) u = .ok out) :
    validateAndNormalise (.obj out) u = .ok out := by
  simp only [validateAndNormalise, Except.ok.injEq] at h
  subst h
  simp only [validateAndNormalise, Except.ok.injEq]
  simp only [normDefaults, List.map, jsonGet, String.reduceEq, reduceIte, Option.getD_some,
    coerceField_idem]

/-- Witness for C9 at the concrete input `{}` with empty username. -/
theorem validateAndNormalise_idem_witness :
    validateAndNormalise (.obj
      [("name", Json.str "Unknown"), ("role", Json.str ""), ("tagline", Json.str ""),
       ("bio", Json.str ""), ("skills", Json.arr []), ("projects", Json.arr []),
       ("experience", Json.arr []), ("education", Json.arr []),
       ("achievements", Json.arr []), ("contact", Json.obj [])]) "" = .ok
      [("name", Json.str "Unknown"), ("role", Json.str ""), ("tagline", Json.str ""),
       ("bio", Json.str ""), ("skills", Json.arr []), ("projects", Json.arr []),
       ("experience", Json.arr []), ("education", Json.arr []),
       ("achievements", Json.arr []), ("contact", Json.obj [])] :=
  validateAndNormalise_idem [] "" _ rfl

/-! ## The response normalizer `_fix_json_string`

The three regex operations of the cascade are modelled character-exactly:
`^```(?:json)?\s*\n?` (MULTILINE), `\n?```\s*$` (MULTILINE) and
`,\s*([}\]])` → `\1`, together with `json.loads` on the integer fragment of
JSON and `json.dumps` (default separators, ASCII strings). -/

/-- Python regex `\s` class (ASCII). -/
def isPyWs (c : Char) : Bool :=
  c = ' ' || c = '\t' || c = '\n' || c = '\r' || c = '\x0b' || c = '\x0c'

/-- `json.loads` inter-token whitespace. -/
def isJsonWs (c : Char) : Bool :=
  c = ' ' || c = '\t' || c = '\n' || c = '\r'

/-- Python `str.strip()` on a character list. -/
def pyStripList (cs : List Char) : List Char :=
  ((cs.dropWhile isPyWs).reverse.dropWhile isPyWs).reverse

/-- The optional `(?:json)?` tag right after the opening backticks. -/
def dropJsonTag : List Char → List Char
  | 'j' :: 's' :: 'o' :: 'n' :: r => r
  | rest => rest

theorem dropJsonTag_length (cs : List Char) : (dropJsonTag cs).length ≤ cs.length := by
  unfold dropJsonTag
  split <;> simp <;> omega

theorem dropWhile_len_le (p : Char → Bool) (l : List Char) :
    (l.dropWhile p).length ≤ l.length := by
  have h2 := congrArg List.length (List.takeWhile_append_dropWhile p l)
  rw [List.length_append] at h2
  omega

theorem takeWhile_dropWhile_len (p : Char → Bool) (l : List Char) :
    (l.takeWhile p).length + (l.dropWhile p).length = l.length := by
  have h2 := congrArg List.length (List.takeWhile_append_dropWhile p l)
  rw [List.length_append] at h2
  exact h2

/-- Match `` ```(?:json)?\s* `` at the head of the input; returns the
whitespace run consumed by the greedy `\s*` and the remaining input. -/
def fenceMatch : List Char → Option (List Char × List Char)
  | '`' :: '`' :: '`' :: rest =>
    some ((dropJsonTag rest).takeWhile isPyWs, (dropJsonTag rest).dropWhile isPyWs)
  | _ => none

theorem fenceMatch_length {cs w r : List Char} (h : fenceMatch cs = some (w, r)) :
    r.length < cs.length := by
  unfold fenceMatch at h
  split at h
  · rename_i rest
    simp only [Option.some.injEq, Prod.mk.injEq] at h
    have h1 := dropWhile_len_le isPyWs (dropJsonTag rest)
    have h2 := dropJsonTag_length rest
    rw [← h.2] at *
    simp only [List.length_cons]
    omega
  · simp at h

/-- One pass of `re.sub(r"^```(?:json)?\s*\n?", "", text, flags=MULTILINE)`:
the flag records whether the current position is at a line start (position 0
or just after a newline of the original text). -/
def sub1Aux : Bool → List Char → List Char
  | _, [] => []
  | atStart, c :: cs =>
    if atStart then
      match h : fenceMatch (c :: cs) with
      | some (w, r) => sub1Aux (w.getLast? == some '\n') r
      | none => c :: sub1Aux (c == '\n') cs
    else c :: sub1Aux (c == '\n') cs
  termination_by _ cs => cs.length
  decreasing_by
  · exact fenceMatch_length h
  · simp
  · simp

/-- Strategy 1a: strip opening code-fence markers. -/
def sub1 (cs : List Char) : List Char := sub1Aux true cs

/-- Core of the `` \n?```\s*$ `` match after the optional newline: three
backticks, then the greedy `\s*` must reach a MULTILINE `$` — the end of the
input, or (backtracking) just before the last newline inside the whitespace
run. Returns the input remaining after the match. -/
def sub2Core : List Char → Option (List Char)
  | '`' :: '`' :: '`' :: rest =>
    if (rest.dropWhile isPyWs).isEmpty then some []
    else if ((rest.takeWhile isPyWs).reverse.dropWhile (fun c => c != '\n')).isEmpty then none
    else some ('\n' :: ((rest.takeWhile isPyWs).reverse.takeWhile (fun c => c != '\n')).reverse
      ++ rest.dropWhile isPyWs)
  | _ => none

/-- Match `` \n?```\s*$ `` at the head of the input. -/
def sub2Match : List Char → Option (List Char)
  | '\n' :: rest => sub2Core rest
  | cs => sub2Core cs

theorem sub2Core_length {cs r : List Char} (h : sub2Core cs = some r) :
    r.length + 3 ≤ cs.length := by
  unfold sub2Core at h
  split at h
  · rename_i rest
    have hsplit := takeWhile_dropWhile_len isPyWs rest
    split at h
    · simp only [Option.some.injEq] at h
      subst h
      simp
    · split at h
      · simp at h
      · simp only [Option.some.injEq] at h
        subst h
        rename_i hne hnl
        have hsplit2 := takeWhile_dropWhile_len (fun c => c != '\n') (rest.takeWhile isPyWs).reverse
        simp only [List.length_reverse] at hsplit2
        have hd1 : 1 ≤ ((rest.takeWhile isPyWs).reverse.dropWhile (fun c => c != '\n')).length := by
          rcases hl : (rest.takeWhile isPyWs).reverse.dropWhile (fun c => c != '\n') with _ | ⟨a, as⟩
          · rw [hl] at hnl
            simp at hnl
          · simp
        simp only [List.length_cons, List.length_append, List.length_reverse]
        omega
  · simp at h

theorem sub2Match_length {cs r : List Char} (h : sub2Match cs = some r) :
    r.length < cs.length := by
  unfold sub2Match at h
  split at h
  · rename_i rest
    have := sub2Core_length h
    simp only [List.length_cons]
    omega
  · have := sub2Core_length h
    omega

/-- Global scan of `re.sub(r"\n?```\s*$", "", text, flags=MULTILINE)`. -/
def sub2 : List Char → List Char
  | [] => []
  | c :: cs =>
    match h : sub2Match (c :: cs) with
    | some r => sub2 r
    | none => c :: sub2 cs
  termination_by cs => cs.length
  decreasing_by
  · have := sub2Match_length h
    simpa using this
  · simp

/-- `re.search(r"\{[\s\S]+\}", text)`: the block from the first opening brace
to the last closing brace, requiring at least one character in between. -/
def braceBlock (cs : List Char) : Option (List Char) :=
  let upto := (cs.reverse.dropWhile (fun c => c != '\x7d')).reverse
  let block := upto.dropWhile (fun c => c != '\x7b')
  if 3 ≤ block.length then some block else none

/-- `re.sub(r",\s*([}\]])", r"\1", text)`: drop a comma whose following
whitespace run ends at a closing brace or bracket; scanning resumes after
the brace. -/
def rtc : List Char → List Char
  | [] => []
  | ',' :: rest =>
    match h : rest.dropWhile isPyWs with
    | c :: tail =>
      if c = '\x7d' || c = '\x5d' then c :: rtc tail else ',' :: rtc rest
    | [] => ',' :: rtc rest
  | c :: rest => c :: rtc rest
  termination_by cs => cs.length
  decreasing_by
  · rename_i hcs
    have h1 : (rest.dropWhile isPyWs).length ≤ rest.length := dropWhile_len_le _ _
    rw [h] at h1
    simp only [List.length_cons] at *
    omega
  · simp
  · simp
  · simp

/-! ## `json.loads` on the integer fragment, and `json.dumps` -/

/-- Hex digit value of a character. -/
def hexVal (c : Char) : Option Nat :=
  if '0' ≤ c ∧ c ≤ '9' then some (c.toNat - 48)
  else if 'a' ≤ c ∧ c ≤ 'f' then some (c.toNat - 87)
  else if 'A' ≤ c ∧ c ≤ 'F' then some (c.toNat - 55)
  else none

/-- Decode a JSON string body after the opening quote: the decoded characters
and the input after the closing quote. Strict mode: raw control characters
are rejected; surrogate escapes are outside the modelled fragment. -/
def parseStringBody : List Char → Option (List Char × List Char)
  | [] => none
  | '"' :: rest => some ([], rest)
  | '\\' :: 'u' :: h1 :: h2 :: h3 :: h4 :: rest =>
    match hexVal h1, hexVal h2, hexVal h3, hexVal h4 with
    | some a, some b, some c, some d =>
      if ((a * 16 + b) * 16 + c) * 16 + d < 0xd800 then
        (parseStringBody rest).map
          (fun p => (Char.ofNat (((a * 16 + b) * 16 + c) * 16 + d) :: p.1, p.2))
      else none
    | _, _, _, _ => none
  | '\\' :: e :: rest =>
    match (if e = '"' then some '"'
      else if e = '\\' then some '\\'
      else if e = '/' then some '/'
      else if e = 'b' then some '\x08'
      else if e = 'f' then some '\x0c'
      else if e = 'n' then some '\n'
      else if e = 'r' then some '\r'
      else if e = 't' then some '\t'
      else none) with
    | some c => (parseStringBody rest).map (fun p => (c :: p.1, p.2))
    | none => none
  | c :: rest =>
    if c.toNat < 32 then none
    else (parseStringBody rest).map (fun p => (c :: p.1, p.2))

/-- Decimal digit test. -/
def isDigitB (c : Char) : Bool :=
  48 ≤ c.toNat && c.toNat ≤ 57

/-- Collected digits at the head of the input. -/
def digitSpan (cs : List Char) : List Char × List Char :=
  (cs.takeWhile isDigitB, cs.dropWhile isDigitB)

/-- Numeric value of a digit run. -/
def digitsToNat (ds : List Char) : Nat :=
  ds.foldl (fun acc c => acc * 10 + (c.toNat - 48)) 0

/-- Parse a JSON integer token at the head of the input. A fraction or an
exponent (floats) is outside the modelled fragment, as is a leading zero. -/
def parseIntTok (cs : List Char) : Option (Int × List Char) :=
  match cs with
  | '-' :: cs1 =>
    match digitSpan cs1 with
    | ([], _) => none
    | (d :: ds, rest) =>
      if d = '0' ∧ ds ≠ [] then none
      else match rest with
        | '.' :: _ => none
        | 'e' :: _ => none
        | 'E' :: _ => none
        | _ => some (-(digitsToNat (d :: ds) : Int), rest)
  | _ =>
    match digitSpan cs with
    | ([], _) => none
    | (d :: ds, rest) =>
      if d = '0' ∧ ds ≠ [] then none
      else match rest with
        | '.' :: _ => none
        | 'e' :: _ => none
        | 'E' :: _ => none
        | _ => some ((digitsToNat (d :: ds) : Int), rest)

mutual

/-- Fueled JSON value parser (`json.loads` grammar on the integer fragment):
skip leading whitespace, parse one value, return the remaining input. -/
def parseVal : Nat → List Char → Option (Json × List Char)
  | 0, _ => none
  | fuel + 1, cs =>
    match cs.dropWhile isJsonWs with
    | 'n' :: 'u' :: 'l' :: 'l' :: rest => some (.null, rest)
    | 't' :: 'r' :: 'u' :: 'e' :: rest => some (.bool true, rest)
    | 'f' :: 'a' :: 'l' :: 's' :: 'e' :: rest => some (.bool false, rest)
    | '"' :: rest => (parseStringBody rest).map (fun p => (.str (String.mk p.1), p.2))
    | '\x7b' :: rest =>
      match rest.dropWhile isJsonWs with
      | '\x7d' :: r => some (.obj [], r)
      | r => (parseObjRest fuel r).map (fun p => (.obj p.1, p.2))
    | '\x5b' :: rest =>
      match rest.dropWhile isJsonWs with
      | '\x5d' :: r => some (.arr [], r)
      | r => (parseArrRest fuel r).map (fun p => (.arr p.1, p.2))
    | cs1 => (parseIntTok cs1).map (fun p => (.num p.1, p.2))

/-- Parse one or more comma-separated `"key": value` members and the closing
brace. -/
def parseObjRest : Nat → List Char → Option (List (String × Json) × List Char)
  | 0, _ => none
  | fuel + 1, cs =>
    match cs.dropWhile isJsonWs with
    | '"' :: rest =>
      match parseStringBody rest with
      | none => none
      | some (k, r1) =>
        match r1.dropWhile isJsonWs with
        | ':' :: r2 =>
          match parseVal fuel r2 with
          | none => none
          | some (v, r3) =>
            match r3.dropWhile isJsonWs with
            | ',' :: r4 => (parseObjRest fuel r4).map (fun p => ((String.mk k, v) :: p.1, p.2))
            | '\x7d' :: r4 => some ([(String.mk k, v)], r4)
            | _ => none
        | _ => none
    | _ => none

/-- Parse one or more comma-separated array elements and the closing
bracket. -/
def parseArrRest : Nat → List Char → Option (List Json × List Char)
  | 0, _ => none
  | fuel + 1, cs =>
    match parseVal fuel cs with
    | none => none
    | some (v, r1) =>
      match r1.dropWhile isJsonWs with
      | ',' :: r2 => (parseArrRest fuel r2).map (fun p => (v :: p.1, p.2))
      | '\x5d' :: r2 => some ([v], r2)
      | _ => none

end

/-- `json.loads` on a character list: a full parse with only trailing
whitespace allowed. -/
def loadsL (cs : List Char) : Option Json :=
  match parseVal (cs.length + 1) cs with
  | some (v, rest) => if (rest.dropWhile isJsonWs).isEmpty then some v else none
  | none => none

/-- Decimal digits of a natural number (the rendering used by `json.dumps`
for integers). -/
def natDigits (m : Nat) : List Char :=
  if h : m < 10 then [Char.ofNat (48 + m)]
  else natDigits (m / 10) ++ [Char.ofNat (48 + m % 10)]
  termination_by m
  decreasing_by
  · omega

/-- Decimal rendering of an integer. -/
def intRepr (n : Int) : List Char :=
  if n < 0 then '-' :: natDigits n.natAbs else natDigits n.toNat

/-- `json.dumps` escaping of one string character (ASCII model;
`ensure_ascii` escaping of non-ASCII is outside the modelled fragment). -/
def escChar (c : Char) : List Char :=
  if c = '"' then ['\\', '"']
  else if c = '\\' then ['\\', '\\']
  else if c = '\n' then ['\\', 'n']
  else if c = '\r' then ['\\', 'r']
  else if c = '\t' then ['\\', 't']
  else if c = '\x08' then ['\\', 'b']
  else if c = '\x0c' then ['\\', 'f']
  else if c.toNat < 32 then
    ['\\', 'u', '0', '0', hexDigitChar (c.toNat / 16), hexDigitChar (c.toNat % 16)]
  else [c]

/-- `json.dumps` of a string. -/
def escStr (s : String) : List Char :=
  '"' :: s.data.flatMap escChar ++ ['"']

mutual

/-- `json.dumps` (default separators) of a JSON value, as characters. -/
def serV : Json → List Char
  | .num n => intRepr n
  | .str s => escStr s
  | .arr [] => ['\x5b', '\x5d']
  | .arr (e :: es) => '\x5b' :: (serV e ++ serElemsTail es) ++ ['\x5d']
  | .obj [] => ['\x7b', '\x7d']
  | .obj (kv :: kvs) => '\x7b' :: (serMember kv ++ serMembersTail kvs) ++ ['\x7d']
  | .null => ['n', 'u', 'l', 'l']
  | .bool b => if b then ['t', 'r', 'u', 'e'] else ['f', 'a', 'l', 's', 'e']

/-- `", "`-separated remaining array elements. -/
def serElemsTail : List Json → List Char
  | [] => []
  | e :: es => ',' :: ' ' :: serV e ++ serElemsTail es

/-- One `"key": value` member. -/
def serMember : String × Json → List Char
  | (k, v) => escStr k ++ ':' :: ' ' :: serV v

/-- `", "`-separated remaining object members. -/
def serMembersTail : List (String × Json) → List Char
  | [] => []
  | kv :: kvs => ',' :: ' ' :: serMember kv ++ serMembersTail kvs

end

mutual

/-- Every string (and key) of the value satisfies the character predicate. -/
def strsOk (p : Char → Bool) : Json → Bool
  | .str s => s.data.all p
  | .arr es => strsOkList p es
  | .obj fs => strsOkFields p fs
  | _ => true

/-- `strsOk` over array elements. -/
def strsOkList (p : Char → Bool) : List Json → Bool
  | [] => true
  | e :: es => strsOk p e && strsOkList p es

/-- `strsOk` over object members (keys included). -/
def strsOkFields (p : Char → Bool) : List (String × Json) → Bool
  | [] => true
  | (k, v) :: kvs => k.data.all p && strsOk p v && strsOkFields p kvs

end

/-- Well-formed for serialization fidelity: all strings ASCII. -/
def wfJson (v : Json) : Bool :=
  strsOk (fun c => c.toNat < 128) v

/-- `_fix_json_string(text)`: strip, strip code fences (both regexes), strip
again, then the parse cascade — direct parse, brace block, trailing-comma
cleanup, brace block of the cleanup — or the diagnostic failure. -/
def fixJson (text : String) : Except String Json :=
  match loadsL (pyStripList (sub2 (sub1 (pyStripList text.data)))) with
  | some v => .ok v
  | none =>
    match (braceBlock (pyStripList (sub2 (sub1 (pyStripList text.data))))).bind loadsL with
    | some v => .ok v
    | none =>
      match loadsL (rtc (pyStripList (sub2 (sub1 (pyStripList text.data))))) with
      | some v => .ok v
      | none =>
        match (braceBlock (rtc (pyStripList (sub2 (sub1 (pyStripList text.data)))))).bind loadsL with
        | some v => .ok v
        | none =>
          .error ("Cannot extract valid JSON from LLM response. Raw (first 300 chars): "
            ++ String.mk ((pyStripList (sub2 (sub1 (pyStripList text.data)))).take 300))


/-! ## Roundtrip: `loadsL` recovers `serV` output -/

theorem char_toNat_ofNat {n : Nat} (h : n < 0xd800) : (Char.ofNat n).toNat = n := by
  unfold Char.ofNat
  split
  · rfl
  · rename_i hv
    exact absurd (Or.inl (by omega) : Nat.isValidChar n) hv

theorem char_ofNat_inj {a b : Nat} (ha : a < 0xd800) (hb : b < 0xd800)
    (h : Char.ofNat a = Char.ofNat b) : a = b := by
  have := congrArg Char.toNat h
  rwa [char_toNat_ofNat ha, char_toNat_ofNat hb] at this

theorem takeWhile_append_all {p : Char → Bool} {xs : List Char} (ys : List Char)
    (hx : ∀ a ∈ xs, p a = true) :
    (xs ++ ys).takeWhile p = xs ++ ys.takeWhile p := by
  induction xs with
  | nil => simp
  | cons a as ih =>
    have hpa := hx a (by simp)
    simp [List.takeWhile_cons, hpa, ih (fun b hb => hx b (by simp [hb]))]

theorem dropWhile_append_all {p : Char → Bool} {xs : List Char} (ys : List Char)
    (hx : ∀ a ∈ xs, p a = true) :
    (xs ++ ys).dropWhile p = ys.dropWhile p := by
  induction xs with
  | nil => simp
  | cons a as ih =>
    have hpa := hx a (by simp)
    simp [List.dropWhile_cons, hpa, ih (fun b hb => hx b (by simp [hb]))]

theorem takeWhile_nil_of_head {p : Char → Bool} {ys : List Char}
    (hy : ∀ c cs, ys = c :: cs → p c = false) : ys.takeWhile p = [] := by
  cases ys with
  | nil => rfl
  | cons c cs => simp [List.takeWhile_cons, hy c cs rfl]

theorem dropWhile_id_of_head {p : Char → Bool} {ys : List Char}
    (hy : ∀ c cs, ys = c :: cs → p c = false) : ys.dropWhile p = ys := by
  cases ys with
  | nil => rfl
  | cons c cs => simp [List.dropWhile_cons, hy c cs rfl]

theorem isDigitB_ofNat {k : Nat} (h : k < 10) : isDigitB (Char.ofNat (48 + k)) = true := by
  unfold isDigitB
  rw [char_toNat_ofNat (by omega)]
  simp only [Bool.and_eq_true, decide_eq_true_eq]
  omega

theorem natDigits_ne_nil (m : Nat) : natDigits m ≠ [] := by
  unfold natDigits
  split <;> simp

theorem natDigits_all (m : Nat) : ∀ c ∈ natDigits m, isDigitB c = true := by
  induction m using Nat.strong_induction_on with
  | _ m IH =>
    unfold natDigits
    split
    · rename_i h
      intro c hc
      simp only [List.mem_singleton] at hc
      subst hc
      exact isDigitB_ofNat h
    · rename_i h
      intro c hc
      simp only [List.mem_append, List.mem_singleton] at hc
      rcases hc with hc | hc
      · exact IH (m / 10) (by omega) c hc
      · subst hc
        exact isDigitB_ofNat (Nat.mod_lt _ (by omega))

theorem digitsToNat_append (ds : List Char) (c : Char) :
    digitsToNat (ds ++ [c]) = digitsToNat ds * 10 + (c.toNat - 48) := by
  simp [digitsToNat, List.foldl_append]

theorem digitsToNat_natDigits (m : Nat) : digitsToNat (natDigits m) = m := by
  induction m using Nat.strong_induction_on with
  | _ m IH =>
    unfold natDigits
    split
    · rename_i h
      simp [digitsToNat, char_toNat_ofNat (show 48 + m < 0xd800 by omega)]
    · rename_i h
      rw [digitsToNat_append, IH (m / 10) (by omega),
        char_toNat_ofNat (show 48 + m % 10 < 0xd800 by omega)]
      omega

theorem natDigits_head_ne_zero (m : Nat) (hm : m ≠ 0) :
    ∀ {d : Char} {ds : List Char}, natDigits m = d :: ds → d ≠ '0' := by
  induction m using Nat.strong_induction_on with
  | _ m IH =>
    intro d ds hds
    unfold natDigits at hds
    split at hds
    · rename_i h
      simp only [List.cons.injEq] at hds
      intro hd
      have hc : Char.ofNat (48 + m) = Char.ofNat 48 := by
        rw [hds.1, hd]
      have := char_ofNat_inj (by omega) (by omega) hc
      omega
    · rename_i h
      rcases he : natDigits (m / 10) with _ | ⟨d0, ds0⟩
      · exact absurd he (natDigits_ne_nil _)
      · rw [he, List.cons_append] at hds
        have hd0 := IH (m / 10) (by omega) (by omega) he
        simp only [List.cons.injEq] at hds
        rw [← hds.1]
        exact hd0

/-- A character list that a number token must not continue into. -/
def numStopOk : List Char → Bool
  | [] => true
  | c :: _ => !(isDigitB c || c = '.' || c = 'e' || c = 'E')

theorem digitSpan_digits_append {rest : List Char} (m : Nat) (hr : numStopOk rest = true) :
    digitSpan (natDigits m ++ rest) = (natDigits m, rest) := by
  have hstop : ∀ c cs, rest = c :: cs → isDigitB c = false := by
    intro c cs hc
    subst hc
    simp only [numStopOk, Bool.not_eq_eq_eq_not, Bool.not_true, Bool.or_eq_false_iff] at hr
    exact hr.1.1.1
  unfold digitSpan
  rw [takeWhile_append_all _ (natDigits_all m), dropWhile_append_all _ (natDigits_all m),
    takeWhile_nil_of_head hstop, dropWhile_id_of_head hstop, List.append_nil]

theorem parseIntTok_natDigits (m : Nat) (rest : List Char) (hr : numStopOk rest = true) :
    parseIntTok (natDigits m ++ rest) = some ((m : Int), rest) := by
  have hspan := digitSpan_digits_append m hr
  rcases he : natDigits m with _ | ⟨d, ds⟩
  · exact absurd he (natDigits_ne_nil _)
  rw [he] at hspan
  have hnolead : ¬(d = '0' ∧ ds ≠ []) := by
    rcases eq_or_ne m 0 with hm | hm
    · subst hm
      have h0 : natDigits 0 = ['0'] := by
        rw [natDigits]
        decide
      rw [h0] at he
      simp only [List.cons.injEq] at he
      rintro ⟨-, hne⟩
      exact hne he.2.symm
    · rintro ⟨hd, -⟩
      exact natDigits_head_ne_zero m hm he hd
  have hne : d ≠ '-' := by
    have hdig := natDigits_all m d (by rw [he]; simp)
    intro hd
    subst hd
    simp [isDigitB] at hdig
  have hrest : ∀ c cs, rest = c :: cs → c ≠ '.' ∧ c ≠ 'e' ∧ c ≠ 'E' := by
    intro c cs hc
    subst hc
    simp only [numStopOk, Bool.not_eq_eq_eq_not, Bool.not_true, Bool.or_eq_false_iff,
      decide_eq_false_iff_not] at hr
    exact ⟨hr.1.1.2, hr.1.2, hr.2⟩
  unfold parseIntTok
  split
  · rename_i cs1 heq
    simp only [List.cons_append, List.cons.injEq] at heq
    exact absurd heq.1 hne
  · rw [hspan]
    simp only
    rw [if_neg hnolead]
    rcases rest with _ | ⟨c, cs⟩
    · simp only [Option.some.injEq, Prod.mk.injEq]
      rw [← he, digitsToNat_natDigits]
      exact ⟨rfl, trivial⟩
    · obtain ⟨h1, h2, h3⟩ := hrest c cs rfl
      split
      · rename_i hcc
        simp only [List.cons.injEq] at hcc
        exact absurd hcc.1 h1
      · rename_i hcc
        simp only [List.cons.injEq] at hcc
        exact absurd hcc.1 h2
      · rename_i hcc
        simp only [List.cons.injEq] at hcc
        exact absurd hcc.1 h3
      · simp only [Option.some.injEq, Prod.mk.injEq]
        rw [← he, digitsToNat_natDigits]
        exact ⟨rfl, trivial⟩


theorem parseIntTok_intRepr (n : Int) (rest : List Char) (hr : numStopOk rest = true) :
    parseIntTok (intRepr n ++ rest) = some (n, rest) := by
  by_cases hn : n < 0
  · unfold intRepr
    rw [if_pos hn]
    have hm0 : n.natAbs ≠ 0 := by
      have := Int.natAbs_pos.mpr (show n ≠ 0 by omega)
      omega
    have hspan := digitSpan_digits_append n.natAbs hr
    rcases he : natDigits n.natAbs with _ | ⟨d, ds⟩
    · exact absurd he (natDigits_ne_nil _)
    rw [he] at hspan
    have hnolead : ¬(d = '0' ∧ ds ≠ []) := fun hcon =>
      natDigits_head_ne_zero _ hm0 he hcon.1
    have hrest : ∀ c cs, rest = c :: cs → c ≠ '.' ∧ c ≠ 'e' ∧ c ≠ 'E' := by
      intro c cs hc
      subst hc
      simp only [numStopOk, Bool.not_eq_eq_eq_not, Bool.not_true, Bool.or_eq_false_iff,
        decide_eq_false_iff_not] at hr
      exact ⟨hr.1.1.2, hr.1.2, hr.2⟩
    rw [List.cons_append] at hspan
    simp only [List.cons_append]
    unfold parseIntTok
    split
    · rename_i cs1 heq
      simp only [List.cons.injEq] at heq
      rw [← heq.2, hspan]
      simp only
      rw [if_neg hnolead]
      rcases rest with _ | ⟨c, cs⟩
      · simp only [Option.some.injEq, Prod.mk.injEq]
        refine ⟨?_, trivial⟩
        rw [← he, digitsToNat_natDigits]
        omega
      · obtain ⟨h1, h2, h3⟩ := hrest c cs rfl
        split
        · rename_i hcc
          simp only [List.cons.injEq] at hcc
          exact absurd hcc.1 h1
        · rename_i hcc
          simp only [List.cons.injEq] at hcc
          exact absurd hcc.1 h2
        · rename_i hcc
          simp only [List.cons.injEq] at hcc
          exact absurd hcc.1 h3
        · simp only [Option.some.injEq, Prod.mk.injEq]
          refine ⟨?_, trivial⟩
          rw [← he, digitsToNat_natDigits]
          omega
    · rename_i hne2
      exact (hne2 (d :: (ds ++ rest)) rfl).elim
  · unfold intRepr
    rw [if_neg hn]
    rw [parseIntTok_natDigits n.toNat rest hr]
    congr 2
    omega

theorem char_ofNat_toNat_lt {c : Char} (h : c.toNat < 32) : Char.ofNat c.toNat = c :=
  Char.ofNat_toNat c

theorem parseStringBody_esc (l rest : List Char) :
    parseStringBody (l.flatMap escChar ++ '"' :: rest) = some (l, rest) := by
  induction l with
  | nil => simp [parseStringBody]
  | cons c cs ih =>
    simp only [List.flatMap_cons, List.append_assoc]
    by_cases h1 : c = '"'
    · subst h1
      simp [escChar, parseStringBody, ih]
    by_cases h2 : c = '\\'
    · subst h2
      simp [escChar, parseStringBody, ih]
    by_cases h3 : c = '\n'
    · subst h3
      simp [escChar, parseStringBody, ih]
    by_cases h4 : c = '\r'
    · subst h4
      simp [escChar, parseStringBody, ih]
    by_cases h5 : c = '\t'
    · subst h5
      simp [escChar, parseStringBody, ih]
    by_cases h6 : c = '\x08'
    · subst h6
      simp [escChar, parseStringBody, ih]
    by_cases h7 : c = '\x0c'
    · subst h7
      simp [escChar, parseStringBody, ih]
    by_cases h8 : c.toNat < 32
    · have hesc : escChar c =
          ['\\', 'u', '0', '0', hexDigitChar (c.toNat / 16), hexDigitChar (c.toNat % 16)] := by
        simp [escChar, h1, h2, h3, h4, h5, h6, h7, h8]
      rw [hesc]
      have e1 : hexVal (hexDigitChar (c.toNat / 16)) = some (c.toNat / 16) := by
        have hlt : c.toNat / 16 < 16 := by omega
        interval_cases h : (c.toNat / 16) <;> decide
      have e2 : hexVal (hexDigitChar (c.toNat % 16)) = some (c.toNat % 16) := by
        have hlt : c.toNat % 16 < 16 := by omega
        interval_cases h : (c.toNat % 16) <;> decide
      have e0 : hexVal '0' = some 0 := by decide
      simp only [List.cons_append, parseStringBody, e0, e1, e2]
      have hval : ((0 * 16 + 0) * 16 + c.toNat / 16) * 16 + c.toNat % 16 = c.toNat := by omega
      rw [hval, if_pos (show c.toNat < 0xd800 by omega), Char.ofNat_toNat]
      rw [show ([] : List Char).append (cs.flatMap escChar ++ '"' :: rest)
        = cs.flatMap escChar ++ '"' :: rest from rfl]
      rw [ih]
      rfl
    · have hesc : escChar c = [c] := by
        simp [escChar, h1, h2, h3, h4, h5, h6, h7, h8]
      rw [hesc]
      simp only [List.singleton_append]
      rw [parseStringBody.eq_def]
      split
      · rename_i heq
        simp at heq
      · rename_i heq
        simp only [List.cons.injEq] at heq
        exact absurd heq.1 h1
      · rename_i a1 a2 a3 a4 a5 heq
        simp only [List.cons.injEq] at heq
        exact absurd heq.1 h2
      · rename_i a1 a2 heq
        simp only [List.cons.injEq] at heq
        exact absurd heq.1 h2
      · rename_i a1 a2 heq
        simp only [List.cons.injEq] at heq
        obtain ⟨hc, hr⟩ := heq
        subst hc
        rw [if_neg h8, ← hr, ih]
        rfl


theorem string_mk_data (s : String) : String.mk s.data = s := rfl

theorem digit_head_facts {c : Char} (h : isDigitB c = true) :
    isJsonWs c = false ∧ isPyWs c = false ∧ c ≠ ']' ∧ c ≠ '\x7d' := by
  have hn : 48 ≤ c.toNat ∧ c.toNat ≤ 57 := by simpa [isDigitB] using h
  refine ⟨?_, ?_, ?_, ?_⟩
  · simp only [isJsonWs, Bool.or_eq_false_iff, decide_eq_false_iff_not]
    refine ⟨⟨⟨?_, ?_⟩, ?_⟩, ?_⟩ <;> (intro hc; subst hc; exact absurd hn (by decide))
  · simp only [isPyWs, Bool.or_eq_false_iff, decide_eq_false_iff_not]
    refine ⟨⟨⟨⟨⟨?_, ?_⟩, ?_⟩, ?_⟩, ?_⟩, ?_⟩ <;> (intro hc; subst hc; exact absurd hn (by decide))
  · intro hc; subst hc; exact absurd hn (by decide)
  · intro hc; subst hc; exact absurd hn (by decide)

/-- The first character of a serialized value: never whitespace and never a
closing bracket. -/
theorem serV_head (v : Json) : ∃ c l, serV v = c :: l ∧
    isJsonWs c = false ∧ isPyWs c = false ∧ c ≠ ']' ∧ c ≠ '\x7d' := by
  cases v with
  | null => exact ⟨'n', _, rfl, by decide, by decide, by decide, by decide⟩
  | bool b =>
    cases b
    · exact ⟨'f', _, rfl, by decide, by decide, by decide, by decide⟩
    · exact ⟨'t', _, rfl, by decide, by decide, by decide, by decide⟩
  | num n =>
    show ∃ c l, intRepr n = c :: l ∧ _
    unfold intRepr
    split
    · exact ⟨'-', _, rfl, by decide, by decide, by decide, by decide⟩
    · rcases he : natDigits n.toNat with _ | ⟨d, ds⟩
      · exact absurd he (natDigits_ne_nil _)
      · have hd := natDigits_all n.toNat d (by rw [he]; simp)
        obtain ⟨f1, f2, f3, f4⟩ := digit_head_facts hd
        exact ⟨d, ds, rfl, f1, f2, f3, f4⟩
  | str s => exact ⟨'"', _, rfl, by decide, by decide, by decide, by decide⟩
  | arr es =>
    cases es
    · exact ⟨'\x5b', _, rfl, by decide, by decide, by decide, by decide⟩
    · exact ⟨'\x5b', _, rfl, by decide, by decide, by decide, by decide⟩
  | obj fs =>
    cases fs
    · exact ⟨'\x7b', _, rfl, by decide, by decide, by decide, by decide⟩
    · exact ⟨'\x7b', _, rfl, by decide, by decide, by decide, by decide⟩

theorem parseVal_ws (fuel : Nat) {c : Char} (hc : isJsonWs c = true) (cs : List Char) :
    parseVal fuel (c :: cs) = parseVal fuel cs := by
  cases fuel with
  | zero => rfl
  | succ f =>
    unfold parseVal
    rw [List.dropWhile_cons, if_pos hc]

theorem parseArrRest_ws (fuel : Nat) {c : Char} (hc : isJsonWs c = true) (cs : List Char) :
    parseArrRest fuel (c :: cs) = parseArrRest fuel cs := by
  cases fuel with
  | zero => rfl
  | succ f =>
    unfold parseArrRest
    rw [parseVal_ws f hc]



theorem digit_ne_kw {c : Char} (h : isDigitB c = true) :
    c ≠ 'n' ∧ c ≠ 't' ∧ c ≠ 'f' ∧ c ≠ '"' ∧ c ≠ '\x7b' ∧ c ≠ '\x5b' := by
  have hn : 48 ≤ c.toNat ∧ c.toNat ≤ 57 := by simpa [isDigitB] using h
  refine ⟨?_, ?_, ?_, ?_, ?_, ?_⟩ <;> (intro hc; subst hc; exact absurd hn (by decide))

theorem intRepr_head (n : Int) : ∃ d l, intRepr n = d :: l ∧ (d = '-' ∨ isDigitB d = true) := by
  unfold intRepr
  split
  · exact ⟨'-', _, rfl, Or.inl rfl⟩
  · rcases he : natDigits n.toNat with _ | ⟨d, ds⟩
    · exact absurd he (natDigits_ne_nil _)
    · exact ⟨d, ds, rfl, Or.inr (natDigits_all n.toNat d (by rw [he]; simp))⟩

theorem numStopOk_comma (cs : List Char) : numStopOk (',' :: cs) = true := rfl

theorem numStopOk_rbracket (cs : List Char) : numStopOk (']' :: cs) = true := rfl

theorem numStopOk_rbrace (cs : List Char) : numStopOk ('\x7d' :: cs) = true := rfl

theorem parseObjRest_ws (fuel : Nat) {c : Char} (hc : isJsonWs c = true) (cs : List Char) :
    parseObjRest fuel (c :: cs) = parseObjRest fuel cs := by
  cases fuel with
  | zero => rfl
  | succ f =>
    unfold parseObjRest
    rw [List.dropWhile_cons, if_pos hc]

theorem parse_ser_all (fuel : Nat) :
    (∀ v rest, (serV v).length < fuel → numStopOk rest = true →
      parseVal fuel (serV v ++ rest) = some (v, rest)) ∧
    (∀ e es rest, (serV e ++ serElemsTail es).length + 1 < fuel →
      parseArrRest fuel (serV e ++ (serElemsTail es ++ ']' :: rest)) = some (e :: es, rest)) ∧
    (∀ kv kvs rest, (serMember kv ++ serMembersTail kvs).length + 1 < fuel →
      parseObjRest fuel (serMember kv ++ (serMembersTail kvs ++ '\x7d' :: rest)) = some (kv :: kvs, rest)) := by
  induction fuel using Nat.strong_induction_on with
  | _ fuel IH =>
  rcases fuel with _ | f
  · refine ⟨?_, ?_, ?_⟩
    · intro v rest hb _
      exact absurd hb (by omega)
    · intro e es rest hb
      exact absurd hb (by omega)
    · intro kv kvs rest hb
      exact absurd hb (by omega)
  obtain ⟨IHv, IHa, IHo⟩ := IH f (Nat.lt_succ_self f)
  refine ⟨?_, ?_, ?_⟩
  · intro v rest hb hrest
    cases v with
    | null => simp [serV, parseVal, isJsonWs]
    | bool b => cases b <;> simp [serV, parseVal, isJsonWs]
    | num n =>
      obtain ⟨d, l, hd, hdig⟩ := intRepr_head n
      have hws : isJsonWs d = false := by
        rcases hdig with h | h
        · subst h; decide
        · exact (digit_head_facts h).1
      have hne : d ≠ 'n' ∧ d ≠ 't' ∧ d ≠ 'f' ∧ d ≠ '"' ∧ d ≠ '\x7b' ∧ d ≠ '\x5b' := by
        rcases hdig with h | h
        · subst h
          exact ⟨by decide, by decide, by decide, by decide, by decide, by decide⟩
        · exact digit_ne_kw h
      show parseVal (f + 1) (intRepr n ++ rest) = some (.num n, rest)
      rw [hd]
      unfold parseVal
      rw [List.cons_append, List.dropWhile_cons, hws, if_neg (by decide)]
      split
      · rename_i heq
        simp only [List.cons.injEq] at heq
        exact absurd heq.1 hne.1
      · rename_i heq
        simp only [List.cons.injEq] at heq
        exact absurd heq.1 hne.2.1
      · rename_i heq
        simp only [List.cons.injEq] at heq
        exact absurd heq.1 hne.2.2.1
      · rename_i heq
        simp only [List.cons.injEq] at heq
        exact absurd heq.1 hne.2.2.2.1
      · rename_i heq
        simp only [List.cons.injEq] at heq
        exact absurd heq.1 hne.2.2.2.2.1
      · rename_i heq
        simp only [List.cons.injEq] at heq
        exact absurd heq.1 hne.2.2.2.2.2
      · rw [← List.cons_append, ← hd, parseIntTok_intRepr n rest hrest]
        rfl
    | str s =>
      have hshape : serV (.str s) ++ rest
          = '"' :: (s.data.flatMap escChar ++ '"' :: rest) := by
        simp [serV, escStr]
      rw [hshape]
      unfold parseVal
      rw [List.dropWhile_cons, if_neg (by decide)]
      show Option.map (fun (p : List Char × List Char) => (Json.str (String.mk p.1), p.2))
        (parseStringBody (s.data.flatMap escChar ++ '"' :: rest)) = _
      rw [parseStringBody_esc]
      rfl
    | arr es =>
      cases es with
      | nil => simp [serV, parseVal, isJsonWs]
      | cons e es2 =>
        obtain ⟨c0, l0, hc0, hw0, hpw0, hbr0, hbc0⟩ := serV_head e
        have hshape : serV (.arr (e :: es2)) ++ rest
            = '\x5b' :: (serV e ++ (serElemsTail es2 ++ ']' :: rest)) := by
          simp [serV]
        rw [hshape]
        unfold parseVal
        rw [List.dropWhile_cons, if_neg (by decide)]
        show (match (serV e ++ (serElemsTail es2 ++ ']' :: rest)).dropWhile isJsonWs with
          | ']' :: r => some (Json.arr [], r)
          | r => Option.map (fun (p : List Json × List Char) => (Json.arr p.1, p.2))
              (parseArrRest f r)) = _
        rw [hc0, List.cons_append, List.dropWhile_cons, hw0, if_neg (by decide)]
        split
        · rename_i heq
          simp only [List.cons.injEq] at heq
          exact absurd heq.1 hbr0
        · rw [← List.cons_append, ← hc0]
          have hlen : (serV e ++ serElemsTail es2).length + 1 < f := by
            have : (serV (.arr (e :: es2))).length
                = (serV e ++ serElemsTail es2).length + 2 := by
              simp [serV]
              omega
            omega
          rw [IHa e es2 rest hlen]
          rfl
    | obj fs =>
      cases fs with
      | nil => simp [serV, parseVal, isJsonWs]
      | cons kv kvs =>
        have hshape : serV (.obj (kv :: kvs)) ++ rest
            = '\x7b' :: (serMember kv ++ (serMembersTail kvs ++ '\x7d' :: rest)) := by
          simp [serV]
        rw [hshape]
        unfold parseVal
        rw [List.dropWhile_cons, if_neg (by decide)]
        obtain ⟨k, v0⟩ := kv
        have hm : serMember (k, v0) ++ (serMembersTail kvs ++ '\x7d' :: rest)
            = '"' :: (k.data.flatMap escChar
              ++ '"' :: (':' :: ' ' :: (serV v0 ++ (serMembersTail kvs ++ '\x7d' :: rest)))) := by
          simp [serMember, escStr]
        show (match (serMember (k, v0) ++ (serMembersTail kvs ++ '\x7d' :: rest)).dropWhile isJsonWs with
          | '\x7d' :: r => some (Json.obj [], r)
          | r => Option.map (fun (p : List (String × Json) × List Char) => (Json.obj p.1, p.2))
              (parseObjRest f r)) = _
        rw [hm, List.dropWhile_cons, if_neg (by decide)]
        split
        · rename_i heq
          simp at heq
        · rw [← hm]
          have hlen : (serMember (k, v0) ++ serMembersTail kvs).length + 1 < f := by
            have : (serV (.obj ((k, v0) :: kvs))).length
                = (serMember (k, v0) ++ serMembersTail kvs).length + 2 := by
              simp [serV]
              omega
            omega
          rw [IHo (k, v0) kvs rest hlen]
          rfl
  · intro e es rest hb
    unfold parseArrRest
    cases es with
    | nil =>
      have hlen : (serV e).length < f := by
        simp only [serElemsTail, List.append_nil] at hb
        omega
      simp only [serElemsTail, List.nil_append]
      rw [IHv e (']' :: rest) hlen (numStopOk_rbracket rest)]
      simp [isJsonWs]
    | cons e2 es2 =>
      have htail : serElemsTail (e2 :: es2) = ',' :: ' ' :: serV e2 ++ serElemsTail es2 := by
        simp [serElemsTail]
      rw [htail]
      have hlen : (serV e).length < f := by
        have h2 := congrArg List.length htail
        simp only [List.length_cons, List.length_append] at h2 hb ⊢
        omega
      rw [show (',' :: ' ' :: serV e2 ++ serElemsTail es2 ++ ']' :: rest)
          = ',' :: ' ' :: (serV e2 ++ (serElemsTail es2 ++ ']' :: rest)) by simp]
      rw [IHv e _ hlen (numStopOk_comma _)]
      show (match (',' :: ' ' :: (serV e2 ++ (serElemsTail es2 ++ ']' :: rest))).dropWhile isJsonWs with
        | ',' :: r2 => Option.map (fun (p : List Json × List Char) => (e :: p.1, p.2))
            (parseArrRest f r2)
        | ']' :: r2 => some ([e], r2)
        | _ => none) = _
      rw [List.dropWhile_cons, if_neg (by decide)]
      show Option.map (fun (p : List Json × List Char) => (e :: p.1, p.2))
        (parseArrRest f (' ' :: (serV e2 ++ (serElemsTail es2 ++ ']' :: rest)))) = _
      rw [parseArrRest_ws f (by decide) _]
      have hlen2 : (serV e2 ++ serElemsTail es2).length + 1 < f := by
        have h2 := congrArg List.length htail
        simp only [List.length_cons, List.length_append] at h2 hb ⊢
        omega
      rw [IHa e2 es2 rest hlen2]
      rfl
  · intro kv kvs rest hb
    obtain ⟨k, v0⟩ := kv
    unfold parseObjRest
    have hm : serMember (k, v0) ++ (serMembersTail kvs ++ '\x7d' :: rest)
        = '"' :: (k.data.flatMap escChar
          ++ '"' :: (':' :: ' ' :: (serV v0 ++ (serMembersTail kvs ++ '\x7d' :: rest)))) := by
      simp [serMember, escStr]
    rw [hm, List.dropWhile_cons, if_neg (by decide)]
    show (match parseStringBody (k.data.flatMap escChar
        ++ '"' :: (':' :: ' ' :: (serV v0 ++ (serMembersTail kvs ++ '\x7d' :: rest)))) with
      | none => none
      | some (key, r1) =>
        match r1.dropWhile isJsonWs with
        | ':' :: r2 =>
          match parseVal f r2 with
          | none => none
          | some (v, r3) =>
            match r3.dropWhile isJsonWs with
            | ',' :: r4 => Option.map
                (fun (p : List (String × Json) × List Char) => ((String.mk key, v) :: p.1, p.2))
                (parseObjRest f r4)
            | '\x7d' :: r4 => some ([(String.mk key, v)], r4)
            | _ => none
        | _ => none) = _
    rw [parseStringBody_esc]
    show (match ((':' :: ' ' :: (serV v0 ++ (serMembersTail kvs ++ '\x7d' :: rest))) : List Char).dropWhile isJsonWs with
      | ':' :: r2 =>
        match parseVal f r2 with
        | none => none
        | some (v, r3) =>
          match r3.dropWhile isJsonWs with
          | ',' :: r4 => Option.map
              (fun (p : List (String × Json) × List Char) => ((String.mk k.data, v) :: p.1, p.2))
              (parseObjRest f r4)
          | '\x7d' :: r4 => some ([(String.mk k.data, v)], r4)
          | _ => none
      | _ => none) = _
    rw [List.dropWhile_cons, if_neg (by decide)]
    have hvlen : (serV v0).length < f := by
      have h2 : (serMember (k, v0)).length = (escStr k).length + 2 + (serV v0).length := by
        simp [serMember]
        omega
      have h3 : 1 ≤ (escStr k).length := by
        simp [escStr]
      simp only [List.length_append] at hb
      omega
    have hstop : numStopOk (serMembersTail kvs ++ '\x7d' :: rest) = true := by
      cases kvs with
      | nil => simp [serMembersTail, numStopOk_rbrace]
      | cons kv2 kvs2 => simp [serMembersTail, numStopOk_comma]
    show (match parseVal f (' ' :: (serV v0 ++ (serMembersTail kvs ++ '\x7d' :: rest))) with
      | none => none
      | some (v, r3) =>
        match r3.dropWhile isJsonWs with
        | ',' :: r4 => Option.map
            (fun (p : List (String × Json) × List Char) => ((String.mk k.data, v) :: p.1, p.2))
            (parseObjRest f r4)
        | '\x7d' :: r4 => some ([(String.mk k.data, v)], r4)
        | _ => none) = _
    rw [parseVal_ws f (by decide), IHv v0 _ hvlen hstop]
    cases kvs with
    | nil =>
      simp only [serMembersTail, List.nil_append]
      show (match (('\x7d' :: rest : List Char)).dropWhile isJsonWs with
        | ',' :: r4 => Option.map
            (fun (p : List (String × Json) × List Char) => ((String.mk k.data, v0) :: p.1, p.2))
            (parseObjRest f r4)
        | '\x7d' :: r4 => some ([(String.mk k.data, v0)], r4)
        | _ => none) = _
      rw [List.dropWhile_cons, if_neg (by decide)]
      rfl
    | cons kv2 kvs2 =>
      have htail : serMembersTail (kv2 :: kvs2)
          = ',' :: ' ' :: serMember kv2 ++ serMembersTail kvs2 := by
        simp [serMembersTail]
      rw [htail]
      rw [show ((',' :: ' ' :: serMember kv2 ++ serMembersTail kvs2 ++ '\x7d' :: rest) : List Char)
          = ',' :: ' ' :: (serMember kv2 ++ (serMembersTail kvs2 ++ '\x7d' :: rest)) by simp]
      show (match ((',' :: ' ' :: (serMember kv2 ++ (serMembersTail kvs2 ++ '\x7d' :: rest))) : List Char).dropWhile isJsonWs with
        | ',' :: r4 => Option.map
            (fun (p : List (String × Json) × List Char) => ((String.mk k.data, v0) :: p.1, p.2))
            (parseObjRest f r4)
        | '\x7d' :: r4 => some ([(String.mk k.data, v0)], r4)
        | _ => none) = _
      rw [List.dropWhile_cons, if_neg (by decide)]
      show Option.map
          (fun (p : List (String × Json) × List Char) => ((String.mk k.data, v0) :: p.1, p.2))
          (parseObjRest f (' ' :: (serMember kv2 ++ (serMembersTail kvs2 ++ '\x7d' :: rest)))) = _
      rw [parseObjRest_ws f (by decide)]
      have hlen2 : (serMember kv2 ++ serMembersTail kvs2).length + 1 < f := by
        have h2 := congrArg List.length htail
        have h3 : (serMember (k, v0)).length = (escStr k).length + 2 + (serV v0).length := by
          simp [serMember]
          omega
        have h4 : 1 ≤ (escStr k).length := by
          simp [escStr]
        have h5 : 1 ≤ (serV v0).length := by
          obtain ⟨c1, l1, hc1, -⟩ := serV_head v0
          rw [hc1]
          simp
        simp only [List.length_cons, List.length_append] at h2 hb ⊢
        omega
      rw [IHo kv2 kvs2 rest hlen2]
      rfl




/-- Structural induction over the nested `Json` type. -/
def Json.inductionOn (P : Json → Prop) (hnull : P .null) (hbool : ∀ b, P (.bool b))
    (hnum : ∀ n, P (.num n)) (hstr : ∀ s, P (.str s))
    (harr : ∀ es, (∀ e ∈ es, P e) → P (.arr es))
    (hobj : ∀ fs, (∀ kv ∈ fs, P kv.2) → P (.obj fs)) : ∀ v, P v
  | .null => hnull
  | .bool b => hbool b
  | .num n => hnum n
  | .str s => hstr s
  | .arr es => harr es (fun e he =>
      Json.inductionOn P hnull hbool hnum hstr harr hobj e)
  | .obj fs => hobj fs (fun kv hkv =>
      Json.inductionOn P hnull hbool hnum hstr harr hobj kv.2)
  termination_by v => sizeOf v
  decreasing_by
  · have := List.sizeOf_lt_of_mem he
    simp only [Json.arr.sizeOf_spec]
    omega
  · have h1 := List.sizeOf_lt_of_mem hkv
    obtain ⟨k, v2⟩ := kv
    simp only [Json.obj.sizeOf_spec, Prod.mk.sizeOf_spec] at *
    omega

theorem hexDigitChar_toNat {k : Nat} (h : k < 16) :
    (hexDigitChar k).toNat = if k < 10 then 48 + k else 87 + k := by
  unfold hexDigitChar
  split
  · rw [char_toNat_ofNat (by omega)]
  · rw [char_toNat_ofNat (by omega)]

theorem hexDigitChar_ne_nl {k : Nat} (h : k < 16) : hexDigitChar k ≠ '\n' := by
  intro hc
  have h2 := congrArg Char.toNat hc
  rw [hexDigitChar_toNat h] at h2
  revert h2
  split <;> (intro h2; simp at h2) <;> omega

theorem escChar_no_nl {c d : Char} (hd : d ∈ escChar c) : d ≠ '\n' := by
  intro hc
  subst hc
  unfold escChar at hd
  by_cases h1 : c = '"'
  · simp [h1] at hd
  by_cases h2 : c = '\\'
  · simp [h1, h2] at hd
  by_cases h3 : c = '\n'
  · simp [h1, h2, h3] at hd
  by_cases h4 : c = '\r'
  · simp [h1, h2, h3, h4] at hd
  by_cases h5 : c = '\t'
  · simp [h1, h2, h3, h4, h5] at hd
  by_cases h6 : c = '\x08'
  · simp [h1, h2, h3, h4, h5, h6] at hd
  by_cases h7 : c = '\x0c'
  · simp [h1, h2, h3, h4, h5, h6, h7] at hd
  by_cases h8 : c.toNat < 32
  · simp only [h1, h2, h3, h4, h5, h6, h7, h8, if_false, if_true, if_neg, if_pos,
      List.mem_cons, List.not_mem_nil, or_false] at hd
    rcases hd with hd | hd | hd | hd | hd | hd
    · exact absurd hd (by decide)
    · exact absurd hd (by decide)
    · exact absurd hd (by decide)
    · exact absurd hd (by decide)
    · exact (hexDigitChar_ne_nl (show c.toNat / 16 < 16 by omega)) hd.symm
    · exact (hexDigitChar_ne_nl (show c.toNat % 16 < 16 by omega)) hd.symm
  · simp [h1, h2, h3, h4, h5, h6, h7, h8] at hd
    exact h3 hd.symm

theorem escStr_no_nl {s : String} : ∀ d ∈ escStr s, d ≠ '\n' := by
  intro d hd
  unfold escStr at hd
  simp only [List.mem_cons, List.mem_append, List.mem_flatMap, List.mem_singleton] at hd
  rcases hd with (rfl | ⟨a, -, ha⟩) | rfl | h0
  · decide
  · exact escChar_no_nl ha
  · decide
  · exact absurd h0 (List.not_mem_nil d)

theorem natDigits_no_nl {m : Nat} {d : Char} (hd : d ∈ natDigits m) : d ≠ '\n' := by
  have hdig := natDigits_all m d hd
  intro hc
  subst hc
  simp [isDigitB] at hdig

theorem intRepr_no_nl {n : Int} {d : Char} (hd : d ∈ intRepr n) : d ≠ '\n' := by
  unfold intRepr at hd
  split at hd
  · rcases List.mem_cons.mp hd with rfl | hd
    · decide
    · exact natDigits_no_nl hd
  · exact natDigits_no_nl hd

theorem serElemsTail_no_nl {es : List Json}
    (IH : ∀ e ∈ es, ∀ d ∈ serV e, d ≠ '\n') : ∀ d ∈ serElemsTail es, d ≠ '\n' := by
  induction es with
  | nil => simp [serElemsTail]
  | cons e es ih =>
    intro d hd
    simp only [serElemsTail, List.mem_cons, List.mem_append] at hd
    rcases hd with (rfl | rfl | hv) | ht
    · decide
    · decide
    · exact IH e (by simp) d hv
    · exact ih (fun e2 he2 => IH e2 (by simp [he2])) d ht

theorem serMember_no_nl {kv : String × Json}
    (IH : ∀ d ∈ serV kv.2, d ≠ '\n') : ∀ d ∈ serMember kv, d ≠ '\n' := by
  obtain ⟨k, v⟩ := kv
  intro d hd
  simp only [serMember, List.mem_append, List.mem_cons] at hd
  rcases hd with hk | rfl | rfl | hv
  · exact escStr_no_nl d hk
  · decide
  · decide
  · exact IH d hv

theorem serMembersTail_no_nl {fs : List (String × Json)}
    (IH : ∀ kv ∈ fs, ∀ d ∈ serV kv.2, d ≠ '\n') : ∀ d ∈ serMembersTail fs, d ≠ '\n' := by
  induction fs with
  | nil => simp [serMembersTail]
  | cons kv kvs ih =>
    intro d hd
    simp only [serMembersTail, List.mem_cons, List.mem_append] at hd
    rcases hd with (rfl | rfl | hm) | ht
    · decide
    · decide
    · exact serMember_no_nl (IH kv (by simp)) d hm
    · exact ih (fun kv2 h2 => IH kv2 (by simp [h2])) d ht

/-- The serializer never emits a raw newline. -/
theorem serV_no_nl (v : Json) : ∀ d ∈ serV v, d ≠ '\n' := by
  induction v using Json.inductionOn with
  | hnull =>
    intro d hd
    simp [serV] at hd
    rcases hd with rfl | rfl | rfl | rfl <;> decide
  | hbool b =>
    cases b <;> intro d hd <;> simp [serV] at hd
    · rcases hd with rfl | rfl | rfl | rfl | rfl <;> decide
    · rcases hd with rfl | rfl | rfl | rfl <;> decide
  | hnum n =>
    intro d hd
    simp only [serV] at hd
    exact intRepr_no_nl hd
  | hstr s =>
    intro d hd
    simp only [serV] at hd
    exact escStr_no_nl d hd
  | harr es IH =>
    cases es with
    | nil =>
      intro d hd
      simp [serV] at hd
      rcases hd with rfl | rfl <;> decide
    | cons e es2 =>
      intro d hd
      simp only [serV, List.mem_cons, List.mem_append, List.mem_singleton] at hd
      rcases hd with (rfl | hv | ht) | rfl | h0
      · decide
      · exact IH e (by simp) d hv
      · exact serElemsTail_no_nl (fun e2 h2 => IH e2 (by simp [h2])) d ht
      · decide
      · exact absurd h0 (List.not_mem_nil d)
  | hobj fs IH =>
    cases fs with
    | nil =>
      intro d hd
      simp [serV] at hd
      rcases hd with rfl | rfl <;> decide
    | cons kv kvs =>
      intro d hd
      simp only [serV, List.mem_cons, List.mem_append, List.mem_singleton] at hd
      rcases hd with (rfl | hm | ht) | rfl | h0
      · decide
      · exact serMember_no_nl (IH kv (by simp)) d hm
      · exact serMembersTail_no_nl (fun kv2 h2 => IH kv2 (by simp [h2])) d ht
      · decide
      · exact absurd h0 (List.not_mem_nil d)




theorem digit_ne_backtick {c : Char} (h : isDigitB c = true) : c ≠ '`' := by
  intro hc
  subst hc
  simp [isDigitB] at h

theorem natDigits_getLast (m : Nat) :
    ∃ c, (natDigits m).getLast? = some c ∧ isDigitB c = true := by
  unfold natDigits
  split
  · rename_i h
    exact ⟨Char.ofNat (48 + m), rfl, isDigitB_ofNat h⟩
  · rename_i h
    exact ⟨Char.ofNat (48 + m % 10), List.getLast?_concat _,
      isDigitB_ofNat (Nat.mod_lt _ (by omega))⟩

/-- The last character of a serialized value: never whitespace, never a
backtick. -/
theorem serV_getLast (v : Json) : ∃ c, (serV v).getLast? = some c ∧
    isPyWs c = false ∧ c ≠ '`' := by
  cases v with
  | null => exact ⟨'l', by simp [serV], by decide, by decide⟩
  | bool b =>
    cases b
    · exact ⟨'e', by simp [serV], by decide, by decide⟩
    · exact ⟨'e', by simp [serV], by decide, by decide⟩
  | num n =>
    show ∃ c, (intRepr n).getLast? = some c ∧ _
    unfold intRepr
    split
    · obtain ⟨c, hc, hd⟩ := natDigits_getLast n.natAbs
      refine ⟨c, ?_, (digit_head_facts hd).2.1, digit_ne_backtick hd⟩
      rcases he : natDigits n.natAbs with _ | ⟨d, ds⟩
      · exact absurd he (natDigits_ne_nil _)
      · rw [he] at hc
        rw [List.getLast?_cons_cons]
        exact hc
    · obtain ⟨c, hc, hd⟩ := natDigits_getLast n.toNat
      exact ⟨c, hc, (digit_head_facts hd).2.1, digit_ne_backtick hd⟩
  | str s =>
    refine ⟨'"', ?_, by decide, by decide⟩
    show (escStr s).getLast? = some '"'
    unfold escStr
    rw [show ('"' :: s.data.flatMap escChar ++ ['"'] : List Char)
      = ('"' :: s.data.flatMap escChar) ++ ['"'] by simp]
    exact List.getLast?_concat _
  | arr es =>
    cases es with
    | nil => exact ⟨']', by simp [serV], by decide, by decide⟩
    | cons e es2 =>
      refine ⟨']', ?_, by decide, by decide⟩
      show (serV (.arr (e :: es2))).getLast? = some ']'
      rw [show serV (.arr (e :: es2))
        = ('\x5b' :: (serV e ++ serElemsTail es2)) ++ [']'] by simp [serV]]
      exact List.getLast?_concat _
  | obj fs =>
    cases fs with
    | nil => exact ⟨'\x7d', by simp [serV], by decide, by decide⟩
    | cons kv kvs =>
      refine ⟨'\x7d', ?_, by decide, by decide⟩
      show (serV (.obj (kv :: kvs))).getLast? = some '\x7d'
      rw [show serV (.obj (kv :: kvs))
        = ('\x7b' :: (serMember kv ++ serMembersTail kvs)) ++ ['\x7d'] by simp [serV]]
      exact List.getLast?_concat _

theorem serV_head_backtick (v : Json) : ∀ c l, serV v = c :: l → c ≠ '`' := by
  intro c l hcl
  cases v with
  | null => rw [show serV .null = ['n', 'u', 'l', 'l'] from by simp [serV]] at hcl
            simp only [List.cons.injEq] at hcl
            rw [← hcl.1]
            decide
  | bool b =>
    cases b
    · have h2 : (['f', 'a', 'l', 's', 'e'] : List Char) = c :: l := by simpa [serV] using hcl
      simp only [List.cons.injEq] at h2
      rw [← h2.1]
      decide
    · have h2 : (['t', 'r', 'u', 'e'] : List Char) = c :: l := by simpa [serV] using hcl
      simp only [List.cons.injEq] at h2
      rw [← h2.1]
      decide
  | num n =>
    obtain ⟨d, l2, hd, hdig⟩ := intRepr_head n
    have : serV (.num n) = intRepr n := by simp [serV]
    rw [this, hd] at hcl
    simp only [List.cons.injEq] at hcl
    rw [← hcl.1]
    rcases hdig with h | h
    · subst h; decide
    · exact digit_ne_backtick h
  | str s =>
    have : serV (.str s) = '"' :: (s.data.flatMap escChar ++ ['"']) := by simp [serV, escStr]
    rw [this] at hcl
    simp only [List.cons.injEq] at hcl
    rw [← hcl.1]
    decide
  | arr es =>
    cases es with
    | nil =>
      simp only [serV, List.cons.injEq] at hcl
      rw [← hcl.1]
      decide
    | cons e es2 =>
      rw [show serV (.arr (e :: es2))
        = '[' :: ((serV e ++ serElemsTail es2) ++ [']']) from by simp [serV]] at hcl
      simp only [List.cons.injEq] at hcl
      rw [← hcl.1]
      decide
  | obj fs =>
    cases fs with
    | nil =>
      simp only [serV, List.cons.injEq] at hcl
      rw [← hcl.1]
      decide
    | cons kv kvs =>
      rw [show serV (.obj (kv :: kvs))
        = '{' :: ((serMember kv ++ serMembersTail kvs) ++ ['}']) from by simp [serV]] at hcl
      simp only [List.cons.injEq] at hcl
      rw [← hcl.1]
      decide

theorem pyStripList_id {cs : List Char}
    (hhead : ∀ c l, cs = c :: l → isPyWs c = false)
    (hlast : ∀ c, cs.getLast? = some c → isPyWs c = false) : pyStripList cs = cs := by
  unfold pyStripList
  rw [dropWhile_id_of_head hhead]
  rw [dropWhile_id_of_head (fun c l hc => hlast c (by
    rw [← List.head?_reverse, hc]
    rfl))]
  exact List.reverse_reverse cs

theorem pyStripList_append_nl {cs : List Char} (hne : cs ≠ [])
    (hhead : ∀ c l, cs = c :: l → isPyWs c = false)
    (hlast : ∀ c, cs.getLast? = some c → isPyWs c = false) :
    pyStripList (cs ++ ['\n']) = cs := by
  unfold pyStripList
  have h1 : (cs ++ ['\n']).dropWhile isPyWs = cs ++ ['\n'] := by
    apply dropWhile_id_of_head
    intro c l hc
    rcases cs with _ | ⟨c0, cs0⟩
    · exact absurd rfl hne
    · simp only [List.cons_append, List.cons.injEq] at hc
      rw [← hc.1]
      exact hhead c0 cs0 rfl
  rw [h1]
  rw [show (cs ++ ['\n']).reverse = '\n' :: cs.reverse by simp]
  rw [List.dropWhile_cons, if_pos (by decide)]
  rw [dropWhile_id_of_head (fun c l hc => hlast c (by
    rw [← List.head?_reverse, hc]
    rfl))]
  exact List.reverse_reverse cs




theorem fenceMatch_none {c : Char} (cs : List Char) (hc : c ≠ '`') :
    fenceMatch (c :: cs) = none := by
  unfold fenceMatch
  split
  · rename_i heq
    simp only [List.cons.injEq] at heq
    exact absurd heq.1 hc
  · rfl

theorem sub1Aux_nil (b : Bool) : sub1Aux b [] = [] := by
  rw [sub1Aux.eq_def]

theorem sub1Aux_cons_false (c : Char) (cs : List Char) :
    sub1Aux false (c :: cs) = c :: sub1Aux (c == '\n') cs := by
  rw [sub1Aux.eq_def]
  simp

theorem sub1Aux_cons_true_none {c : Char} {cs : List Char}
    (h : fenceMatch (c :: cs) = none) :
    sub1Aux true (c :: cs) = c :: sub1Aux (c == '\n') cs := by
  rw [sub1Aux.eq_def]
  simp only [if_true]
  split
  · rename_i w r heq
    rw [h] at heq
    exact absurd heq (by simp)
  · rfl

theorem sub1Aux_cons_true_some {c : Char} {cs w r : List Char}
    (h : fenceMatch (c :: cs) = some (w, r)) :
    sub1Aux true (c :: cs) = sub1Aux (w.getLast? == some '\n') r := by
  rw [sub1Aux.eq_def]
  simp only [if_true]
  split
  · rename_i w2 r2 heq
    rw [h] at heq
    simp only [Option.some.injEq, Prod.mk.injEq] at heq
    rw [heq.1, heq.2]
  · rename_i heq
    rw [h] at heq
    exact absurd heq (by simp)

theorem sub1Aux_false_no_nl {cs : List Char} (h : '\n' ∉ cs) : sub1Aux false cs = cs := by
  induction cs with
  | nil => exact sub1Aux_nil false
  | cons c cs ih =>
    rw [sub1Aux_cons_false]
    have hc : c ≠ '\n' := fun hcon => h (by simp [hcon])
    rw [show (c == '\n') = false by simpa using hc]
    rw [ih (fun hcon => h (by simp [hcon]))]

theorem sub1Aux_false_append {xs : List Char} (ys : List Char) (h : '\n' ∉ xs) :
    sub1Aux false (xs ++ ys) = xs ++ sub1Aux false ys := by
  induction xs with
  | nil => rfl
  | cons c xs ih =>
    rw [List.cons_append, sub1Aux_cons_false]
    have hc : c ≠ '\n' := fun hcon => h (by simp [hcon])
    rw [show (c == '\n') = false by simpa using hc]
    rw [ih (fun hcon => h (by simp [hcon]))]
    rfl

theorem sub1_id {cs : List Char} (hnl : '\n' ∉ cs)
    (hh : ∀ c l, cs = c :: l → c ≠ '`') : sub1 cs = cs := by
  unfold sub1
  cases cs with
  | nil => exact sub1Aux_nil true
  | cons c l =>
    rw [sub1Aux_cons_true_none (fenceMatch_none l (hh c l rfl))]
    have hc : c ≠ '\n' := fun hcon => hnl (by simp [hcon])
    rw [show (c == '\n') = false by simpa using hc]
    rw [sub1Aux_false_no_nl (fun hcon => hnl (by simp [hcon]))]

/-- Fence stripping on the wrapped text: removes the opening and closing
fences, leaving the payload and the newline before the closing fence. -/
theorem sub1_wrapped (v : Json) :
    sub1 ('`' :: '`' :: '`' :: 'j' :: 's' :: 'o' :: 'n' :: '\n'
        :: (serV v ++ ['\n', '`', '`', '`'])) = serV v ++ ['\n'] ∧
    sub1 ('`' :: '`' :: '`' :: '\n'
        :: (serV v ++ ['\n', '`', '`', '`'])) = serV v ++ ['\n'] := by
  obtain ⟨c0, l0, hc0, hw0, hpw0, hbr0, hbc0⟩ := serV_head v
  have hbt0 : c0 ≠ '`' := serV_head_backtick v c0 l0 hc0
  have hnn0 : c0 ≠ '\n' := serV_no_nl v c0 (by rw [hc0]; simp)
  have hfm : fenceMatch ('`' :: '`' :: '`' :: 'j' :: 's' :: 'o' :: 'n' :: '\n'
      :: (serV v ++ ['\n', '`', '`', '`']))
      = some (['\n'], serV v ++ ['\n', '`', '`', '`']) := by
    rw [hc0]
    show some (List.takeWhile isPyWs ('\n' :: c0 :: (l0 ++ ['\n', '`', '`', '`'])),
      List.dropWhile isPyWs ('\n' :: c0 :: (l0 ++ ['\n', '`', '`', '`'])))
      = some (['\n'], c0 :: (l0 ++ ['\n', '`', '`', '`']))
    rw [List.takeWhile_cons, List.dropWhile_cons]
    simp only [show isPyWs '\n' = true from by decide, if_true]
    rw [List.takeWhile_cons, List.dropWhile_cons]
    simp [hpw0]
  have hfm2 : fenceMatch ('`' :: '`' :: '`' :: '\n'
      :: (serV v ++ ['\n', '`', '`', '`']))
      = some (['\n'], serV v ++ ['\n', '`', '`', '`']) := by
    rw [hc0]
    show some (List.takeWhile isPyWs ('\n' :: c0 :: (l0 ++ ['\n', '`', '`', '`'])),
      List.dropWhile isPyWs ('\n' :: c0 :: (l0 ++ ['\n', '`', '`', '`'])))
      = some (['\n'], c0 :: (l0 ++ ['\n', '`', '`', '`']))
    rw [List.takeWhile_cons, List.dropWhile_cons]
    simp only [show isPyWs '\n' = true from by decide, if_true]
    rw [List.takeWhile_cons, List.dropWhile_cons]
    simp [hpw0]
  have hrest : sub1Aux true (serV v ++ ['\n', '`', '`', '`']) = serV v ++ ['\n'] := by
    rw [hc0, List.cons_append]
    rw [sub1Aux_cons_true_none (fenceMatch_none _ hbt0)]
    rw [show (c0 == '\n') = false from by simpa using hnn0]
    rw [sub1Aux_false_append _ (fun hcon => serV_no_nl v '\n' (by rw [hc0]; simp [hcon]) rfl)]
    have h3 : sub1Aux true ['`', '`', '`'] = [] := by
      rw [sub1Aux_cons_true_some (show fenceMatch ['`', '`', '`'] = some ([], []) from rfl)]
      exact sub1Aux_nil _
    have h4 : sub1Aux false ['\n', '`', '`', '`'] = ['\n'] := by
      rw [sub1Aux_cons_false]
      rw [show (('\n' : Char) == '\n') = true from rfl, h3]
    rw [h4]
    simp
  constructor
  · unfold sub1
    rw [sub1Aux_cons_true_some hfm]
    simpa using hrest
  · unfold sub1
    rw [sub1Aux_cons_true_some hfm2]
    simpa using hrest




theorem sub2_nil : sub2 [] = [] := by
  rw [sub2.eq_def]

theorem sub2_cons_none {c : Char} {cs : List Char} (h : sub2Match (c :: cs) = none) :
    sub2 (c :: cs) = c :: sub2 cs := by
  rw [sub2.eq_def]
  split
  · rename_i heq
    simp at heq
  · rename_i c2 cs2 heq
    simp only [List.cons.injEq] at heq
    obtain ⟨rfl, rfl⟩ := heq
    split
    · rename_i r heq2
      rw [h] at heq2
      exact absurd heq2 (by simp)
    · rfl

theorem takeWhile_append_stop {p : Char → Bool} {u : List Char} (ys : List Char)
    (hex : ∃ x ∈ u, p x = false) : (u ++ ys).takeWhile p = u.takeWhile p := by
  induction u with
  | nil =>
    obtain ⟨x, hx, -⟩ := hex
    exact absurd hx (List.not_mem_nil x)
  | cons c u ih =>
    by_cases hc : p c
    · rw [List.cons_append, List.takeWhile_cons, List.takeWhile_cons, hc]
      simp only [if_true]
      rw [ih]
      obtain ⟨x, hx, hpx⟩ := hex
      rcases List.mem_cons.mp hx with rfl | hx2
      · rw [hc] at hpx
        simp at hpx
      · exact ⟨x, hx2, hpx⟩
    · rw [List.cons_append, List.takeWhile_cons, List.takeWhile_cons,
        show p c = false by simpa using hc]
      simp

theorem dropWhile_append_stop {p : Char → Bool} {u : List Char} (ys : List Char)
    (hex : ∃ x ∈ u, p x = false) :
    (u ++ ys).dropWhile p = u.dropWhile p ++ ys ∧ u.dropWhile p ≠ [] := by
  induction u with
  | nil =>
    obtain ⟨x, hx, -⟩ := hex
    exact absurd hx (List.not_mem_nil x)
  | cons c u ih =>
    by_cases hc : p c
    · rw [List.cons_append, List.dropWhile_cons, List.dropWhile_cons, hc]
      simp only [if_true]
      apply ih
      obtain ⟨x, hx, hpx⟩ := hex
      rcases List.mem_cons.mp hx with rfl | hx2
      · rw [hc] at hpx
        simp at hpx
      · exact ⟨x, hx2, hpx⟩
    · rw [List.cons_append, List.dropWhile_cons, List.dropWhile_cons,
        show p c = false by simpa using hc]
      simp

theorem sub2Core_none_plain {u : List Char} (hnl : '\n' ∉ u)
    (hex : ∃ x ∈ u, isPyWs x = false) :
    sub2Core ('`' :: '`' :: '`' :: u) = none := by
  show (if (u.dropWhile isPyWs).isEmpty then some []
    else if ((u.takeWhile isPyWs).reverse.dropWhile (fun c => c != '\n')).isEmpty then none
    else some ('\n' :: ((u.takeWhile isPyWs).reverse.takeWhile (fun c => c != '\n')).reverse
      ++ u.dropWhile isPyWs)) = none
  have h1 : u.dropWhile isPyWs ≠ [] := by
    intro hcon
    obtain ⟨x, hx, hpx⟩ := hex
    have h2 := List.dropWhile_eq_nil_iff.mp hcon x hx
    rw [hpx] at h2
    simp at h2
  rw [if_neg (by simpa using h1)]
  rw [if_pos]
  rw [List.isEmpty_iff, List.dropWhile_eq_nil_iff]
  intro x hx
  have hxu : x ∈ u := (List.takeWhile_sublist _).subset (List.mem_reverse.mp hx)
  simp only [bne_iff_ne, ne_eq, decide_eq_true_eq]
  intro hcon
  subst hcon
  exact hnl hxu

theorem sub2Core_none_nl {u : List Char} (hnl : '\n' ∉ u)
    (hex : ∃ x ∈ u, isPyWs x = false) :
    sub2Core ('`' :: '`' :: '`' :: (u ++ ['\n'])) = none := by
  show (if ((u ++ ['\n']).dropWhile isPyWs).isEmpty then some []
    else if (((u ++ ['\n']).takeWhile isPyWs).reverse.dropWhile (fun c => c != '\n')).isEmpty
      then none
    else some ('\n' :: (((u ++ ['\n']).takeWhile isPyWs).reverse.takeWhile
      (fun c => c != '\n')).reverse ++ (u ++ ['\n']).dropWhile isPyWs)) = none
  obtain ⟨hdw, hne⟩ := dropWhile_append_stop (p := isPyWs) ['\n'] hex
  rw [hdw, takeWhile_append_stop _ hex]
  rw [if_neg (by simp [hne])]
  rw [if_pos]
  rw [List.isEmpty_iff, List.dropWhile_eq_nil_iff]
  intro x hx
  have hxu : x ∈ u := (List.takeWhile_sublist _).subset (List.mem_reverse.mp hx)
  simp only [bne_iff_ne, ne_eq, decide_eq_true_eq]
  intro hcon
  subst hcon
  exact hnl hxu

theorem sub2Core_not_fence {cs : List Char} (h : ∀ u, cs ≠ '`' :: '`' :: '`' :: u) :
    sub2Core cs = none := by
  unfold sub2Core
  split
  · rename_i b
    exact absurd rfl (h b)
  · rfl

theorem sub2Match_none_plain {t : List Char} (hnl : '\n' ∉ t)
    (hlast : ∀ c, t.getLast? = some c → isPyWs c = false ∧ c ≠ '`') :
    sub2Match t = none := by
  have hcore : ∀ w, ('\n' ∉ w) → (∀ c, w.getLast? = some c → isPyWs c = false ∧ c ≠ '`') →
      sub2Core w = none := by
    intro w hwnl hwlast
    by_cases hsh : ∃ u, w = '`' :: '`' :: '`' :: u
    · obtain ⟨u, rfl⟩ := hsh
      rcases u with _ | ⟨c2, rest'⟩
      · obtain ⟨-, hbt⟩ := hwlast '`' rfl
        exact absurd rfl hbt
      · apply sub2Core_none_plain
        · intro hx
          exact hwnl (by simp [hx])
        · refine ⟨(c2 :: rest').getLast (by simp), List.getLast_mem _, ?_⟩
          have hgl : ('`' :: '`' :: '`' :: c2 :: rest' : List Char).getLast?
              = some ((c2 :: rest').getLast (by simp)) := by
            rw [List.getLast?_cons_cons, List.getLast?_cons_cons, List.getLast?_cons_cons]
            exact List.getLast?_eq_getLast _ (by simp)
          exact (hwlast _ hgl).1
    · exact sub2Core_not_fence (fun u hcon => hsh ⟨u, hcon⟩)
  rcases t with _ | ⟨c, t'⟩
  · rfl
  have hcnl : c ≠ '\n' := fun hcon => hnl (by simp [hcon])
  unfold sub2Match
  split
  · rename_i rest heq
    simp only [List.cons.injEq] at heq
    exact absurd heq.1 hcnl
  · exact hcore (c :: t') hnl hlast

theorem sub2Match_none_nl {t : List Char} (hne : t ≠ []) (hnl : '\n' ∉ t)
    (hlast : ∀ c, t.getLast? = some c → isPyWs c = false ∧ c ≠ '`') :
    sub2Match (t ++ ['\n']) = none := by
  have hcore : sub2Core (t ++ ['\n']) = none := by
    by_cases hsh : ∃ u, t ++ ['\n'] = '`' :: '`' :: '`' :: u
    · obtain ⟨u, hu⟩ := hsh
      -- u ends with the newline: u = u0 ++ ['\n'] with t = '`'::'`'::'`'::u0
      rcases t with _ | ⟨c1, t1⟩
      · exact absurd rfl hne
      rcases t1 with _ | ⟨c2, t2⟩
      · simp only [List.cons_append, List.nil_append, List.cons.injEq] at hu
        exact absurd hu.2.1 (by decide)
      rcases t2 with _ | ⟨c3, t3⟩
      · simp only [List.cons_append, List.nil_append, List.cons.injEq] at hu
        exact absurd hu.2.2.1 (by decide)
      simp only [List.cons_append, List.cons.injEq] at hu
      obtain ⟨rfl, rfl, rfl, rfl⟩ := hu
      rcases t3 with _ | ⟨c4, t4⟩
      · obtain ⟨-, hbt⟩ := hlast '`' rfl
        exact absurd rfl hbt
      · rw [show ((('`' :: '`' :: '`' :: c4 :: t4 : List Char) ++ ['\n']))
          = '`' :: '`' :: '`' :: ((c4 :: t4) ++ ['\n']) by simp]
        apply sub2Core_none_nl
        · intro hx
          exact hnl (by simp [hx])
        · refine ⟨(c4 :: t4).getLast (by simp), List.getLast_mem _, ?_⟩
          have hgl : ('`' :: '`' :: '`' :: c4 :: t4 : List Char).getLast?
              = some ((c4 :: t4).getLast (by simp)) := by
            rw [List.getLast?_cons_cons, List.getLast?_cons_cons, List.getLast?_cons_cons]
            exact List.getLast?_eq_getLast _ (by simp)
          exact (hlast _ hgl).1
    · exact sub2Core_not_fence (fun u hcon => hsh ⟨u, hcon⟩)
  rcases t with _ | ⟨c, t'⟩
  · exact absurd rfl hne
  have hcnl : c ≠ '\n' := fun hcon => hnl (by simp [hcon])
  rw [List.cons_append]
  unfold sub2Match
  split
  · rename_i rest heq
    simp only [List.cons.injEq] at heq
    exact absurd heq.1 hcnl
  · rw [← List.cons_append]
    exact hcore

/-- `sub2` is the identity on newline-free text whose last character is
neither whitespace nor a backtick. -/
theorem sub2_id {A : List Char} (hnl : '\n' ∉ A)
    (hlast : ∀ c, A.getLast? = some c → isPyWs c = false ∧ c ≠ '`') : sub2 A = A := by
  induction A with
  | nil => exact sub2_nil
  | cons c A' ih =>
    rw [sub2_cons_none (sub2Match_none_plain hnl hlast)]
    rcases A' with _ | ⟨c2, A2⟩
    · rw [sub2_nil]
    · rw [ih (fun hcon => hnl (by simp [hcon]))
        (fun x hx => hlast x (by rw [List.getLast?_cons_cons]; exact hx))]

/-- `sub2` is the identity on such text followed by one newline. -/
theorem sub2_append_nl {A : List Char} (hne : A ≠ []) (hnl : '\n' ∉ A)
    (hlast : ∀ c, A.getLast? = some c → isPyWs c = false ∧ c ≠ '`') :
    sub2 (A ++ ['\n']) = A ++ ['\n'] := by
  have hnlstep : sub2 ['\n'] = ['\n'] := by
    rw [sub2_cons_none (show sub2Match ['\n'] = none from rfl), sub2_nil]
  induction A with
  | nil => exact absurd rfl hne
  | cons c A' ih =>
    rw [List.cons_append,
      sub2_cons_none (by
        rw [← List.cons_append]
        exact sub2Match_none_nl hne hnl hlast)]
    rcases A' with _ | ⟨c2, A2⟩
    · simp only [List.nil_append]
      rw [hnlstep]
    · rw [ih (by simp) (fun hcon => hnl (by simp [hcon]))
        (fun x hx => hlast x (by rw [List.getLast?_cons_cons]; exact hx))]




theorem loadsL_serV (v : Json) : loadsL (serV v) = some v := by
  unfold loadsL
  have h := (parse_ser_all ((serV v).length + 1)).1 v [] (by omega) rfl
  rw [List.append_nil] at h
  rw [h]
  rfl

theorem fixJson_strategy1 {t : String} {v : Json}
    (h : loadsL (pyStripList (sub2 (sub1 (pyStripList t.data)))) = some v) :
    fixJson t = .ok v := by
  unfold fixJson
  rw [h]

/-- The whole normalizer pipeline is transparent on canonical serialized
output. -/
theorem fixJson_serV (v : Json) : fixJson (String.mk (serV v)) = Except.ok v := by
  obtain ⟨c0, l0, hc0, hw0, hpw0, hbr0, hbc0⟩ := serV_head v
  obtain ⟨cl, hcl, hclw, hclbt⟩ := serV_getLast v
  have hhead : ∀ c l, serV v = c :: l → isPyWs c = false := by
    intro c l hc
    have h2 := hc.symm.trans hc0
    simp only [List.cons.injEq] at h2
    rw [h2.1]
    exact hpw0
  have hlast : ∀ c, (serV v).getLast? = some c → isPyWs c = false := by
    intro c hc
    rw [hcl] at hc
    simp only [Option.some.injEq] at hc
    rw [← hc]
    exact hclw
  have hlast2 : ∀ c, (serV v).getLast? = some c → isPyWs c = false ∧ c ≠ '`' := by
    intro c hc
    rw [hcl] at hc
    simp only [Option.some.injEq] at hc
    rw [← hc]
    exact ⟨hclw, hclbt⟩
  have hnl : '\n' ∉ serV v := fun h => serV_no_nl v '\n' h rfl
  apply fixJson_strategy1
  rw [show (String.mk (serV v)).data = serV v from rfl]
  rw [pyStripList_id hhead hlast]
  rw [sub1_id hnl (serV_head_backtick v)]
  rw [sub2_id hnl hlast2]
  rw [pyStripList_id hhead hlast]
  exact loadsL_serV v

/-- C5: a valid JSON object wrapped in markdown code fences (```json-tagged
or bare) is recovered by the normalizer exactly as the unwrapped text is;
both give the parsed object. -/
theorem fixJson_fenced (v : Json) (hwf : wfJson v = true) (hd : v.isDict = true) :
    fixJson (String.mk ('`' :: '`' :: '`' :: 'j' :: 's' :: 'o' :: 'n' :: '\n'
        :: (serV v ++ ['\n', '`', '`', '`'])))
      = fixJson (String.mk (serV v)) ∧
    fixJson (String.mk ('`' :: '`' :: '`' :: '\n'
        :: (serV v ++ ['\n', '`', '`', '`'])))
      = fixJson (String.mk (serV v)) ∧
    fixJson (String.mk (serV v)) = .ok v := by
  obtain ⟨c0, l0, hc0, hw0, hpw0, hbr0, hbc0⟩ := serV_head v
  obtain ⟨cl, hcl, hclw, hclbt⟩ := serV_getLast v
  have hne : serV v ≠ [] := by
    rw [hc0]
    simp
  have hhead : ∀ c l, serV v = c :: l → isPyWs c = false := by
    intro c l hc
    have h2 := hc.symm.trans hc0
    simp only [List.cons.injEq] at h2
    rw [h2.1]
    exact hpw0
  have hlast : ∀ c, (serV v).getLast? = some c → isPyWs c = false := by
    intro c hc
    rw [hcl] at hc
    simp only [Option.some.injEq] at hc
    rw [← hc]
    exact hclw
  have hlast2 : ∀ c, (serV v).getLast? = some c → isPyWs c = false ∧ c ≠ '`' := by
    intro c hc
    rw [hcl] at hc
    simp only [Option.some.injEq] at hc
    rw [← hc]
    exact ⟨hclw, hclbt⟩
  have hnl : '\n' ∉ serV v := fun h => serV_no_nl v '\n' h rfl
  have hwrap : ∀ W : List Char, sub1 W = serV v ++ ['\n'] →
      (∀ c l, W = c :: l → isPyWs c = false) →
      (∀ c, W.getLast? = some c → isPyWs c = false) →
      fixJson (String.mk W) = .ok v := by
    intro W hsub1 hWhead hWlast
    apply fixJson_strategy1
    rw [show (String.mk W).data = W from rfl]
    rw [pyStripList_id hWhead hWlast]
    rw [hsub1]
    rw [sub2_append_nl hne hnl hlast2]
    rw [pyStripList_append_nl hne hhead hlast]
    exact loadsL_serV v
  have hmain : fixJson (String.mk (serV v)) = .ok v := by
    apply fixJson_strategy1
    rw [show (String.mk (serV v)).data = serV v from rfl]
    rw [pyStripList_id hhead hlast]
    rw [sub1_id hnl (serV_head_backtick v)]
    rw [sub2_id hnl hlast2]
    rw [pyStripList_id hhead hlast]
    exact loadsL_serV v
  refine ⟨?_, ?_, hmain⟩
  · rw [hmain]
    apply hwrap _ (sub1_wrapped v).1
    · intro c l hc
      simp only [List.cons.injEq] at hc
      rw [← hc.1]
      decide
    · intro c hc
      rw [show ('`' :: '`' :: '`' :: 'j' :: 's' :: 'o' :: 'n' :: '\n'
          :: (serV v ++ ['\n', '`', '`', '`']))
        = ('`' :: '`' :: '`' :: 'j' :: 's' :: 'o' :: 'n' :: '\n'
          :: (serV v ++ ['\n', '`', '`'])) ++ ['`'] from by simp] at hc
      rw [List.getLast?_concat] at hc
      simp only [Option.some.injEq] at hc
      rw [← hc]
      decide
  · rw [hmain]
    apply hwrap _ (sub1_wrapped v).2
    · intro c l hc
      simp only [List.cons.injEq] at hc
      rw [← hc.1]
      decide
    · intro c hc
      rw [show ('`' :: '`' :: '`' :: '\n' :: (serV v ++ ['\n', '`', '`', '`']))
        = ('`' :: '`' :: '`' :: '\n' :: (serV v ++ ['\n', '`', '`'])) ++ ['`'] from by simp] at hc
      rw [List.getLast?_concat] at hc
      simp only [Option.some.injEq] at hc
      rw [← hc]
      decide



theorem fixJson_fenced_witness :
    fixJson (String.mk ('`' :: '`' :: '`' :: 'j' :: 's' :: 'o' :: 'n' :: '\n'
        :: (serV (Json.obj [("a", Json.num 1)]) ++ ['\n', '`', '`', '`'])))
      = fixJson (String.mk (serV (Json.obj [("a", Json.num 1)]))) ∧
    fixJson (String.mk ('`' :: '`' :: '`' :: '\n'
        :: (serV (Json.obj [("a", Json.num 1)]) ++ ['\n', '`', '`', '`'])))
      = fixJson (String.mk (serV (Json.obj [("a", Json.num 1)]))) ∧
    fixJson (String.mk (serV (Json.obj [("a", Json.num 1)]))) = .ok (Json.obj [("a", Json.num 1)]) :=
  fixJson_fenced (Json.obj [("a", Json.num 1)])
    (by simp [wfJson, strsOk, strsOkFields, strsOkList]) rfl



theorem rtc_nil : rtc [] = [] := rtc.eq_1

theorem rtc_cons_other {c : Char} (rest : List Char) (h : c ≠ ',') :
    rtc (c :: rest) = c :: rtc rest :=
  rtc.eq_3 c rest h

theorem rtc_comma_stop {rest tail : List Char} {c : Char}
    (h : rest.dropWhile isPyWs = c :: tail) (hb : (c = '\x7d' || c = '\x5d') = true) :
    rtc (',' :: rest) = c :: rtc tail := by
  rw [rtc.eq_2]
  split
  · rename_i c' tail' heq
    have h2 := h.symm.trans heq
    simp only [List.cons.injEq] at h2
    rw [← h2.1, ← h2.2, if_pos hb]
  · rename_i heq
    exact absurd (heq.symm.trans h) (by simp)

theorem rtc_comma_go {rest tail : List Char} {c : Char}
    (h : rest.dropWhile isPyWs = c :: tail) (hb : (c = '\x7d' || c = '\x5d') = false) :
    rtc (',' :: rest) = ',' :: rtc rest := by
  rw [rtc.eq_2]
  split
  · rename_i c' tail' heq
    have h2 := h.symm.trans heq
    simp only [List.cons.injEq] at h2
    rw [← h2.1, if_neg (by simp [hb])]
  · rfl

theorem rtc_cex_eval :
    rtc ['\x7b', '"', 'a', '"', ':', ' ', '"', ',', ' ', '\x7d', '"', ',', '\x7d']
      = ['\x7b', '"', 'a', '"', ':', ' ', '"', '\x7d', '"', '\x7d'] := by
  rw [rtc_cons_other _ (by decide), rtc_cons_other _ (by decide),
    rtc_cons_other _ (by decide), rtc_cons_other _ (by decide),
    rtc_cons_other _ (by decide), rtc_cons_other _ (by decide),
    rtc_cons_other _ (by decide),
    rtc_comma_stop (show List.dropWhile isPyWs [' ', '\x7d', '"', ',', '\x7d']
      = '\x7d' :: ['"', ',', '\x7d'] from rfl) (by decide),
    rtc_cons_other _ (by decide),
    rtc_comma_stop (show List.dropWhile isPyWs ['\x7d'] = '\x7d' :: [] from rfl) (by decide),
    rtc_nil]

/-- C4 counterexample: the comma-removal regex also fires inside string
literals, so the trailing-comma text serializing the object with string
value ", \x7d" is recovered as a different object (string value "\x7d")
than the comma-free serialization recovers. -/
theorem fixJson_trailing_comma_cex :
    String.mk ((serV (Json.obj [("a", Json.str ", \x7d")])).dropLast ++ [',', '\x7d'])
        = "\x7b\"a\": \", \x7d\",\x7d"
    ∧ fixJson "\x7b\"a\": \", \x7d\"\x7d" = .ok (Json.obj [("a", Json.str ", \x7d")])
    ∧ fixJson "\x7b\"a\": \", \x7d\",\x7d" = .ok (Json.obj [("a", Json.str "\x7d")])
    ∧ Json.obj [("a", Json.str "\x7d")] ≠ Json.obj [("a", Json.str ", \x7d")] := by
  refine ⟨?_, ?_, ?_, ?_⟩
  · simp [serV, serMember, serMembersTail, escStr, escChar]
  · have h1 : sub1 ['\x7b', '"', 'a', '"', ':', ' ', '"', ',', ' ', '\x7d', '"', '\x7d']
        = ['\x7b', '"', 'a', '"', ':', ' ', '"', ',', ' ', '\x7d', '"', '\x7d'] :=
      sub1_id (by decide) (by intro c l hc; injection hc with hx hy; rw [← hx]; decide)
    have h2 : sub2 ['\x7b', '"', 'a', '"', ':', ' ', '"', ',', ' ', '\x7d', '"', '\x7d']
        = ['\x7b', '"', 'a', '"', ':', ' ', '"', ',', ' ', '\x7d', '"', '\x7d'] :=
      sub2_id (by decide) (by intro c hc; simp at hc; subst hc; decide)
    have hp : pyStripList (sub2 (sub1 (pyStripList ("\x7b\"a\": \", \x7d\"\x7d").data)))
        = ['\x7b', '"', 'a', '"', ':', ' ', '"', ',', ' ', '\x7d', '"', '\x7d'] := by
      rw [show pyStripList ("\x7b\"a\": \", \x7d\"\x7d").data
          = ['\x7b', '"', 'a', '"', ':', ' ', '"', ',', ' ', '\x7d', '"', '\x7d'] from rfl,
        h1, h2]
      exact rfl
    unfold fixJson
    rw [hp]
    rfl
  · have h1 : sub1 ['\x7b', '"', 'a', '"', ':', ' ', '"', ',', ' ', '\x7d', '"', ',', '\x7d']
        = ['\x7b', '"', 'a', '"', ':', ' ', '"', ',', ' ', '\x7d', '"', ',', '\x7d'] :=
      sub1_id (by decide) (by intro c l hc; injection hc with hx hy; rw [← hx]; decide)
    have h2 : sub2 ['\x7b', '"', 'a', '"', ':', ' ', '"', ',', ' ', '\x7d', '"', ',', '\x7d']
        = ['\x7b', '"', 'a', '"', ':', ' ', '"', ',', ' ', '\x7d', '"', ',', '\x7d'] :=
      sub2_id (by decide) (by intro c hc; simp at hc; subst hc; decide)
    have hp : pyStripList (sub2 (sub1 (pyStripList ("\x7b\"a\": \", \x7d\",\x7d").data)))
        = ['\x7b', '"', 'a', '"', ':', ' ', '"', ',', ' ', '\x7d', '"', ',', '\x7d'] := by
      rw [show pyStripList ("\x7b\"a\": \", \x7d\",\x7d").data
          = ['\x7b', '"', 'a', '"', ':', ' ', '"', ',', ' ', '\x7d', '"', ',', '\x7d'] from rfl,
        h1, h2]
      exact rfl
    unfold fixJson
    rw [hp, rtc_cex_eval]
    rfl
  · simp



/-- A text block is comma-safe for the trailing-comma regex: every comma in
it is followed, after Python whitespace, by a character of the block that is
not a closing brace or bracket. On such a block the regex rewrites
nothing. -/
def RtcSafe (X : List Char) : Prop :=
  ∀ A B, X = A ++ ',' :: B →
    ∃ c t, B.dropWhile isPyWs = c :: t ∧ c ≠ '\x7d' ∧ c ≠ '\x5d'

theorem rtcSafe_nil : RtcSafe [] := by
  intro A B h
  exact absurd h (by simp)

theorem rtcSafe_no_comma {X : List Char} (h : ∀ x ∈ X, x ≠ ',') : RtcSafe X := by
  intro A B hX
  exact absurd rfl (h ',' (by rw [hX]; simp))

theorem rtcSafe_cons_tail {c : Char} {X : List Char} (h : RtcSafe (c :: X)) :
    RtcSafe X := by
  intro A B hX
  exact h (c :: A) B (by rw [hX]; rfl)

theorem rtcSafe_cons {c : Char} {X : List Char}
    (hc : c = ',' → ∃ d t, X.dropWhile isPyWs = d :: t ∧ d ≠ '\x7d' ∧ d ≠ '\x5d')
    (h : RtcSafe X) : RtcSafe (c :: X) := by
  intro A B hX
  cases A with
  | nil =>
    simp only [List.nil_append, List.cons.injEq] at hX
    obtain ⟨h1, h2⟩ := hX
    subst h2
    exact hc h1
  | cons a A2 =>
    simp only [List.cons_append, List.cons.injEq] at hX
    exact h A2 B hX.2

theorem exists_not_of_dropWhile_cons {p : Char → Bool} {u t : List Char} {d : Char}
    (h : u.dropWhile p = d :: t) : ∃ x ∈ u, p x = false := by
  induction u with
  | nil => simp at h
  | cons a u2 ih =>
    rw [List.dropWhile_cons] at h
    by_cases hp : p a = true
    · obtain ⟨x, hx, hpx⟩ := ih (by rwa [if_pos hp] at h)
      exact ⟨x, by simp [hx], hpx⟩
    · exact ⟨a, by simp, by simpa using hp⟩

theorem rtcSafe_append {X Y : List Char} (hX : RtcSafe X) (hY : RtcSafe Y) :
    RtcSafe (X ++ Y) := by
  induction X with
  | nil => simpa using hY
  | cons c X2 ih =>
    have hX2 := rtcSafe_cons_tail hX
    show RtcSafe (c :: (X2 ++ Y))
    apply rtcSafe_cons
    · intro hc
      subst hc
      obtain ⟨d, t, hdrop, hd1, hd2⟩ := hX [] X2 rfl
      have hex := exists_not_of_dropWhile_cons hdrop
      have hda := (dropWhile_append_stop Y hex).1
      rw [hdrop] at hda
      exact ⟨d, t ++ Y, by simpa using hda, hd1, hd2⟩
    · exact ih hX2

theorem getLast_isSome_of_ne_nil : ∀ {u : List Char}, u ≠ [] → ∃ c, u.getLast? = some c := by
  intro u
  induction u with
  | nil => intro h; exact absurd rfl h
  | cons a u2 ih =>
    intro h
    cases u2 with
    | nil => exact ⟨a, rfl⟩
    | cons b u3 =>
      obtain ⟨c, hc⟩ := ih (by simp)
      exact ⟨c, by rw [List.getLast?_cons_cons]; exact hc⟩

theorem getLast_append_right {u v : List Char} (hv : v ≠ []) :
    (u ++ v).getLast? = v.getLast? := by
  induction u with
  | nil => rfl
  | cons a u2 ih =>
    cases hu : u2 ++ v with
    | nil => exact absurd (List.append_eq_nil.mp hu).2 hv
    | cons x xs =>
      rw [show (a :: u2) ++ v = a :: (u2 ++ v) from rfl, hu, List.getLast?_cons_cons, ← hu,
        ih]

theorem dropWhile_cons_of_getLast {p : Char → Bool} {u : List Char} {c : Char}
    (hl : u.getLast? = some c) (hc : p c = false) :
    ∃ d t, u.dropWhile p = d :: t ∧ d ∈ u := by
  induction u with
  | nil => simp at hl
  | cons a u2 ih =>
    cases u2 with
    | nil =>
      simp only [List.getLast?_singleton, Option.some.injEq] at hl
      subst hl
      exact ⟨a, [], by rw [List.dropWhile_cons, if_neg (by simp [hc])], by simp⟩
    | cons b u3 =>
      rw [List.getLast?_cons_cons] at hl
      by_cases hp : p a = true
      · obtain ⟨d, t, hdt, hmem⟩ := ih hl
        exact ⟨d, t, by rw [List.dropWhile_cons, if_pos hp]; exact hdt, by simp [hmem]⟩
      · exact ⟨a, b :: u3, by rw [List.dropWhile_cons, if_neg hp], by simp⟩

theorem rtcSafe_block {X : List Char} (hnb : ∀ x ∈ X, x ≠ '\x7d' ∧ x ≠ '\x5d')
    (hlast : ∀ c, X.getLast? = some c → isPyWs c = false ∧ c ≠ ',') : RtcSafe X := by
  intro A B hX
  cases B with
  | nil =>
    have hXl : X.getLast? = some ',' := by
      rw [hX]
      exact List.getLast?_concat _
    exact absurd rfl (hlast ',' hXl).2
  | cons b B2 =>
    obtain ⟨cB, hcB⟩ := getLast_isSome_of_ne_nil (show b :: B2 ≠ [] by simp)
    have hXl : X.getLast? = some cB := by
      rw [hX, show A ++ ',' :: b :: B2 = (A ++ [',']) ++ (b :: B2) by simp,
        getLast_append_right (by simp), hcB]
    obtain ⟨d, t, hdt, hmem⟩ := dropWhile_cons_of_getLast hcB (hlast cB hXl).1
    have hmemX : d ∈ X := by
      rw [hX]
      simp only [List.mem_append, List.mem_cons]
      right
      right
      exact List.mem_cons.mp hmem
    exact ⟨d, t, hdt, (hnb d hmemX).1, (hnb d hmemX).2⟩

theorem rtc_append_safe {X : List Char} (Y : List Char) (h : RtcSafe X) :
    rtc (X ++ Y) = X ++ rtc Y := by
  induction X with
  | nil => rfl
  | cons c X2 ih =>
    have hX2 := rtcSafe_cons_tail h
    by_cases hc : c = ','
    · subst hc
      obtain ⟨d, t, hdrop, hd1, hd2⟩ := h [] X2 rfl
      have hex := exists_not_of_dropWhile_cons hdrop
      have hda := (dropWhile_append_stop Y hex).1
      rw [hdrop] at hda
      rw [show (',' :: X2) ++ Y = ',' :: (X2 ++ Y) from rfl,
        rtc_comma_go (show (X2 ++ Y).dropWhile isPyWs = d :: (t ++ Y) by simpa using hda)
          (by simp [hd1, hd2]),
        ih hX2]
      rfl
    · rw [show (c :: X2) ++ Y = c :: (X2 ++ Y) from rfl, rtc_cons_other _ hc, ih hX2]
      rfl

theorem rtc_safe_id {X : List Char} (h : RtcSafe X) : rtc X = X := by
  have h2 := rtc_append_safe [] h
  simpa [rtc_nil] using h2



/-- Character is neither a closing brace nor a closing bracket. -/
def noBrk (c : Char) : Bool := c != '\x7d' && c != '\x5d'

theorem noBrk_spec {c : Char} (h : noBrk c = true) : c ≠ '\x7d' ∧ c ≠ '\x5d' := by
  simpa [noBrk] using h

theorem hexDigitChar_ne_brk {k : Nat} (h : k < 16) :
    hexDigitChar k ≠ '\x7d' ∧ hexDigitChar k ≠ '\x5d' := by
  constructor <;> intro hc <;>
    (have h2 := congrArg Char.toNat hc
     rw [hexDigitChar_toNat h] at h2
     revert h2
     split <;> (intro h2; simp at h2) <;> omega)

theorem escChar_no_brk {c d : Char} (hc1 : c ≠ '\x7d') (hc2 : c ≠ '\x5d')
    (hd : d ∈ escChar c) : d ≠ '\x7d' ∧ d ≠ '\x5d' := by
  unfold escChar at hd
  by_cases h1 : c = '"'
  · simp [h1] at hd
    rcases hd with rfl | rfl <;> exact ⟨by decide, by decide⟩
  by_cases h2 : c = '\\'
  · simp [h1, h2] at hd
    subst hd
    exact ⟨by decide, by decide⟩
  by_cases h3 : c = '\n'
  · simp [h1, h2, h3] at hd
    rcases hd with rfl | rfl <;> exact ⟨by decide, by decide⟩
  by_cases h4 : c = '\r'
  · simp [h1, h2, h3, h4] at hd
    rcases hd with rfl | rfl <;> exact ⟨by decide, by decide⟩
  by_cases h5 : c = '\t'
  · simp [h1, h2, h3, h4, h5] at hd
    rcases hd with rfl | rfl <;> exact ⟨by decide, by decide⟩
  by_cases h6 : c = '\x08'
  · simp [h1, h2, h3, h4, h5, h6] at hd
    rcases hd with rfl | rfl <;> exact ⟨by decide, by decide⟩
  by_cases h7 : c = '\x0c'
  · simp [h1, h2, h3, h4, h5, h6, h7] at hd
    rcases hd with rfl | rfl <;> exact ⟨by decide, by decide⟩
  by_cases h8 : c.toNat < 32
  · simp only [h1, h2, h3, h4, h5, h6, h7, h8, if_false, if_true, if_neg, if_pos,
      List.mem_cons, List.not_mem_nil, or_false] at hd
    rcases hd with rfl | rfl | rfl | rfl | rfl | rfl
    · exact ⟨by decide, by decide⟩
    · exact ⟨by decide, by decide⟩
    · exact ⟨by decide, by decide⟩
    · exact ⟨by decide, by decide⟩
    · exact hexDigitChar_ne_brk (show c.toNat / 16 < 16 by omega)
    · exact hexDigitChar_ne_brk (show c.toNat % 16 < 16 by omega)
  · simp [h1, h2, h3, h4, h5, h6, h7, h8] at hd
    subst hd
    exact ⟨hc1, hc2⟩

theorem escStr_no_brk {s : String} (hs : s.data.all noBrk = true) :
    ∀ d ∈ escStr s, d ≠ '\x7d' ∧ d ≠ '\x5d' := by
  intro d hd
  unfold escStr at hd
  simp only [List.mem_cons, List.mem_append, List.mem_flatMap, List.mem_singleton] at hd
  rcases hd with (rfl | ⟨a, ha, hda⟩) | rfl | h0
  · exact ⟨by decide, by decide⟩
  · have h2 := noBrk_spec (List.all_eq_true.mp hs a ha)
    exact escChar_no_brk h2.1 h2.2 hda
  · exact ⟨by decide, by decide⟩
  · exact absurd h0 (List.not_mem_nil d)

theorem escStr_getLast (s : String) : (escStr s).getLast? = some '"' := by
  unfold escStr
  rw [show '"' :: s.data.flatMap escChar ++ ['"']
      = ('"' :: s.data.flatMap escChar) ++ ['"'] from rfl]
  exact List.getLast?_concat _

theorem rtcSafe_escStr {s : String} (hs : s.data.all noBrk = true) : RtcSafe (escStr s) := by
  apply rtcSafe_block (escStr_no_brk hs)
  intro c hc
  rw [escStr_getLast] at hc
  injection hc with h
  subst h
  exact ⟨by decide, by decide⟩

theorem rtcSafe_intRepr (n : Int) : RtcSafe (intRepr n) := by
  apply rtcSafe_no_comma
  intro x hx
  unfold intRepr at hx
  split at hx
  · rcases List.mem_cons.mp hx with rfl | hx
    · decide
    · have h2 := natDigits_all _ x hx
      intro hc
      subst hc
      simp [isDigitB] at h2
  · have h2 := natDigits_all _ x hx
    intro hc
    subst hc
    simp [isDigitB] at h2

theorem strsOkList_mem {p : Char → Bool} {es : List Json} {e : Json}
    (h : strsOkList p es = true) (he : e ∈ es) : strsOk p e = true := by
  induction es with
  | nil => simp at he
  | cons e2 es2 ih =>
    rw [show strsOkList p (e2 :: es2) = (strsOk p e2 && strsOkList p es2) from by
      rw [strsOkList]] at h
    simp only [Bool.and_eq_true] at h
    rcases List.mem_cons.mp he with rfl | he2
    · exact h.1
    · exact ih h.2 he2

theorem strsOkFields_mem {p : Char → Bool} {fs : List (String × Json)} {kv : String × Json}
    (h : strsOkFields p fs = true) (hkv : kv ∈ fs) :
    kv.1.data.all p = true ∧ strsOk p kv.2 = true := by
  induction fs with
  | nil => simp at hkv
  | cons kv2 fs2 ih =>
    obtain ⟨k2, v2⟩ := kv2
    rw [show strsOkFields p ((k2, v2) :: fs2)
        = (k2.data.all p && strsOk p v2 && strsOkFields p fs2) from by rw [strsOkFields]] at h
    simp only [Bool.and_eq_true] at h
    rcases List.mem_cons.mp hkv with rfl | hkv2
    · exact ⟨h.1.1, h.1.2⟩
    · exact ih h.2 hkv2


theorem rtcSafe_elemsTail {es : List Json} {tail : List Char}
    (hes : ∀ e ∈ es, RtcSafe (serV e)) (htail : RtcSafe tail) :
    RtcSafe (serElemsTail es ++ tail) := by
  induction es with
  | nil => simpa [serElemsTail] using htail
  | cons e es2 ih =>
    rw [show serElemsTail (e :: es2) = ',' :: ' ' :: serV e ++ serElemsTail es2 from by
      rw [serElemsTail]]
    simp only [List.cons_append, List.append_assoc]
    apply rtcSafe_cons
    · intro h0
      obtain ⟨c0, l0, hc0, hw0, hpw0, hbr0, hbc0⟩ := serV_head e
      refine ⟨c0, l0 ++ (serElemsTail es2 ++ tail), ?_, hbc0, hbr0⟩
      rw [List.dropWhile_cons, if_pos (by decide), hc0,
        show (c0 :: l0) ++ (serElemsTail es2 ++ tail)
          = c0 :: (l0 ++ (serElemsTail es2 ++ tail)) from rfl,
        List.dropWhile_cons, if_neg (by simp [hpw0])]
    · apply rtcSafe_cons
      · intro h0
        exact absurd h0 (by decide)
      · exact rtcSafe_append (hes e (by simp)) (ih (fun e2 h2 => hes e2 (by simp [h2])))

theorem serMember_head (kv : String × Json) :
    ∃ l, serMember kv = '"' :: l := by
  obtain ⟨k, v⟩ := kv
  rw [show serMember (k, v) = escStr k ++ ':' :: ' ' :: serV v from by rw [serMember]]
  exact ⟨_, rfl⟩

theorem rtcSafe_serMember {kv : String × Json} (hk : kv.1.data.all noBrk = true)
    (hv : RtcSafe (serV kv.2)) : RtcSafe (serMember kv) := by
  obtain ⟨k, v⟩ := kv
  rw [show serMember (k, v) = escStr k ++ ':' :: ' ' :: serV v from by rw [serMember]]
  apply rtcSafe_append (rtcSafe_escStr hk)
  apply rtcSafe_cons (fun h0 => absurd h0 (by decide))
  apply rtcSafe_cons (fun h0 => absurd h0 (by decide))
  exact hv

theorem rtcSafe_membersTail {fs : List (String × Json)} {tail : List Char}
    (hfs : ∀ kv ∈ fs, kv.1.data.all noBrk = true ∧ RtcSafe (serV kv.2))
    (htail : RtcSafe tail) : RtcSafe (serMembersTail fs ++ tail) := by
  induction fs with
  | nil => simpa [serMembersTail] using htail
  | cons kv kvs ih =>
    rw [show serMembersTail (kv :: kvs) = ',' :: ' ' :: serMember kv ++ serMembersTail kvs from by
      rw [serMembersTail]]
    simp only [List.cons_append, List.append_assoc]
    apply rtcSafe_cons
    · intro h0
      obtain ⟨l, hl⟩ := serMember_head kv
      refine ⟨'"', l ++ (serMembersTail kvs ++ tail), ?_, by decide, by decide⟩
      rw [List.dropWhile_cons, if_pos (by decide), hl,
        show ('"' :: l) ++ (serMembersTail kvs ++ tail)
          = '"' :: (l ++ (serMembersTail kvs ++ tail)) from rfl,
        List.dropWhile_cons, if_neg (by decide)]
    · apply rtcSafe_cons (fun h0 => absurd h0 (by decide))
      exact rtcSafe_append
        (rtcSafe_serMember (hfs kv (by simp)).1 (hfs kv (by simp)).2)
        (ih (fun kv2 h2 => hfs kv2 (by simp [h2])))

/-- On a value whose strings are free of closing braces and brackets, every
comma the serializer emits is followed by a non-bracket character: the
trailing-comma regex leaves such serialized output unchanged. -/
theorem rtcSafe_serV (v : Json) (h : strsOk noBrk v = true) : RtcSafe (serV v) := by
  induction v using Json.inductionOn with
  | hnull =>
    apply rtcSafe_no_comma
    intro x hx
    simp [serV] at hx
    rcases hx with rfl | rfl | rfl | rfl <;> decide
  | hbool b =>
    cases b
    · apply rtcSafe_no_comma
      intro x hx
      simp [serV] at hx
      rcases hx with rfl | rfl | rfl | rfl | rfl <;> decide
    · apply rtcSafe_no_comma
      intro x hx
      simp [serV] at hx
      rcases hx with rfl | rfl | rfl | rfl <;> decide
  | hnum n =>
    rw [show serV (.num n) = intRepr n from by rw [serV]]
    exact rtcSafe_intRepr n
  | hstr s =>
    rw [show serV (.str s) = escStr s from by rw [serV]]
    apply rtcSafe_escStr
    simpa [strsOk] using h
  | harr es IH =>
    cases es with
    | nil =>
      apply rtcSafe_no_comma
      intro x hx
      simp [serV] at hx
      rcases hx with rfl | rfl <;> decide
    | cons e es2 =>
      have hL : strsOkList noBrk (e :: es2) = true := by
        rw [show strsOk noBrk (Json.arr (e :: es2)) = strsOkList noBrk (e :: es2) from by
          rw [strsOk]] at h
        exact h
      have hL2 : ∀ e2 ∈ e :: es2, strsOk noBrk e2 = true :=
        fun e2 h2 => strsOkList_mem hL h2
      rw [show serV (.arr (e :: es2))
          = '\x5b' :: (serV e ++ serElemsTail es2) ++ ['\x5d'] from by rw [serV]]
      simp only [List.cons_append, List.append_assoc]
      apply rtcSafe_cons (fun h0 => absurd h0 (by decide))
      apply rtcSafe_append (IH e (by simp) (hL2 e (by simp)))
      exact rtcSafe_elemsTail
        (fun e2 h2 => IH e2 (by simp [h2]) (hL2 e2 (by simp [h2])))
        (rtcSafe_no_comma (by intro x hx; simp at hx; subst hx; decide))
  | hobj fs IH =>
    cases fs with
    | nil =>
      apply rtcSafe_no_comma
      intro x hx
      simp [serV] at hx
      rcases hx with rfl | rfl <;> decide
    | cons kv kvs =>
      have hF : strsOkFields noBrk (kv :: kvs) = true := by
        rw [show strsOk noBrk (Json.obj (kv :: kvs)) = strsOkFields noBrk (kv :: kvs) from by
          rw [strsOk]] at h
        exact h
      have hF2 : ∀ kv2 ∈ kv :: kvs, kv2.1.data.all noBrk = true ∧ strsOk noBrk kv2.2 = true :=
        fun kv2 h2 => strsOkFields_mem hF h2
      rw [show serV (.obj (kv :: kvs))
          = '\x7b' :: (serMember kv ++ serMembersTail kvs) ++ ['\x7d'] from by rw [serV]]
      simp only [List.cons_append, List.append_assoc]
      apply rtcSafe_cons (fun h0 => absurd h0 (by decide))
      apply rtcSafe_append
        (rtcSafe_serMember (hF2 kv (by simp)).1 (IH kv (by simp) (hF2 kv (by simp)).2))
      exact rtcSafe_membersTail
        (fun kv2 h2 => ⟨(hF2 kv2 (by simp [h2])).1,
          IH kv2 (by simp [h2]) (hF2 kv2 (by simp [h2])).2⟩)
        (rtcSafe_no_comma (by intro x hx; simp at hx; subst hx; decide))



/-- Parsing one-or-more serialized members followed by a trailing comma
right before the closing brace fails: after the last member the parser
takes the comma branch and then finds the brace where a key must start. -/
theorem parseObjRest_marked (fuel : Nat) :
    ∀ kv kvs Z, (serMember kv ++ serMembersTail kvs).length < fuel →
      parseObjRest fuel (serMember kv ++ (serMembersTail kvs ++ ',' :: '\x7d' :: Z)) = none := by
  induction fuel using Nat.strong_induction_on with
  | _ fuel IH =>
  rcases fuel with _ | f
  · intro kv kvs Z hb
    exact absurd hb (by omega)
  intro kv kvs Z hb
  obtain ⟨k, v0⟩ := kv
  unfold parseObjRest
  have hm : serMember (k, v0) ++ (serMembersTail kvs ++ ',' :: '\x7d' :: Z)
      = '"' :: (k.data.flatMap escChar
        ++ '"' :: (':' :: ' ' :: (serV v0 ++ (serMembersTail kvs ++ ',' :: '\x7d' :: Z)))) := by
    simp [serMember, escStr]
  rw [hm, List.dropWhile_cons, if_neg (by decide)]
  show (match parseStringBody (k.data.flatMap escChar
      ++ '"' :: (':' :: ' ' :: (serV v0 ++ (serMembersTail kvs ++ ',' :: '\x7d' :: Z)))) with
    | none => none
    | some (key, r1) =>
      match r1.dropWhile isJsonWs with
      | ':' :: r2 =>
        match parseVal f r2 with
        | none => none
        | some (v, r3) =>
          match r3.dropWhile isJsonWs with
          | ',' :: r4 => Option.map
              (fun (p : List (String × Json) × List Char) => ((String.mk key, v) :: p.1, p.2))
              (parseObjRest f r4)
          | '\x7d' :: r4 => some ([(String.mk key, v)], r4)
          | _ => none
      | _ => none) = none
  rw [parseStringBody_esc]
  show (match ((':' :: ' ' :: (serV v0 ++ (serMembersTail kvs ++ ',' :: '\x7d' :: Z))) : List Char).dropWhile isJsonWs with
    | ':' :: r2 =>
      match parseVal f r2 with
      | none => none
      | some (v, r3) =>
        match r3.dropWhile isJsonWs with
        | ',' :: r4 => Option.map
            (fun (p : List (String × Json) × List Char) => ((String.mk k.data, v) :: p.1, p.2))
            (parseObjRest f r4)
        | '\x7d' :: r4 => some ([(String.mk k.data, v)], r4)
        | _ => none
    | _ => none) = none
  rw [List.dropWhile_cons, if_neg (by decide)]
  have hvlen : (serV v0).length < f := by
    have h2 : (serMember (k, v0)).length = (escStr k).length + 2 + (serV v0).length := by
      simp [serMember]
      omega
    have h3 : 1 ≤ (escStr k).length := by
      simp [escStr]
    simp only [List.length_append] at hb
    omega
  have hstop : numStopOk (serMembersTail kvs ++ ',' :: '\x7d' :: Z) = true := by
    cases kvs with
    | nil => simp [serMembersTail, numStopOk_comma]
    | cons kv2 kvs2 => simp [serMembersTail, numStopOk_comma]
  show (match parseVal f (' ' :: (serV v0 ++ (serMembersTail kvs ++ ',' :: '\x7d' :: Z))) with
    | none => none
    | some (v, r3) =>
      match r3.dropWhile isJsonWs with
      | ',' :: r4 => Option.map
          (fun (p : List (String × Json) × List Char) => ((String.mk k.data, v) :: p.1, p.2))
          (parseObjRest f r4)
      | '\x7d' :: r4 => some ([(String.mk k.data, v)], r4)
      | _ => none) = none
  rw [parseVal_ws f (by decide), (parse_ser_all f).1 v0 _ hvlen hstop]
  cases kvs with
  | nil =>
    simp only [serMembersTail, List.nil_append]
    show (match ((',' :: '\x7d' :: Z : List Char)).dropWhile isJsonWs with
      | ',' :: r4 => Option.map
          (fun (p : List (String × Json) × List Char) => ((String.mk k.data, v0) :: p.1, p.2))
          (parseObjRest f r4)
      | '\x7d' :: r4 => some ([(String.mk k.data, v0)], r4)
      | _ => none) = none
    rw [List.dropWhile_cons, if_neg (by decide)]
    have hPO : parseObjRest f ('\x7d' :: Z) = none := by
      cases f with
      | zero => rfl
      | succ f2 =>
        unfold parseObjRest
        rw [List.dropWhile_cons, if_neg (by decide)]
        rfl
    show Option.map
        (fun (p : List (String × Json) × List Char) => ((String.mk k.data, v0) :: p.1, p.2))
        (parseObjRest f ('\x7d' :: Z)) = none
    rw [hPO]
    rfl
  | cons kv2 kvs2 =>
    have htail : serMembersTail (kv2 :: kvs2)
        = ',' :: ' ' :: serMember kv2 ++ serMembersTail kvs2 := by
      simp [serMembersTail]
    rw [htail]
    rw [show ((',' :: ' ' :: serMember kv2 ++ serMembersTail kvs2 ++ ',' :: '\x7d' :: Z) : List Char)
        = ',' :: ' ' :: (serMember kv2 ++ (serMembersTail kvs2 ++ ',' :: '\x7d' :: Z)) by simp]
    show (match ((',' :: ' ' :: (serMember kv2 ++ (serMembersTail kvs2 ++ ',' :: '\x7d' :: Z))) : List Char).dropWhile isJsonWs with
      | ',' :: r4 => Option.map
          (fun (p : List (String × Json) × List Char) => ((String.mk k.data, v0) :: p.1, p.2))
          (parseObjRest f r4)
      | '\x7d' :: r4 => some ([(String.mk k.data, v0)], r4)
      | _ => none) = none
    rw [List.dropWhile_cons, if_neg (by decide)]
    show Option.map
        (fun (p : List (String × Json) × List Char) => ((String.mk k.data, v0) :: p.1, p.2))
        (parseObjRest f (' ' :: (serMember kv2 ++ (serMembersTail kvs2 ++ ',' :: '\x7d' :: Z)))) = none
    rw [parseObjRest_ws f (by decide)]
    have hlen2 : (serMember kv2 ++ serMembersTail kvs2).length < f := by
      have h2 := congrArg List.length htail
      have h3 : (serMember (k, v0)).length = (escStr k).length + 2 + (serV v0).length := by
        simp [serMember]
        omega
      have h4 : 1 ≤ (escStr k).length := by
        simp [escStr]
      simp only [List.length_cons, List.length_append] at h2 hb ⊢
      omega
    rw [IH f (Nat.lt_succ_self f) kv2 kvs2 Z hlen2]
    rfl



/-- `config.DEFAULT_LLM_MODEL` (the `os.getenv` default; the environment
override is outside the modelled fragment). -/
def DEFAULT_LLM_MODEL : String := "google/gemma-3-12b-it:free"

/-- `generator.FALLBACK_MODELS`. -/
def FALLBACK_MODELS : List String :=
  ["google/gemma-3-12b-it:free",
   "google/gemma-3-4b-it:free",
   "meta-llama/llama-3.3-70b-instruct:free",
   "meta-llama/llama-3.2-3b-instruct:free",
   "mistralai/mistral-small-3.1-24b-instruct:free",
   "deepseek/deepseek-r1-0528:free",
   "qwen/qwen3-4b:free"]

/-- `preferred = model or DEFAULT_LLM_MODEL` (Python `or`: `None` and the
empty string are falsy) and
`models_to_try = [preferred] + [m for m in FALLBACK_MODELS if m != preferred]`. -/
def buildModels (model : Option String) : List String :=
  let preferred := match model with
    | none => DEFAULT_LLM_MODEL
    | some s => if s = "" then DEFAULT_LLM_MODEL else s
  preferred :: FALLBACK_MODELS.filter (fun m => m != preferred)

/-- Environment outcome of one `client.post` call: a response with a status
code and the `resp.json()` parse of its body (`none` when the body is not
valid JSON, which makes `resp.json()` raise a `ValueError` subclass), or a
transport timeout (`httpx.TimeoutException`). -/
inductive CallOutcome where
  | resp (status : Nat) (bodyJson : Option Json)
  | timeout

/-- The exceptions one model attempt can raise, as classified by the
`except` clauses in `generate_portfolio_data`: the first six are caught
(`httpx.HTTPStatusError`, `httpx.TimeoutException`, `ValueError`,
`KeyError`); `indexError` and `typeError` model `IndexError` / `TypeError`
(raised when `data["choices"][0]["message"]["content"]` indexes an empty
list or a value of the wrong type), which no clause catches. -/
inductive LLMErr where
  | rateLimited
  | httpStatus (status : Nat)
  | timeout
  | jsonDecode
  | keyError
  | badContent (msg : String)
  | indexError
  | typeError

/-- Whether an exception is caught by the fallback loop of
`generate_portfolio_data`. -/
def isCaught : LLMErr → Bool
  | .rateLimited => true
  | .httpStatus _ => true
  | .timeout => true
  | .jsonDecode => true
  | .keyError => true
  | .badContent _ => true
  | .indexError => false
  | .typeError => false

/-- `_call_llm`: 429 and non-200 statuses raise `httpx.HTTPStatusError`,
then `data = resp.json()` and
`content = data["choices"][0]["message"]["content"]`. Python indexing
semantics at each step: a missing dict key raises `KeyError` (also
`data["choices"][0]` when `choices` is a dict — `KeyError: 0`); `[0]` on an
empty list or empty string raises `IndexError`; indexing any other
non-subscriptable or mis-typed value raises `TypeError`. A non-string
`content` later fails `len`/`.strip()` with `TypeError`/`AttributeError`,
modelled as `typeError`. -/
def callLLM : CallOutcome → Except LLMErr String
  | .timeout => .error .timeout
  | .resp status bodyJson =>
    if status = 429 then .error .rateLimited
    else if status ≠ 200 then .error (.httpStatus status)
    else match bodyJson with
      | none => .error .jsonDecode
      | some (.obj fields) =>
        match jsonGet fields "choices" with
        | none => .error .keyError
        | some (.arr []) => .error .indexError
        | some (.arr (c :: _)) =>
          match c with
          | .obj cf =>
            match jsonGet cf "message" with
            | none => .error .keyError
            | some (.obj mf) =>
              match jsonGet mf "content" with
              | none => .error .keyError
              | some (.str s) => .ok s
              | some _ => .error .typeError
            | some _ => .error .typeError
          | _ => .error .typeError
        | some (.obj _) => .error .keyError
        | some (.str "") => .error .indexError
        | some (.str _) => .error .typeError
        | some _ => .error .typeError
      | some _ => .error .typeError

/-- One iteration of the fallback loop:
`raw_content = await _call_llm(...)`, `parsed = _fix_json_string(...)`,
`result = _validate_and_normalise(parsed, username)`. The two `ValueError`
sources are tagged `badContent`. -/
def attemptModel (oc : CallOutcome) (username : String) :
    Except LLMErr (List (String × Json)) :=
  match callLLM oc with
  | .error e => .error e
  | .ok content =>
    match fixJson content with
    | .error msg => .error (.badContent msg)
    | .ok parsed =>
      match validateAndNormalise parsed username with
      | .error msg => .error (.badContent msg)
      | .ok result => .ok result

/-- How the fallback loop ends. -/
inductive LoopResult where
  | success (result : List (String × Json))
  | exhausted (lastErr : Option LLMErr)
  | uncaughtErr (e : LLMErr)

/-- The `for attempt_model in models_to_try` loop with its `except`
clauses, threading `last_error`; the first component counts the LLM calls
made. An uncaught exception aborts the whole coroutine at once. -/
def tryModelsAux (username : String) :
    List CallOutcome → Option LLMErr → Nat × LoopResult
  | [], lastErr => (0, .exhausted lastErr)
  | oc :: rest, lastErr =>
    match attemptModel oc username with
    | .ok result => (1, .success result)
    | .error e =>
      if isCaught e then
        let r := tryModelsAux username rest (some e)
        (r.1 + 1, r.2)
      else (1, .uncaughtErr e)

/-- What `generate_portfolio_data` can raise to its caller: the terminal
`RuntimeError` (`All N LLM models failed. Last error: ...`), or an
uncaught per-attempt exception. -/
inductive GenErr where
  | allModelsFailed (n : Nat) (lastErr : Option LLMErr)
  | uncaught (e : LLMErr)

/-- `generate_portfolio_data(resume_text, api_key, model, username)` over
an oracle assigning each model attempt its call outcome (one entry per
candidate model, in order): the number of LLM calls made, and the result
or raised failure. -/
def generatePortfolioData (model : Option String) (username : String)
    (outcomes : List CallOutcome) : Nat × Except GenErr (List (String × Json)) :=
  let models := buildModels model
  let r := tryModelsAux username (outcomes.take models.length) none
  (r.1, match r.2 with
    | .success result => .ok result
    | .exhausted lastErr => .error (.allModelsFailed models.length lastErr)
    | .uncaughtErr e => .error (.uncaught e))

/-- `"\n".join(parts)` on character lists. -/
def joinNl : List (List Char) → List Char
  | [] => []
  | [x] => x
  | x :: xs => x ++ '\n' :: joinNl xs

/-- `extract_text_from_pdf`: keep each page text that is truthy
(not `None`, not empty), then join with newlines. The oracle `pages` gives
`page.extract_text()` for each page. -/
def extractTextFromPdf (pages : List (Option String)) : List Char :=
  joinNl ((pages.filterMap (fun t =>
    t.bind (fun s => if s = "" then none else some s))).map String.data)

/-- What `process_resume` can raise. -/
inductive ResumeErr where
  | emptyPdf (msg : String)
  | llm (e : GenErr)

/-- `process_resume`: extract the text, fail early when its strip is empty,
otherwise run the orchestrator and attach `_raw_text` (and the profile
image URL when one is extracted; image extraction never raises). The first
component counts LLM calls. -/
def processResume (pages : List (Option String)) (model : Option String)
    (username : String) (outcomes : List CallOutcome)
    (profileImage : Option String) :
    Nat × Except ResumeErr (List (String × Json)) :=
  let text := extractTextFromPdf pages
  if (pyStripList text).isEmpty then
    (0, .error (.emptyPdf ("No text could be extracted from the uploaded PDF. "
      ++ "Please ensure it is a text-based PDF (not a scanned image).")))
  else
    let r := generatePortfolioData model username outcomes
    (r.1, match r.2 with
      | .ok result =>
        .ok ((result ++ [("_raw_text", Json.str (String.mk text))])
          ++ (match profileImage with
            | some url => [("profile_image_url", Json.str url)]
            | none => []))
      | .error ge => .error (.llm ge))



theorem getLast_isSome_ne_nil {A : Type} : ∀ {u : List A}, u ≠ [] → ∃ c, u.getLast? = some c := by
  intro u
  induction u with
  | nil => intro h; exact absurd rfl h
  | cons a u2 ih =>
    intro h
    cases u2 with
    | nil => exact ⟨a, rfl⟩
    | cons b u3 =>
      obtain ⟨c, hc⟩ := ih (by simp)
      exact ⟨c, by rw [List.getLast?_cons_cons]; exact hc⟩

theorem tryModelsAux_skip (username : String) (failing : List (CallOutcome × LLMErr))
    (tailOc : List CallOutcome)
    (hfail : ∀ p ∈ failing, attemptModel p.1 username = .error p.2 ∧ isCaught p.2 = true) :
    ∀ lastErr0,
      tryModelsAux username (failing.map Prod.fst ++ tailOc) lastErr0
        = ((tryModelsAux username tailOc
              (match failing.getLast? with
                | some p => some p.2
                | none => lastErr0)).1 + failing.length,
           (tryModelsAux username tailOc
              (match failing.getLast? with
                | some p => some p.2
                | none => lastErr0)).2) := by
  induction failing with
  | nil =>
    intro lastErr0
    simp
  | cons p failing2 ih =>
    intro lastErr0
    have hp := hfail p (by simp)
    have hstep : tryModelsAux username ((p :: failing2).map Prod.fst ++ tailOc) lastErr0
        = ((tryModelsAux username (failing2.map Prod.fst ++ tailOc) (some p.2)).1 + 1,
           (tryModelsAux username (failing2.map Prod.fst ++ tailOc) (some p.2)).2) := by
      show tryModelsAux username (p.1 :: (failing2.map Prod.fst ++ tailOc)) lastErr0 = _
      rw [tryModelsAux.eq_2, hp.1]
      show (if isCaught p.2 = true then _ else _) = _
      rw [if_pos hp.2]
    rw [hstep, ih (fun q hq => hfail q (by simp [hq])) (some p.2)]
    rcases failing2 with _ | ⟨q, qs⟩
    · simp
    · rw [show (p :: q :: qs).getLast? = (q :: qs).getLast? from List.getLast?_cons_cons]
      obtain ⟨r, hr⟩ := getLast_isSome_ne_nil (show q :: qs ≠ [] by simp)
      rw [hr]
      simp
      omega



theorem generatePortfolioData_eval (model : Option String) (username : String)
    (outcomes : List CallOutcome) :
    generatePortfolioData model username outcomes
      = ((tryModelsAux username (outcomes.take (buildModels model).length) none).1,
         match (tryModelsAux username (outcomes.take (buildModels model).length) none).2 with
         | .success result => .ok result
         | .exhausted lastErr => .error (.allModelsFailed (buildModels model).length lastErr)
         | .uncaughtErr e => .error (.uncaught e)) := rfl

/-- C1: with the candidate-model list of length N built preferred-first
(fallbacks de-duplicated), if the first N-1 attempts fail with caught
(transient-class) errors, then: a successful N-th attempt makes the
orchestrator return its parsed result after exactly N calls, and a caught
failure of the N-th attempt makes it raise the terminal
all-models-failed error carrying that last error, again after exactly N
calls — one attempt per model, in order. -/
theorem generate_fallback (model : Option String) (username : String)
    (failing : List (CallOutcome × LLMErr)) (lastOc : CallOutcome)
    (hlen : failing.length + 1 = (buildModels model).length)
    (hfail : ∀ p ∈ failing, attemptModel p.1 username = .error p.2 ∧ isCaught p.2 = true) :
    (∀ R, attemptModel lastOc username = .ok R →
      generatePortfolioData model username (failing.map Prod.fst ++ [lastOc])
        = ((buildModels model).length, .ok R))
    ∧ (∀ e, attemptModel lastOc username = .error e → isCaught e = true →
      generatePortfolioData model username (failing.map Prod.fst ++ [lastOc])
        = ((buildModels model).length,
           .error (.allModelsFailed (buildModels model).length (some e)))) := by
  have htake : (failing.map Prod.fst ++ [lastOc]).take (buildModels model).length
      = failing.map Prod.fst ++ [lastOc] := by
    have hl : (failing.map Prod.fst ++ [lastOc]).length = (buildModels model).length := by
      simp
      omega
    rw [← hl]
    exact List.take_length _
  constructor
  · intro R hR
    have hone : tryModelsAux username [lastOc]
        (match failing.getLast? with
          | some p => some p.2
          | none => none) = (1, .success R) := by
      rw [tryModelsAux.eq_2, hR]
    rw [generatePortfolioData_eval, htake,
      tryModelsAux_skip username failing [lastOc] hfail none, hone]
    show (1 + failing.length, Except.ok R) = _
    rw [Nat.add_comm, hlen]
  · intro e he hc
    have hone : tryModelsAux username [lastOc]
        (match failing.getLast? with
          | some p => some p.2
          | none => none) = (1, .exhausted (some e)) := by
      rw [tryModelsAux.eq_2, he]
      show (if isCaught e = true then _ else _) = _
      rw [if_pos hc, tryModelsAux.eq_1]
    rw [generatePortfolioData_eval, htake,
      tryModelsAux_skip username failing [lastOc] hfail none, hone]
    show (1 + failing.length,
      Except.error (GenErr.allModelsFailed (buildModels model).length (some e))) = _
    rw [Nat.add_comm, hlen]

/-- Witness for C1: seven rate-limited attempts followed by a 500-status
attempt exhaust the eight-model list built for a custom preferred model. -/
theorem generate_fallback_witness :
    (buildModels (some "m")).length = 8
    ∧ generatePortfolioData (some "m") ""
        (List.map Prod.fst (List.replicate 7
            ((CallOutcome.resp 429 none : CallOutcome), (LLMErr.rateLimited : LLMErr)))
          ++ [CallOutcome.resp 500 none])
      = (8, .error (.allModelsFailed 8 (some (.httpStatus 500)))) := by
  refine ⟨rfl, ?_⟩
  have h := (generate_fallback (some "m") ""
    (List.replicate 7 ((CallOutcome.resp 429 none : CallOutcome), (LLMErr.rateLimited : LLMErr)))
    (CallOutcome.resp 500 none)
    (by rfl)
    (by
      intro p hp
      rw [List.eq_of_mem_replicate hp]
      exact ⟨rfl, rfl⟩)).2 (.httpStatus 500) rfl rfl
  exact h



theorem tryModelsAux_no_uncaught (username : String) :
    ∀ (outcomes : List CallOutcome) (lastErr0 : Option LLMErr),
      (∀ oc ∈ outcomes, ∀ e, attemptModel oc username = .error e → isCaught e = true) →
      ∀ e, (tryModelsAux username outcomes lastErr0).2 ≠ .uncaughtErr e := by
  intro outcomes
  induction outcomes with
  | nil =>
    intro lastErr0 h e
    rw [tryModelsAux.eq_1]
    simp
  | cons oc rest ih =>
    intro lastErr0 h e
    rw [tryModelsAux.eq_2]
    cases ha : attemptModel oc username with
    | ok result => simp
    | error e2 =>
      have hc := h oc (by simp) e2 ha
      show ((if isCaught e2 = true then _ else _ : Nat × LoopResult)).2 ≠ _
      rw [if_pos hc]
      show (tryModelsAux username rest (some e2)).2 ≠ LoopResult.uncaughtErr e
      exact ih (some e2) (fun oc2 h2 e3 h3 => h oc2 (by simp [h2]) e3 h3) e

theorem tryModelsAux_all_err (username : String) :
    ∀ (outcomes : List CallOutcome) (lastErr0 : Option LLMErr),
      (∀ oc ∈ outcomes, ∃ e, attemptModel oc username = .error e ∧ isCaught e = true) →
      ∃ le, tryModelsAux username outcomes lastErr0 = (outcomes.length, .exhausted le) := by
  intro outcomes
  induction outcomes with
  | nil =>
    intro lastErr0 h
    exact ⟨lastErr0, by rw [tryModelsAux.eq_1]; rfl⟩
  | cons oc rest ih =>
    intro lastErr0 h
    obtain ⟨e, he, hc⟩ := h oc (by simp)
    obtain ⟨le, hle⟩ := ih (some e) (fun oc2 h2 => h oc2 (by simp [h2]))
    refine ⟨le, ?_⟩
    rw [tryModelsAux.eq_2, he]
    show (if isCaught e = true then _ else _) = _
    rw [if_pos hc]
    show ((tryModelsAux username rest (some e)).1 + 1, (tryModelsAux username rest (some e)).2)
      = _
    rw [hle]
    rfl

/-- C2 counterexample: a 200 response whose body is
`\x7b"choices": []\x7d` makes `data["choices"][0]` raise `IndexError`,
which no `except` clause catches: the orchestrator aborts after one call
with an uncaught per-model failure instead of `AllModelsExhausted`, even
though seven candidate models were available. -/
theorem generate_uncaught_cex :
    generatePortfolioData none ""
        [CallOutcome.resp 200 (some (Json.obj [("choices", Json.arr [])]))]
      = (1, .error (.uncaught .indexError))
    ∧ (buildModels none).length = 7
    ∧ isCaught .indexError = false := by
  refine ⟨?_, rfl, rfl⟩
  rfl

/-- C2 (amended): when every per-model failure is of a caught class
(`httpx.HTTPStatusError`, `httpx.TimeoutException`, `ValueError`,
`KeyError`), the orchestrator never surfaces a per-model failure — and if
additionally every attempt fails, the only raised failure is the terminal
all-models-failed error, after one call per candidate model. (The
unrestricted claim is false: see the recorded counterexample, where an
`IndexError` from an empty `choices` list propagates directly.) -/
theorem generate_error_policy (model : Option String) (username : String)
    (outcomes : List CallOutcome)
    (hc : ∀ oc ∈ outcomes, ∀ e, attemptModel oc username = .error e → isCaught e = true) :
    (∀ e, (generatePortfolioData model username outcomes).2 ≠ .error (.uncaught e))
    ∧ ((∀ oc ∈ outcomes, ∃ e, attemptModel oc username = .error e ∧ isCaught e = true) →
       outcomes.length = (buildModels model).length →
       ∃ lastErr, generatePortfolioData model username outcomes
         = ((buildModels model).length,
            .error (.allModelsFailed (buildModels model).length lastErr))) := by
  constructor
  · intro e
    rw [generatePortfolioData_eval]
    have hsub : ∀ oc ∈ outcomes.take (buildModels model).length, ∀ e2,
        attemptModel oc username = .error e2 → isCaught e2 = true :=
      fun oc hoc => hc oc (List.take_subset _ _ hoc)
    cases hres : (tryModelsAux username (outcomes.take (buildModels model).length) none).2 with
    | success result => simp
    | exhausted lastErr => simp
    | uncaughtErr e2 =>
      exact absurd hres (tryModelsAux_no_uncaught username _ none hsub e2)
  · intro hall hlen
    have htake : outcomes.take (buildModels model).length = outcomes := by
      rw [← hlen]
      exact List.take_length _
    obtain ⟨le, hle⟩ := tryModelsAux_all_err username outcomes none hall
    refine ⟨le, ?_⟩
    rw [generatePortfolioData_eval, htake, hle, hlen]

/-- Witness for the amended C2 theorem: seven rate-limited outcomes for
the default seven-model list. -/
theorem generate_error_policy_witness :
    ∃ lastErr, generatePortfolioData none ""
        (List.replicate 7 (CallOutcome.resp 429 none))
      = (7, .error (.allModelsFailed 7 lastErr)) := by
  have h := (generate_error_policy none ""
    (List.replicate 7 (CallOutcome.resp 429 none))
    (by
      intro oc hoc e he
      rw [List.eq_of_mem_replicate hoc] at he
      have h2 : (Except.error LLMErr.rateLimited : Except LLMErr (List (String × Json)))
          = .error e := he
      injection h2 with h3
      rw [← h3]
      rfl)).2
    (by
      intro oc hoc
      rw [List.eq_of_mem_replicate hoc]
      exact ⟨.rateLimited, rfl, rfl⟩)
    (by rfl)
  exact h



theorem dropWhile_nil_of_all {p : Char → Bool} {cs : List Char}
    (h : ∀ c ∈ cs, p c = true) : cs.dropWhile p = [] := by
  induction cs with
  | nil => rfl
  | cons c cs2 ih =>
    rw [List.dropWhile_cons, if_pos (h c (by simp))]
    exact ih (fun c2 h2 => h c2 (by simp [h2]))

theorem pyStripList_nil_of_ws {cs : List Char}
    (h : ∀ c ∈ cs, isPyWs c = true) : pyStripList cs = [] := by
  unfold pyStripList
  rw [dropWhile_nil_of_all h]
  rfl

theorem mem_joinNl {c : Char} : ∀ {xs : List (List Char)}, c ∈ joinNl xs →
    (∃ x ∈ xs, c ∈ x) ∨ c = '\n' := by
  intro xs
  induction xs with
  | nil =>
    intro h
    simp [joinNl] at h
  | cons x xs2 ih =>
    cases xs2 with
    | nil =>
      intro h
      rw [show joinNl [x] = x from rfl] at h
      exact Or.inl ⟨x, by simp, h⟩
    | cons y ys =>
      intro h
      rw [show joinNl (x :: y :: ys) = x ++ '\n' :: joinNl (y :: ys) from rfl] at h
      rcases List.mem_append.mp h with h2 | h2
      · exact Or.inl ⟨x, by simp, h2⟩
      · rcases List.mem_cons.mp h2 with rfl | h3
        · exact Or.inr rfl
        · rcases ih h3 with ⟨z, hz, hcz⟩ | h4
          · exact Or.inl ⟨z, by simp [hz], hcz⟩
          · exact Or.inr h4

/-- C10: when every extracted page text is missing, empty, or whitespace
only, `process_resume` raises the scanned-image `ValueError` before any
LLM call: zero calls are made and neither the orchestrator nor the
normalizer runs. -/
theorem processResume_empty (pages : List (Option String)) (model : Option String)
    (username : String) (outcomes : List CallOutcome) (profileImage : Option String)
    (h : ∀ p ∈ pages, ∀ s, p = some s → ∀ c ∈ s.data, isPyWs c = true) :
    processResume pages model username outcomes profileImage
      = (0, .error (.emptyPdf ("No text could be extracted from the uploaded PDF. "
          ++ "Please ensure it is a text-based PDF (not a scanned image).")))
    := by
  have hall : ∀ c ∈ extractTextFromPdf pages, isPyWs c = true := by
    intro c hc
    unfold extractTextFromPdf at hc
    rcases mem_joinNl hc with ⟨x, hx, hcx⟩ | h2
    · rw [List.mem_map] at hx
      obtain ⟨s, hs, hsd⟩ := hx
      rw [List.mem_filterMap] at hs
      obtain ⟨p, hp, hfp⟩ := hs
      cases p with
      | none => exact Option.noConfusion hfp
      | some s2 =>
        have hfp2 : (if s2 = "" then (none : Option String) else some s2) = some s := hfp
        by_cases he : s2 = ""
        · rw [if_pos he] at hfp2
          exact Option.noConfusion hfp2
        · rw [if_neg he] at hfp2
          injection hfp2 with h3
          subst h3
          rw [← hsd] at hcx
          exact h (some s2) hp s2 rfl c hcx
    · subst h2
      decide
  have hstrip : pyStripList (extractTextFromPdf pages) = [] := pyStripList_nil_of_ws hall
  show (if (pyStripList (extractTextFromPdf pages)).isEmpty = true then _ else _) = _
  rw [hstrip]
  rfl

/-- Witness for C10 at a one-page PDF whose text is a single space. -/
theorem processResume_empty_witness :
    processResume [some " "] none "" [] none
      = (0, .error (.emptyPdf ("No text could be extracted from the uploaded PDF. "
          ++ "Please ensure it is a text-based PDF (not a scanned image).")))
    :=
  processResume_empty [some " "] none "" [] none (by
    intro p hp s hps c hc
    simp only [List.mem_singleton] at hp
    subst hp
    injection hps with h2
    rw [← h2] at hc
    simp at hc
    subst hc
    decide)



/-- ASCII model of `str.upper()` (the classifier labels are ASCII). -/
def asciiUpper (c : Char) : Char :=
  if 'a' ≤ c ∧ c ≤ 'z' then Char.ofNat (c.toNat - 32) else c

/-- `detect_intent(user_message)` over an oracle for the Gemini call:
`none` models any raised exception (caught by the blanket `except`),
`some response` the returned text; then
`intent = response.strip().upper()` and membership in the three labels. -/
def detectIntent (call : Option String) : String :=
  match call with
  | none => "RAG"
  | some response =>
    let intent := String.mk ((pyStripList response.data).map asciiUpper)
    if intent = "INTERVIEW" ∨ intent = "ATS" ∨ intent = "RAG" then intent else "RAG"

/-- A job record (`dict`) as an association list. -/
def JobD := List (String × Json)

/-- Python `d[k] = v` on a record: replace in place, or append. -/
def dictSet : List (String × Json) → String → Json → List (String × Json)
  | [], k, v => [(k, v)]
  | (k1, v1) :: rest, k, v =>
    if k1 = k then (k, v) :: rest else (k1, v1) :: dictSet rest k v

/-- Outcome of the scoring call in `_score_and_filter_jobs`: `fail` models
a non-200 response, a network error, or unparsable scoring output (the
`try` wraps the whole path and `except Exception` catches everything);
`parsed scores` models a 200 response whose cleaned content `json.loads`
to `scores`. -/
inductive ScoreOutcome where
  | fail
  | parsed (scores : Json)

/-- The fallback loop
`for i, j in enumerate(jobs[:10]): j["match_score"] = 80 - i*2; ...`. -/
def fallbackGo : List JobD → Nat → List JobD
  | [], _ => []
  | j :: rest, i =>
    dictSet (dictSet j "match_score" (Json.num (80 - 2 * (i : Int)))) "match_reason"
      (Json.str "Based on keyword matching with your resume skills.") :: fallbackGo rest (i + 1)

/-- The merge loop of the success path. `none` models an exception inside
the `try` (e.g. `TypeError` from comparing a non-integer index or score),
which the blanket `except` turns into the fallback. A missing `index` or
an out-of-range one skips the entry; a missing score defaults to 0 and is
dropped by the `>= 40` filter; Python `bool` is an `int` (`True == 1`). -/
def mergeScores (jobsToScore : List JobD) : List Json → Option (List JobD)
  | [] => some []
  | s :: rest =>
    match s with
    | .obj sf =>
      match jsonGet sf "index" with
      | none => mergeScores jobsToScore rest
      | some .null => mergeScores jobsToScore rest
      | some (.num idx) =>
        if 0 ≤ idx ∧ idx < jobsToScore.length then
          let job := (jobsToScore.drop idx.toNat).headD []
          let score := (jsonGet sf "score").getD (Json.num 0)
          let reason := (jsonGet sf "reason").getD (Json.str "Good match for your profile.")
          let job2 := dictSet (dictSet job "match_score" score) "match_reason" reason
          match score with
          | .num m =>
            if 40 ≤ m then (mergeScores jobsToScore rest).map (fun l => job2 :: l)
            else mergeScores jobsToScore rest
          | .bool _ => mergeScores jobsToScore rest
          | _ => none
        else mergeScores jobsToScore rest
      | some (.bool b) =>
        if (if b then 1 else 0) < jobsToScore.length then
          let job := (jobsToScore.drop (if b then 1 else 0)).headD []
          let score := (jsonGet sf "score").getD (Json.num 0)
          let reason := (jsonGet sf "reason").getD (Json.str "Good match for your profile.")
          let job2 := dictSet (dictSet job "match_score" score) "match_reason" reason
          match score with
          | .num m =>
            if 40 ≤ m then (mergeScores jobsToScore rest).map (fun l => job2 :: l)
            else mergeScores jobsToScore rest
          | .bool _ => mergeScores jobsToScore rest
          | _ => none
        else mergeScores jobsToScore rest
      | some _ => none
    | _ => none

/-- Sort key of a merged record (a number by construction). -/
def scoreOf (j : JobD) : Int :=
  match jsonGet j "match_score" with
  | some (.num n) => n
  | _ => 0

/-- Stable descending insertion. -/
def insertDesc (x : JobD) : List JobD → List JobD
  | [] => [x]
  | y :: ys => if scoreOf x < scoreOf y then y :: insertDesc x ys else x :: y :: ys

/-- `scored_jobs.sort(key=lambda x: x["match_score"], reverse=True)`:
stable descending sort. -/
def sortDesc : List JobD → List JobD
  | [] => []
  | x :: xs => insertDesc x (sortDesc xs)

/-- `_score_and_filter_jobs(jobs, portfolio, api_key)`. Iterating a
non-list `scores` value: an empty dict or empty string yields an empty
loop (result `[]`); any other non-list raises inside the `try` and falls
back. -/
def scoreAndFilter (jobs : List JobD) (outcome : ScoreOutcome) : List JobD :=
  if jobs.isEmpty then []
  else
    match outcome with
    | .fail => fallbackGo (jobs.take 10) 0
    | .parsed scores =>
      match scores with
      | .arr ss =>
        match mergeScores (jobs.take 15) ss with
        | some merged => sortDesc merged
        | none => fallbackGo (jobs.take 10) 0
      | .obj [] => []
      | .str "" => []
      | _ => fallbackGo (jobs.take 10) 0

/-- `JobFilter` (all fields optional). -/
structure JobFilter where
  location : Option String
  level : Option String
  remote : Option Bool
  salary_min : Option Int
  what : Option String

/-- Python `f"{x}"` of an optional string. -/
def showOptStr : Option String → String
  | none => "None"
  | some s => s

/-- Python `f"{x}"` of an optional bool. -/
def showOptBool : Option Bool → String
  | none => "None"
  | some true => "True"
  | some false => "False"

/-- Python `f"{x}"` of an optional int. -/
def showOptInt : Option Int → String
  | none => "None"
  | some n => String.mk (intRepr n)

/-- `cache_key = f"{slug}_{location}-{level}-{remote}-{salary_min}-{what}"`. -/
def cacheKey (slug : String) (f : JobFilter) : String :=
  slug ++ "_" ++ showOptStr f.location ++ "-" ++ showOptStr f.level ++ "-"
    ++ showOptBool f.remote ++ "-" ++ showOptInt f.salary_min ++ "-" ++ showOptStr f.what

/-- One `jobs_cache` entry: key, value, expiry time (insertion time plus
the 600-second TTL). -/
abbrev CacheEntry := String × List JobD × Nat

/-- `cache_key in jobs_cache` / `jobs_cache[cache_key]`: a hit only while
the entry is unexpired. -/
def cacheGet (c : List CacheEntry) (key : String) (now : Nat) : Option (List JobD) :=
  match c.find? (fun e => e.1 == key) with
  | some e => if now < e.2.2 then some e.2.1 else none
  | none => none

/-- `jobs_cache[cache_key] = scored_jobs` on a `TTLCache(maxsize=100,
ttl=600)`: drop expired entries and any old entry for the key, evict from
the front (oldest) down to capacity, then append the fresh entry with
expiry `now + ttl`. -/
def cachePut (c : List CacheEntry) (key : String) (val : List JobD) (now : Nat) : List CacheEntry :=
  let purged := c.filter (fun e => decide (now < e.2.2) && e.1 != key)
  let evicted := if 100 ≤ purged.length then purged.drop (purged.length + 1 - 100) else purged
  evicted ++ [(key, val, now + 600)]

/-- The country heuristic of `get_recommended_jobs`: an empty contact dict
is falsy; `phone = contact.get("phone", "")`, then the `+44`/`+91`
prefixes. -/
def countryOf (contact : Option (List (String × String))) : String :=
  match contact with
  | none => "us"
  | some fields =>
    if fields = [] then "us"
    else
      let phone := match fields.find? (fun p => p.1 == "phone") with
        | some p => p.2
        | none => ""
      if phone.data.take 3 = ['+', '4', '4'] then "gb"
      else if phone.data.take 3 = ['+', '9', '1'] then "in"
      else "us"

/-- Result of one `get_recommended_jobs` request: the returned list, the
cache afterwards, and how many listings-API calls and LLM scoring calls
the request made. -/
structure JobsResult where
  result : List JobD
  cache : List CacheEntry
  fetchCalls : Nat
  scoreCalls : Nat

/-- `get_recommended_jobs(portfolio, api_key, filters)` at time `now`,
with oracles for the Adzuna fetch (a function of the country heuristic)
and the scoring call. A cache hit returns at once; otherwise one fetch
runs, scoring runs (its HTTP call is skipped for an empty fetch), and the
result is cached. -/
def getRecommendedJobs (slug : String) (contact : Option (List (String × String)))
    (filters : JobFilter) (cache : List CacheEntry) (now : Nat)
    (fetchOracle : String → List JobD) (scoreOutcome : ScoreOutcome) : JobsResult :=
  let key := cacheKey slug filters
  match cacheGet cache key now with
  | some cached => ⟨cached, cache, 0, 0⟩
  | none =>
    let country := countryOf contact
    let rawJobs := fetchOracle country
    let scored := scoreAndFilter rawJobs scoreOutcome
    ⟨scored, cachePut cache key scored now, 1, if rawJobs.isEmpty then 0 else 1⟩



/-- C7: the intent classifier always returns one of the three labels
INTERVIEW, ATS, RAG; a failed classification call defaults to RAG; an
unrecognized normalized reply defaults to RAG; a recognized normalized
reply is returned as-is. -/
theorem detectIntent_labels (call : Option String) :
    (detectIntent call = "INTERVIEW" ∨ detectIntent call = "ATS" ∨ detectIntent call = "RAG")
    ∧ (call = none → detectIntent call = "RAG")
    ∧ (∀ r, call = some r →
        String.mk ((pyStripList r.data).map asciiUpper) ≠ "INTERVIEW" →
        String.mk ((pyStripList r.data).map asciiUpper) ≠ "ATS" →
        String.mk ((pyStripList r.data).map asciiUpper) ≠ "RAG" →
        detectIntent call = "RAG")
    ∧ (∀ r, call = some r →
        (String.mk ((pyStripList r.data).map asciiUpper) = "INTERVIEW"
          ∨ String.mk ((pyStripList r.data).map asciiUpper) = "ATS"
          ∨ String.mk ((pyStripList r.data).map asciiUpper) = "RAG") →
        detectIntent call = String.mk ((pyStripList r.data).map asciiUpper)) := by
  have hsome : ∀ r : String,
      detectIntent (some r)
        = (if String.mk ((pyStripList r.data).map asciiUpper) = "INTERVIEW"
              ∨ String.mk ((pyStripList r.data).map asciiUpper) = "ATS"
              ∨ String.mk ((pyStripList r.data).map asciiUpper) = "RAG"
            then String.mk ((pyStripList r.data).map asciiUpper) else "RAG") := fun r => rfl
  refine ⟨?_, ?_, ?_, ?_⟩
  · cases call with
    | none => exact Or.inr (Or.inr rfl)
    | some r =>
      rw [hsome r]
      by_cases h : String.mk ((pyStripList r.data).map asciiUpper) = "INTERVIEW"
          ∨ String.mk ((pyStripList r.data).map asciiUpper) = "ATS"
          ∨ String.mk ((pyStripList r.data).map asciiUpper) = "RAG"
      · rw [if_pos h]
        exact h
      · rw [if_neg h]
        exact Or.inr (Or.inr rfl)
  · intro h
    subst h
    rfl
  · intro r hr h1 h2 h3
    subst hr
    rw [hsome r, if_neg (fun h4 => h4.elim h1 (fun h5 => h5.elim h2 h3))]
  · intro r hr hmem
    subst hr
    rw [hsome r, if_pos hmem]

/-- Witness for C7: a failed call, an unrecognized reply, and a
recognized (whitespace-padded, lowercase) reply. -/
theorem detectIntent_labels_witness :
    detectIntent none = "RAG"
    ∧ detectIntent (some "hello") = "RAG"
    ∧ detectIntent (some " ats \n") = String.mk ((pyStripList (" ats \n").data).map asciiUpper) :=
  ⟨(detectIntent_labels none).2.1 rfl,
   (detectIntent_labels (some "hello")).2.2.1 "hello" rfl (by decide) (by decide) (by decide),
   (detectIntent_labels (some " ats \n")).2.2.2 " ats \n" rfl (Or.inr (Or.inl (by decide)))⟩



theorem jsonGet_dictSet_same (d : List (String × Json)) (k : String) (v : Json) :
    jsonGet (dictSet d k v) k = some v := by
  induction d with
  | nil => simp [dictSet, jsonGet]
  | cons p rest ih =>
    obtain ⟨k1, v1⟩ := p
    by_cases h : k1 = k
    · rw [show dictSet ((k1, v1) :: rest) k v = (k, v) :: rest from by
        rw [dictSet, if_pos h]]
      simp [jsonGet]
    · rw [show dictSet ((k1, v1) :: rest) k v = (k1, v1) :: dictSet rest k v from by
        rw [dictSet, if_neg h]]
      rw [show jsonGet ((k1, v1) :: dictSet rest k v) k = jsonGet (dictSet rest k v) k from by
        rw [jsonGet, if_neg h]]
      exact ih

theorem jsonGet_dictSet_other (d : List (String × Json)) (k k' : String) (v : Json)
    (h : k' ≠ k) : jsonGet (dictSet d k v) k' = jsonGet d k' := by
  induction d with
  | nil =>
    simp [dictSet, jsonGet, Ne.symm h]
  | cons p rest ih =>
    obtain ⟨k1, v1⟩ := p
    by_cases h1 : k1 = k
    · rw [show dictSet ((k1, v1) :: rest) k v = (k, v) :: rest from by
        rw [dictSet, if_pos h1]]
      rw [show jsonGet ((k, v) :: rest) k' = if k = k' then some v else jsonGet rest k' from by
        rw [jsonGet]]
      rw [if_neg (fun h2 => h h2.symm)]
      rw [show jsonGet ((k1, v1) :: rest) k' = if k1 = k' then some v1 else jsonGet rest k' from by
        rw [jsonGet]]
      rw [if_neg (fun h2 => h (h1 ▸ h2).symm)]
    · rw [show dictSet ((k1, v1) :: rest) k v = (k1, v1) :: dictSet rest k v from by
        rw [dictSet, if_neg h1]]
      rw [show jsonGet ((k1, v1) :: dictSet rest k v) k'
          = if k1 = k' then some v1 else jsonGet (dictSet rest k v) k' from by rw [jsonGet]]
      rw [show jsonGet ((k1, v1) :: rest) k' = if k1 = k' then some v1 else jsonGet rest k' from by
        rw [jsonGet]]
      by_cases h2 : k1 = k'
      · rw [if_pos h2, if_pos h2]
      · rw [if_neg h2, if_neg h2]
        exact ih

theorem fallbackGo_length : ∀ (l : List JobD) (b : Nat), (fallbackGo l b).length = l.length := by
  intro l
  induction l with
  | nil => intro b; rfl
  | cons j rest ih =>
    intro b
    show (fallbackGo (j :: rest) b).length = rest.length + 1
    rw [show fallbackGo (j :: rest) b
        = dictSet (dictSet j "match_score" (Json.num (80 - 2 * (b : Int)))) "match_reason"
            (Json.str "Based on keyword matching with your resume skills.")
          :: fallbackGo rest (b + 1) from by rw [fallbackGo]]
    rw [List.length_cons, ih (b + 1)]

theorem fallbackGo_getD : ∀ (l : List JobD) (b i : Nat), i < l.length →
    jsonGet ((fallbackGo l b).getD i []) "match_score"
        = some (Json.num (80 - 2 * ((b : Int) + i)))
    ∧ jsonGet ((fallbackGo l b).getD i []) "match_reason"
        = some (Json.str "Based on keyword matching with your resume skills.") := by
  intro l
  induction l with
  | nil =>
    intro b i hi
    simp at hi
  | cons j rest ih =>
    intro b i hi
    rw [show fallbackGo (j :: rest) b
        = dictSet (dictSet j "match_score" (Json.num (80 - 2 * (b : Int)))) "match_reason"
            (Json.str "Based on keyword matching with your resume skills.")
          :: fallbackGo rest (b + 1) from by rw [fallbackGo]]
    cases i with
    | zero =>
      rw [List.getD_cons_zero]
      constructor
      · rw [jsonGet_dictSet_other _ _ _ _ (by decide), jsonGet_dictSet_same]
        simp
      · rw [jsonGet_dictSet_same]
    | succ i2 =>
      rw [List.getD_cons_succ]
      have h2 := ih (b + 1) i2 (by simp at hi; omega)
      refine ⟨?_, h2.2⟩
      rw [h2.1]
      simp only [Option.some.injEq, Json.num.injEq]
      push_cast
      omega



theorem scoreOf_eq {j : JobD} {n : Int}
    (h : jsonGet j "match_score" = some (Json.num n)) : scoreOf j = n := by
  unfold scoreOf
  rw [h]

/-- C6: on a non-empty fetched job list, a scoring-path failure never
raises: the step returns the first `min 10 n` listings, the i-th carrying
the synthetic `match_score` 80 - 2i and the generic `match_reason`, so the
scores are strictly decreasing (80, 78, 76, ...). -/
theorem scoreAndFilter_fallback (jobs : List JobD) (hne : jobs ≠ []) :
    (scoreAndFilter jobs .fail).length = min 10 jobs.length
    ∧ (∀ i, i < (scoreAndFilter jobs .fail).length →
        jsonGet ((scoreAndFilter jobs .fail).getD i []) "match_score"
            = some (Json.num (80 - 2 * (i : Int)))
        ∧ jsonGet ((scoreAndFilter jobs .fail).getD i []) "match_reason"
            = some (Json.str "Based on keyword matching with your resume skills."))
    ∧ (∀ i j2, i < j2 → j2 < (scoreAndFilter jobs .fail).length →
        scoreOf ((scoreAndFilter jobs .fail).getD j2 [])
          < scoreOf ((scoreAndFilter jobs .fail).getD i [])) := by
  have heval : scoreAndFilter jobs .fail = fallbackGo (jobs.take 10) 0 := by
    unfold scoreAndFilter
    rw [if_neg (by simp [hne])]
  have hget : ∀ i, i < (scoreAndFilter jobs .fail).length →
      jsonGet ((scoreAndFilter jobs .fail).getD i []) "match_score"
          = some (Json.num (80 - 2 * (i : Int)))
      ∧ jsonGet ((scoreAndFilter jobs .fail).getD i []) "match_reason"
          = some (Json.str "Based on keyword matching with your resume skills.") := by
    intro i hi
    rw [heval] at hi ⊢
    rw [fallbackGo_length] at hi
    have h2 := fallbackGo_getD (jobs.take 10) 0 i hi
    simpa using h2
  refine ⟨?_, hget, ?_⟩
  · rw [heval, fallbackGo_length, List.length_take]
  · intro i j2 hij hj2
    have hi : i < (scoreAndFilter jobs .fail).length := by omega
    rw [scoreOf_eq (hget j2 hj2).1, scoreOf_eq (hget i hi).1]
    omega

/-- Witness for C6 with 20 fetched listings: exactly 10 records, scores
80 down to 62. -/
theorem scoreAndFilter_fallback_witness :
    (scoreAndFilter (List.replicate 20 ([] : JobD)) .fail).length = 10
    ∧ jsonGet ((scoreAndFilter (List.replicate 20 ([] : JobD)) .fail).getD 0 []) "match_score"
        = some (Json.num 80)
    ∧ jsonGet ((scoreAndFilter (List.replicate 20 ([] : JobD)) .fail).getD 9 []) "match_score"
        = some (Json.num 62) := by
  have h := scoreAndFilter_fallback (List.replicate 20 ([] : JobD)) (by simp)
  have hl : (scoreAndFilter (List.replicate 20 ([] : JobD)) .fail).length = 10 := by
    rw [h.1, List.length_replicate]
    decide
  refine ⟨hl, ?_, ?_⟩
  · have h2 := (h.2.1 0 (by rw [hl]; decide)).1
    simpa using h2
  · have h2 := (h.2.1 9 (by rw [hl]; decide)).1
    simpa using h2



theorem find?_none_append {A : Type} {p : A → Bool} {l1 l2 : List A}
    (h : ∀ x ∈ l1, p x = false) : (l1 ++ l2).find? p = l2.find? p := by
  induction l1 with
  | nil => rfl
  | cons a l ih =>
    rw [List.cons_append, List.find?_cons_of_neg _ (by simpa using h a (by simp))]
    exact ih (fun x hx => h x (by simp [hx]))

theorem cachePut_eval (c : List CacheEntry) (key : String) (val : List JobD) (now : Nat) :
    cachePut c key val now
      = (if 100 ≤ (c.filter (fun e => decide (now < e.2.2) && e.1 != key)).length
         then (c.filter (fun e => decide (now < e.2.2) && e.1 != key)).drop
           ((c.filter (fun e => decide (now < e.2.2) && e.1 != key)).length + 1 - 100)
         else c.filter (fun e => decide (now < e.2.2) && e.1 != key)) ++ [(key, val, now + 600)]
    := rfl

theorem cacheGet_cachePut_fresh (c : List CacheEntry) (key : String) (val : List JobD)
    (t1 t2 : Nat) (ht : t2 < t1 + 600) :
    cacheGet (cachePut c key val t1) key t2 = some val := by
  have hfilter : ∀ e ∈ c.filter (fun e => decide (t1 < e.2.2) && e.1 != key),
      ((fun (e : CacheEntry) => e.1 == key) e) = false := by
    intro e he
    have h2 := List.of_mem_filter he
    simp only [Bool.and_eq_true] at h2
    simpa using h2.2
  have hev : ∀ e ∈ (if 100 ≤ (c.filter (fun e => decide (t1 < e.2.2) && e.1 != key)).length
      then (c.filter (fun e => decide (t1 < e.2.2) && e.1 != key)).drop
        ((c.filter (fun e => decide (t1 < e.2.2) && e.1 != key)).length + 1 - 100)
      else c.filter (fun e => decide (t1 < e.2.2) && e.1 != key)),
      ((fun (e : CacheEntry) => e.1 == key) e) = false := by
    intro e he
    apply hfilter
    by_cases h100 : 100 ≤ (c.filter (fun e => decide (t1 < e.2.2) && e.1 != key)).length
    · rw [if_pos h100] at he
      exact List.drop_subset _ _ he
    · rw [if_neg h100] at he
      exact he
  unfold cacheGet
  rw [cachePut_eval, find?_none_append hev]
  rw [show List.find? (fun (e : CacheEntry) => e.1 == key) [(key, val, t1 + 600)]
      = some (key, val, t1 + 600) from List.find?_cons_of_pos _ (by simp)]
  show (if t2 < t1 + 600 then some val else none) = some val
  rw [if_pos ht]

theorem getRecommendedJobs_eval (slug : String) (contact : Option (List (String × String)))
    (filters : JobFilter) (cache : List CacheEntry) (now : Nat)
    (fetchOracle : String → List JobD) (sc : ScoreOutcome) :
    getRecommendedJobs slug contact filters cache now fetchOracle sc
      = (match cacheGet cache (cacheKey slug filters) now with
        | some cached => (⟨cached, cache, 0, 0⟩ : JobsResult)
        | none =>
          ⟨scoreAndFilter (fetchOracle (countryOf contact)) sc,
           cachePut cache (cacheKey slug filters)
             (scoreAndFilter (fetchOracle (countryOf contact)) sc) now,
           1, if (fetchOracle (countryOf contact)).isEmpty then 0 else 1⟩) := rfl

theorem getRecommendedJobs_hit (slug : String) (contact : Option (List (String × String)))
    (filters : JobFilter) (cache : List CacheEntry) (now : Nat)
    (fetchOracle : String → List JobD) (sc : ScoreOutcome) (v : List JobD)
    (h : cacheGet cache (cacheKey slug filters) now = some v) :
    getRecommendedJobs slug contact filters cache now fetchOracle sc = ⟨v, cache, 0, 0⟩ := by
  rw [getRecommendedJobs_eval, h]

theorem getRecommendedJobs_miss (slug : String) (contact : Option (List (String × String)))
    (filters : JobFilter) (cache : List CacheEntry) (now : Nat)
    (fetchOracle : String → List JobD) (sc : ScoreOutcome)
    (h : cacheGet cache (cacheKey slug filters) now = none) :
    getRecommendedJobs slug contact filters cache now fetchOracle sc
      = ⟨scoreAndFilter (fetchOracle (countryOf contact)) sc,
         cachePut cache (cacheKey slug filters)
           (scoreAndFilter (fetchOracle (countryOf contact)) sc) now,
         1, if (fetchOracle (countryOf contact)).isEmpty then 0 else 1⟩ := by
  rw [getRecommendedJobs_eval, h]

/-- C8: a second job-search request with the same portfolio slug and the
same filter fingerprint, issued within the 600-second TTL window right
after a first (uncached) request, returns exactly the first request's
result from the cache and makes no listings-API call and no LLM scoring
call; the first request made exactly one listings-API call and stored its
result. (Back to back, the fresh entry cannot be evicted by the 100-entry
bound: insertion appends it after any eviction.) -/
theorem getRecommendedJobs_cache (slug : String) (contact : Option (List (String × String)))
    (filters : JobFilter) (cache0 : List CacheEntry) (t1 t2 : Nat)
    (fetch1 fetch2 : String → List JobD) (sc1 sc2 : ScoreOutcome)
    (hmiss : cacheGet cache0 (cacheKey slug filters) t1 = none)
    (ht : t2 < t1 + 600) :
    (getRecommendedJobs slug contact filters
        (getRecommendedJobs slug contact filters cache0 t1 fetch1 sc1).cache
        t2 fetch2 sc2).result
      = (getRecommendedJobs slug contact filters cache0 t1 fetch1 sc1).result
    ∧ (getRecommendedJobs slug contact filters
        (getRecommendedJobs slug contact filters cache0 t1 fetch1 sc1).cache
        t2 fetch2 sc2).fetchCalls = 0
    ∧ (getRecommendedJobs slug contact filters
        (getRecommendedJobs slug contact filters cache0 t1 fetch1 sc1).cache
        t2 fetch2 sc2).scoreCalls = 0
    ∧ (getRecommendedJobs slug contact filters cache0 t1 fetch1 sc1).fetchCalls = 1 := by
  rw [getRecommendedJobs_miss slug contact filters cache0 t1 fetch1 sc1 hmiss]
  rw [getRecommendedJobs_hit slug contact filters _ t2 fetch2 sc2 _
    (cacheGet_cachePut_fresh cache0 (cacheKey slug filters)
      (scoreAndFilter (fetch1 (countryOf contact)) sc1) t1 t2 ht)]
  exact ⟨rfl, rfl, rfl, rfl⟩

/-- Witness for C8 at a concrete request pair one second apart. -/
theorem getRecommendedJobs_cache_witness :
    (getRecommendedJobs "u" none ⟨none, none, none, none, none⟩
        (getRecommendedJobs "u" none ⟨none, none, none, none, none⟩ [] 0
          (fun c => [[("country", Json.str c)]]) .fail).cache
        1 (fun c => [[("other", Json.str c)]]) .fail).result
      = (getRecommendedJobs "u" none ⟨none, none, none, none, none⟩ [] 0
          (fun c => [[("country", Json.str c)]]) .fail).result
    ∧ (getRecommendedJobs "u" none ⟨none, none, none, none, none⟩
        (getRecommendedJobs "u" none ⟨none, none, none, none, none⟩ [] 0
          (fun c => [[("country", Json.str c)]]) .fail).cache
        1 (fun c => [[("other", Json.str c)]]) .fail).fetchCalls = 0 := by
  have h := getRecommendedJobs_cache "u" none ⟨none, none, none, none, none⟩ [] 0 1
    (fun c => [[("country", Json.str c)]]) (fun c => [[("other", Json.str c)]]) .fail .fail
    rfl (by decide)
  exact ⟨h.1, h.2.1⟩



theorem all_ws_of_dropWhile_nil {p : Char → Bool} : ∀ {B : List Char},
    B.dropWhile p = [] → ∀ x ∈ B, p x = true := by
  intro B
  induction B with
  | nil =>
    intro _ x hx
    simp at hx
  | cons c B2 ih =>
    intro h x hx
    rw [List.dropWhile_cons] at h
    by_cases hc : p c = true
    · rcases List.mem_cons.mp hx with rfl | hx2
      · exact hc
      · exact ih (by rwa [if_pos hc] at h) x hx2
    · rw [if_neg hc] at h
      exact absurd h (by simp)

theorem rtcSafe_marked_prefix {X Y : List Char} {b : Char}
    (h : RtcSafe (X ++ b :: Y)) (hb : b = '\x7d' ∨ b = '\x5d') : RtcSafe X := by
  intro A B hX
  have h2 : X ++ b :: Y = A ++ ',' :: (B ++ b :: Y) := by
    rw [hX]
    simp
  obtain ⟨c, t, hdrop, hc1, hc2⟩ := h A (B ++ b :: Y) h2
  cases hdB : B.dropWhile isPyWs with
  | nil =>
    have hall := all_ws_of_dropWhile_nil hdB
    rw [dropWhile_append_all _ hall] at hdrop
    rw [List.dropWhile_cons, if_neg (by rcases hb with rfl | rfl <;> decide)] at hdrop
    simp only [List.cons.injEq] at hdrop
    rcases hb with rfl | rfl
    · exact absurd hdrop.1.symm hc1
    · exact absurd hdrop.1.symm hc2
  | cons c' t' =>
    have hex := exists_not_of_dropWhile_cons hdB
    have hda := (dropWhile_append_stop (b :: Y) hex).1
    rw [hdB] at hda
    rw [hda] at hdrop
    simp only [List.cons_append, List.cons.injEq] at hdrop
    refine ⟨c', t', rfl, ?_, ?_⟩
    · rw [hdrop.1]
      exact hc1
    · rw [hdrop.1]
      exact hc2

theorem rtcSafe_suffix {Z W : List Char} (h : RtcSafe (Z ++ W)) : RtcSafe W := by
  intro A B hW
  exact h (Z ++ A) B (by rw [hW, List.append_assoc])

theorem serV_dict_head {v : Json} (hd : v.isDict = true) :
    ∃ t, serV v = '\x7b' :: t := by
  cases v with
  | obj fs =>
    cases fs with
    | nil => exact ⟨['\x7d'], by rw [serV]⟩
    | cons kv kvs =>
      exact ⟨serMember kv ++ serMembersTail kvs ++ ['\x7d'], by rw [serV]; rfl⟩
  | null => simp [Json.isDict] at hd
  | bool b => simp [Json.isDict] at hd
  | num n => simp [Json.isDict] at hd
  | str s => simp [Json.isDict] at hd
  | arr es => simp [Json.isDict] at hd

theorem serV_dict_last {v : Json} (hd : v.isDict = true) :
    ∃ p, serV v = p ++ ['\x7d'] := by
  cases v with
  | obj fs =>
    cases fs with
    | nil => exact ⟨['\x7b'], by rw [serV]; rfl⟩
    | cons kv kvs =>
      refine ⟨'\x7b' :: (serMember kv ++ serMembersTail kvs), ?_⟩
      rw [serV]
  | null => simp [Json.isDict] at hd
  | bool b => simp [Json.isDict] at hd
  | num n => simp [Json.isDict] at hd
  | str s => simp [Json.isDict] at hd
  | arr es => simp [Json.isDict] at hd

theorem split_append_cons {L1 L2 X Y : List Char} {b : Char}
    (h : L1 ++ L2 = X ++ b :: Y) :
    (∃ Y0, L1 = X ++ b :: Y0 ∧ Y = Y0 ++ L2)
    ∨ (∃ X1, X = L1 ++ X1 ∧ L2 = X1 ++ b :: Y) := by
  rcases List.append_eq_append_iff.mp h with ⟨w, hw1, hw2⟩ | ⟨w, hw1, hw2⟩
  · exact Or.inr ⟨w, hw1, hw2⟩
  · cases w with
    | nil =>
      refine Or.inr ⟨[], ?_, ?_⟩
      · rw [hw1]
        simp
      · rw [List.nil_append]
        exact hw2.symm
    | cons c w2 =>
      simp only [List.cons_append, List.cons.injEq] at hw2
      refine Or.inl ⟨w2, ?_, hw2.2⟩
      rw [hw1, hw2.1]

theorem braceBlock_whole {cs : List Char} {t p : List Char}
    (h1 : cs = '\x7b' :: t) (h2 : cs = p ++ ['\x7d']) (h3 : 3 ≤ cs.length) :
    braceBlock cs = some cs := by
  have hrev : cs.reverse = '\x7d' :: p.reverse := by
    rw [h2]
    simp
  have hupto : (cs.reverse.dropWhile (fun c => c != '\x7d')).reverse = cs := by
    rw [hrev, List.dropWhile_cons, if_neg (by decide), ← hrev, List.reverse_reverse]
  have hblock : cs.dropWhile (fun c => c != '\x7b') = cs := by
    rw [h1, List.dropWhile_cons, if_neg (by decide)]
  unfold braceBlock
  show (if 3 ≤ ((cs.reverse.dropWhile (fun c => c != '\x7d')).reverse.dropWhile
      (fun c => c != '\x7b')).length then
    some ((cs.reverse.dropWhile (fun c => c != '\x7d')).reverse.dropWhile
      (fun c => c != '\x7b'))
    else none) = some cs
  rw [hupto, hblock, if_pos h3]

theorem parseVal_comma (f : Nat) (W : List Char) : parseVal f (',' :: W) = none := by
  cases f with
  | zero => rfl
  | succ f2 => rfl

theorem parseVal_rbracket (f : Nat) (W : List Char) : parseVal f ('\x5d' :: W) = none := by
  cases f with
  | zero => rfl
  | succ f2 => rfl

theorem parseArrRest_comma (f : Nat) (W : List Char) : parseArrRest f (',' :: W) = none := by
  cases f with
  | zero => rfl
  | succ f2 =>
    unfold parseArrRest
    rw [parseVal_comma]

theorem parseArrRest_rbracket_first (f : Nat) (W : List Char) :
    parseArrRest f ('\x5d' :: W) = none := by
  cases f with
  | zero => rfl
  | succ f2 =>
    unfold parseArrRest
    rw [parseVal_rbracket]

theorem parseObjRest_comma (f : Nat) (W : List Char) : parseObjRest f (',' :: W) = none := by
  cases f with
  | zero => rfl
  | succ f2 => rfl



/-- Parsing serialized array elements followed by a trailing comma right
before the closing bracket fails: after the last element the parser takes
the comma branch and then meets the bracket where a value must start. -/
theorem parseArrRest_marked (fuel : Nat) :
    ∀ e es Z, (serV e ++ serElemsTail es).length + 1 < fuel →
      parseArrRest fuel (serV e ++ (serElemsTail es ++ ',' :: '\x5d' :: Z)) = none := by
  induction fuel using Nat.strong_induction_on with
  | _ fuel IH =>
  rcases fuel with _ | f
  · intro e es Z hb
    exact absurd hb (by omega)
  intro e es Z hb
  unfold parseArrRest
  cases es with
  | nil =>
    have hlen : (serV e).length < f := by
      simp only [serElemsTail, List.append_nil] at hb
      omega
    simp only [serElemsTail, List.nil_append]
    rw [(parse_ser_all f).1 e (',' :: '\x5d' :: Z) hlen (numStopOk_comma _)]
    show (match ((',' :: '\x5d' :: Z : List Char)).dropWhile isJsonWs with
      | ',' :: r2 => Option.map (fun (p : List Json × List Char) => (e :: p.1, p.2))
          (parseArrRest f r2)
      | '\x5d' :: r2 => some ([e], r2)
      | _ => none) = none
    rw [List.dropWhile_cons, if_neg (by decide)]
    show Option.map (fun (p : List Json × List Char) => (e :: p.1, p.2))
      (parseArrRest f ('\x5d' :: Z)) = none
    rw [parseArrRest_rbracket_first]
    rfl
  | cons e2 es2 =>
    have htail : serElemsTail (e2 :: es2) = ',' :: ' ' :: serV e2 ++ serElemsTail es2 := by
      simp [serElemsTail]
    rw [htail]
    have hlen : (serV e).length < f := by
      have h2 := congrArg List.length htail
      simp only [List.length_cons, List.length_append] at h2 hb ⊢
      omega
    rw [show (serV e ++ ((',' :: ' ' :: serV e2 ++ serElemsTail es2) ++ ',' :: '\x5d' :: Z))
        = serV e ++ (',' :: ' ' :: (serV e2 ++ (serElemsTail es2 ++ ',' :: '\x5d' :: Z))) by
      simp]
    rw [(parse_ser_all f).1 e _ hlen (numStopOk_comma _)]
    show (match ((',' :: ' ' :: (serV e2 ++ (serElemsTail es2 ++ ',' :: '\x5d' :: Z))) : List Char).dropWhile isJsonWs with
      | ',' :: r2 => Option.map (fun (p : List Json × List Char) => (e :: p.1, p.2))
          (parseArrRest f r2)
      | '\x5d' :: r2 => some ([e], r2)
      | _ => none) = none
    rw [List.dropWhile_cons, if_neg (by decide)]
    show Option.map (fun (p : List Json × List Char) => (e :: p.1, p.2))
      (parseArrRest f (' ' :: (serV e2 ++ (serElemsTail es2 ++ ',' :: '\x5d' :: Z)))) = none
    rw [parseArrRest_ws f (by decide) _]
    have hlen2 : (serV e2 ++ serElemsTail es2).length + 1 < f := by
      have h2 := congrArg List.length htail
      have h3 : 1 ≤ (serV e).length := by
        obtain ⟨c1, l1, hc1, -⟩ := serV_head e
        rw [hc1]
        simp
      simp only [List.length_cons, List.length_append] at h2 hb ⊢
      omega
    rw [IH f (Nat.lt_succ_self f) e2 es2 Z hlen2]
    rfl


/-- Inserting one comma right before a closing brace or bracket anywhere in
a serialized value (with bracket-free strings) makes the parse fail: the
comma lands where the grammar expects either a member/element or the
closer, and a value can start with neither `,` nor the closer. -/
theorem parse_marked_all (fuel : Nat) :
    (∀ v X Y Z (b : Char), strsOk noBrk v = true → serV v = X ++ b :: Y →
      (b = '\x7d' ∨ b = '\x5d') → (serV v).length < fuel →
      parseVal fuel (X ++ ',' :: b :: (Y ++ Z)) = none)
    ∧ (∀ e es X Y Z (b : Char), strsOkList noBrk (e :: es) = true →
      serV e ++ serElemsTail es = X ++ b :: Y → (b = '\x7d' ∨ b = '\x5d') →
      (serV e ++ serElemsTail es).length + 1 < fuel →
      parseArrRest fuel (X ++ ',' :: b :: (Y ++ Z)) = none)
    ∧ (∀ kv kvs X Y Z (b : Char), strsOkFields noBrk (kv :: kvs) = true →
      serMember kv ++ serMembersTail kvs = X ++ b :: Y → (b = '\x7d' ∨ b = '\x5d') →
      (serMember kv ++ serMembersTail kvs).length + 1 < fuel →
      parseObjRest fuel (X ++ ',' :: b :: (Y ++ Z)) = none) := by
  induction fuel using Nat.strong_induction_on with
  | _ fuel IH =>
  rcases fuel with _ | f
  · refine ⟨?_, ?_, ?_⟩
    · intro v X Y Z b _ _ _ hlen
      exact absurd hlen (by omega)
    · intro e es X Y Z b _ _ _ hlen
      exact absurd hlen (by omega)
    · intro kv kvs X Y Z b _ _ _ hlen
      exact absurd hlen (by omega)
  obtain ⟨IHv, IHa, IHo⟩ := IH f (Nat.lt_succ_self f)
  refine ⟨?_, ?_, ?_⟩
  · intro v X Y Z b hwf hdec hb hlen
    have hbmem : b ∈ serV v := by
      rw [hdec]
      simp
    cases v with
    | null =>
      rw [show serV Json.null = ['n', 'u', 'l', 'l'] from by rw [serV]] at hbmem
      rcases hb with rfl | rfl <;> exact absurd hbmem (by decide)
    | bool bb =>
      cases bb
      · rw [show serV (Json.bool false) = ['f', 'a', 'l', 's', 'e'] from by
          simp [serV]] at hbmem
        rcases hb with rfl | rfl <;> exact absurd hbmem (by decide)
      · rw [show serV (Json.bool true) = ['t', 'r', 'u', 'e'] from by
          simp [serV]] at hbmem
        rcases hb with rfl | rfl <;> exact absurd hbmem (by decide)
    | num n =>
      rw [show serV (Json.num n) = intRepr n from by rw [serV]] at hbmem
      unfold intRepr at hbmem
      split at hbmem
      · rcases List.mem_cons.mp hbmem with hbm | hbm
        · subst hbm
          rcases hb with h | h <;> exact absurd h (by decide)
        · have hdg := natDigits_all _ b hbm
          rcases hb with rfl | rfl <;> exact absurd hdg (by decide)
      · have hdg := natDigits_all _ b hbmem
        rcases hb with rfl | rfl <;> exact absurd hdg (by decide)
    | str s =>
      have hs : s.data.all noBrk = true := by simpa [strsOk] using hwf
      rw [show serV (Json.str s) = escStr s from by rw [serV]] at hbmem
      have h2 := escStr_no_brk hs b hbmem
      rcases hb with rfl | rfl
      · exact absurd rfl h2.1
      · exact absurd rfl h2.2
    | arr es =>
      cases es with
      | nil =>
        rw [show serV (Json.arr []) = ['\x5b', '\x5d'] from by rw [serV]] at hdec
        cases X with
        | nil =>
          simp only [List.nil_append, List.cons.injEq] at hdec
          rcases hb with rfl | rfl <;> exact absurd hdec.1 (by decide)
        | cons x X2 =>
          simp only [List.cons_append, List.cons.injEq] at hdec
          obtain ⟨hx, hdec2⟩ := hdec
          subst hx
          cases X2 with
          | nil =>
            simp only [List.nil_append, List.cons.injEq] at hdec2
            obtain ⟨hbb, hYn⟩ := hdec2
            subst hbb
            subst hYn
            show parseVal (f + 1) ('\x5b' :: ',' :: '\x5d' :: Z) = none
            unfold parseVal
            rw [List.dropWhile_cons, if_neg (by decide)]
            show (match ((',' :: '\x5d' :: Z : List Char)).dropWhile isJsonWs with
              | '\x5d' :: r => some (Json.arr [], r)
              | r => Option.map (fun (p : List Json × List Char) => (Json.arr p.1, p.2))
                  (parseArrRest f r)) = none
            rw [List.dropWhile_cons, if_neg (by decide)]
            show Option.map (fun (p : List Json × List Char) => (Json.arr p.1, p.2))
              (parseArrRest f (',' :: '\x5d' :: Z)) = none
            rw [parseArrRest_comma]
            rfl
          | cons y Y2 =>
            simp at hdec2
      | cons e es2 =>
        have hsh : serV (Json.arr (e :: es2))
            = '\x5b' :: (serV e ++ (serElemsTail es2 ++ ['\x5d'])) := by
          simp [serV]
        rw [hsh] at hdec
        have hsl : strsOkList noBrk (e :: es2) = true := by simpa [strsOk] using hwf
        have hlen2 : (serV e ++ serElemsTail es2).length + 1 < f := by
          have h5 : (serV (Json.arr (e :: es2))).length
              = (serV e ++ serElemsTail es2).length + 2 := by
            simp [serV]
            omega
          omega
        cases X with
        | nil =>
          simp only [List.nil_append, List.cons.injEq] at hdec
          rcases hb with rfl | rfl <;> exact absurd hdec.1 (by decide)
        | cons x X2 =>
          simp only [List.cons_append, List.cons.injEq] at hdec
          obtain ⟨hx, helems⟩ := hdec
          subst hx
          have helems2 : (serV e ++ serElemsTail es2) ++ ['\x5d'] = X2 ++ b :: Y := by
            rw [List.append_assoc]
            exact helems
          obtain ⟨c0, l0, hc0, hw0, hpw0, hbr0, hbc0⟩ := serV_head e
          rcases split_append_cons helems2 with ⟨Y0, hA, hY⟩ | ⟨X1, hX1, hL2⟩
          · cases X2 with
            | nil =>
              rw [hc0] at hA
              simp only [List.cons_append, List.nil_append, List.cons.injEq] at hA
              rcases hb with rfl | rfl
              · exact absurd hA.1 hbc0
              · exact absurd hA.1 hbr0
            | cons x2 X3 =>
              have hA2 := hA
              rw [hc0] at hA2
              simp only [List.cons_append, List.cons.injEq] at hA2
              obtain ⟨hx2, -⟩ := hA2
              subst hY
              rw [show (('\x5b' :: x2 :: X3) ++ ',' :: b :: ((Y0 ++ ['\x5d']) ++ Z))
                  = '\x5b' :: (x2 :: (X3 ++ ',' :: b :: (Y0 ++ '\x5d' :: Z))) from by simp]
              unfold parseVal
              rw [List.dropWhile_cons, if_neg (by decide)]
              show (match (x2 :: (X3 ++ ',' :: b :: (Y0 ++ '\x5d' :: Z))).dropWhile isJsonWs with
                | '\x5d' :: r => some (Json.arr [], r)
                | r => Option.map (fun (p : List Json × List Char) => (Json.arr p.1, p.2))
                    (parseArrRest f r)) = none
              rw [List.dropWhile_cons, if_neg (by rw [← hx2]; simp [hw0])]
              split
              · rename_i heq
                simp only [List.cons.injEq] at heq
                exact absurd (hx2.trans heq.1) hbr0
              · rw [show (x2 :: (X3 ++ ',' :: b :: (Y0 ++ '\x5d' :: Z)))
                    = (x2 :: X3) ++ ',' :: b :: (Y0 ++ ('\x5d' :: Z)) from by simp]
                rw [IHa e es2 (x2 :: X3) Y0 ('\x5d' :: Z) b hsl hA hb hlen2]
                rfl
          · cases X1 with
            | cons x1 X1' =>
              simp at hL2
            | nil =>
              simp only [List.nil_append, List.cons.injEq] at hL2
              obtain ⟨hbb, hYn⟩ := hL2
              subst hbb
              subst hYn
              rw [List.append_nil] at hX1
              subst hX1
              rw [show (('\x5b' :: (serV e ++ serElemsTail es2)) ++ ',' :: '\x5d' :: ([] ++ Z))
                  = '\x5b' :: (serV e ++ (serElemsTail es2 ++ ',' :: '\x5d' :: Z)) from by simp]
              unfold parseVal
              rw [List.dropWhile_cons, if_neg (by decide)]
              show (match (serV e ++ (serElemsTail es2 ++ ',' :: '\x5d' :: Z)).dropWhile isJsonWs with
                | '\x5d' :: r => some (Json.arr [], r)
                | r => Option.map (fun (p : List Json × List Char) => (Json.arr p.1, p.2))
                    (parseArrRest f r)) = none
              rw [hc0, List.cons_append, List.dropWhile_cons, hw0, if_neg (by decide)]
              split
              · rename_i heq
                simp only [List.cons.injEq] at heq
                exact absurd heq.1 hbr0
              · rw [← List.cons_append, ← hc0]
                rw [parseArrRest_marked f e es2 Z hlen2]
                rfl
    | obj fs =>
      cases fs with
      | nil =>
        rw [show serV (Json.obj []) = ['\x7b', '\x7d'] from by rw [serV]] at hdec
        cases X with
        | nil =>
          simp only [List.nil_append, List.cons.injEq] at hdec
          rcases hb with rfl | rfl <;> exact absurd hdec.1 (by decide)
        | cons x X2 =>
          simp only [List.cons_append, List.cons.injEq] at hdec
          obtain ⟨hx, hdec2⟩ := hdec
          subst hx
          cases X2 with
          | nil =>
            simp only [List.nil_append, List.cons.injEq] at hdec2
            obtain ⟨hbb, hYn⟩ := hdec2
            subst hbb
            subst hYn
            show parseVal (f + 1) ('\x7b' :: ',' :: '\x7d' :: Z) = none
            unfold parseVal
            rw [List.dropWhile_cons, if_neg (by decide)]
            show (match ((',' :: '\x7d' :: Z : List Char)).dropWhile isJsonWs with
              | '\x7d' :: r => some (Json.obj [], r)
              | r => Option.map
                  (fun (p : List (String × Json) × List Char) => (Json.obj p.1, p.2))
                  (parseObjRest f r)) = none
            rw [List.dropWhile_cons, if_neg (by decide)]
            show Option.map (fun (p : List (String × Json) × List Char) => (Json.obj p.1, p.2))
              (parseObjRest f (',' :: '\x7d' :: Z)) = none
            rw [parseObjRest_comma]
            rfl
          | cons y Y2 =>
            simp at hdec2
      | cons kv kvs =>
        have hsh : serV (Json.obj (kv :: kvs))
            = '\x7b' :: (serMember kv ++ (serMembersTail kvs ++ ['\x7d'])) := by
          simp [serV]
        rw [hsh] at hdec
        have hsf : strsOkFields noBrk (kv :: kvs) = true := by simpa [strsOk] using hwf
        have hlen2 : (serMember kv ++ serMembersTail kvs).length + 1 < f := by
          have h5 : (serV (Json.obj (kv :: kvs))).length
              = (serMember kv ++ serMembersTail kvs).length + 2 := by
            simp [serV]
            omega
          omega
        cases X with
        | nil =>
          simp only [List.nil_append, List.cons.injEq] at hdec
          rcases hb with rfl | rfl <;> exact absurd hdec.1 (by decide)
        | cons x X2 =>
          simp only [List.cons_append, List.cons.injEq] at hdec
          obtain ⟨hx, hmem2⟩ := hdec
          subst hx
          have hmem3 : (serMember kv ++ serMembersTail kvs) ++ ['\x7d'] = X2 ++ b :: Y := by
            rw [List.append_assoc]
            exact hmem2
          obtain ⟨lm, hlm⟩ := serMember_head kv
          rcases split_append_cons hmem3 with ⟨Y0, hA, hY⟩ | ⟨X1, hX1, hL2⟩
          · cases X2 with
            | nil =>
              rw [hlm] at hA
              simp only [List.cons_append, List.nil_append, List.cons.injEq] at hA
              rcases hb with rfl | rfl
              · exact absurd hA.1 (by decide)
              · exact absurd hA.1 (by decide)
            | cons x2 X3 =>
              have hA2 := hA
              rw [hlm] at hA2
              simp only [List.cons_append, List.cons.injEq] at hA2
              obtain ⟨hx2, -⟩ := hA2
              subst hY
              rw [show (('\x7b' :: x2 :: X3) ++ ',' :: b :: ((Y0 ++ ['\x7d']) ++ Z))
                  = '\x7b' :: (x2 :: (X3 ++ ',' :: b :: (Y0 ++ '\x7d' :: Z))) from by simp]
              unfold parseVal
              rw [List.dropWhile_cons, if_neg (by decide)]
              show (match (x2 :: (X3 ++ ',' :: b :: (Y0 ++ '\x7d' :: Z))).dropWhile isJsonWs with
                | '\x7d' :: r => some (Json.obj [], r)
                | r => Option.map
                    (fun (p : List (String × Json) × List Char) => (Json.obj p.1, p.2))
                    (parseObjRest f r)) = none
              rw [List.dropWhile_cons, if_neg (by rw [← hx2]; decide)]
              split
              · rename_i heq
                simp only [List.cons.injEq] at heq
                rw [← hx2] at heq
                exact absurd heq.1 (by decide)
              · rw [show (x2 :: (X3 ++ ',' :: b :: (Y0 ++ '\x7d' :: Z)))
                    = (x2 :: X3) ++ ',' :: b :: (Y0 ++ ('\x7d' :: Z)) from by simp]
                rw [IHo kv kvs (x2 :: X3) Y0 ('\x7d' :: Z) b hsf hA hb hlen2]
                rfl
          · cases X1 with
            | cons x1 X1' =>
              simp at hL2
            | nil =>
              simp only [List.nil_append, List.cons.injEq] at hL2
              obtain ⟨hbb, hYn⟩ := hL2
              subst hbb
              subst hYn
              rw [List.append_nil] at hX1
              subst hX1
              rw [show (('\x7b' :: (serMember kv ++ serMembersTail kvs)) ++ ',' :: '\x7d' :: ([] ++ Z))
                  = '\x7b' :: (serMember kv ++ (serMembersTail kvs ++ ',' :: '\x7d' :: Z)) from by
                simp]
              unfold parseVal
              rw [List.dropWhile_cons, if_neg (by decide)]
              show (match (serMember kv ++ (serMembersTail kvs ++ ',' :: '\x7d' :: Z)).dropWhile isJsonWs with
                | '\x7d' :: r => some (Json.obj [], r)
                | r => Option.map
                    (fun (p : List (String × Json) × List Char) => (Json.obj p.1, p.2))
                    (parseObjRest f r)) = none
              rw [hlm, List.cons_append, List.dropWhile_cons, if_neg (by decide)]
              split
              · rename_i heq
                simp only [List.cons.injEq] at heq
                exact absurd heq.1 (by decide)
              · rw [← List.cons_append, ← hlm]
                rw [parseObjRest_marked f kv kvs Z (by omega)]
                rfl
  · intro e es X Y Z b hsl hdec hb hlen
    unfold parseArrRest
    rcases split_append_cons hdec with ⟨Y0, hA, hY⟩ | ⟨X1, hX1, hL2⟩
    · subst hY
      have hok : strsOk noBrk e = true := strsOkList_mem hsl (by simp)
      have hvlen : (serV e).length < f := by
        simp only [List.length_append] at hlen
        omega
      rw [show ((Y0 ++ serElemsTail es) ++ Z) = Y0 ++ (serElemsTail es ++ Z) from by simp]
      rw [IHv e X Y0 (serElemsTail es ++ Z) b hok hA hb hvlen]
    · cases es with
      | nil =>
        rw [show serElemsTail ([] : List Json) = [] from by rw [serElemsTail]] at hL2
        cases X1 <;> simp at hL2
      | cons e2 es2 =>
        rw [show serElemsTail (e2 :: es2) = ',' :: ' ' :: (serV e2 ++ serElemsTail es2) from by
          simp [serElemsTail]] at hL2
        cases X1 with
        | nil =>
          simp only [List.nil_append, List.cons.injEq] at hL2
          rcases hb with rfl | rfl <;> exact absurd hL2.1 (by decide)
        | cons x1 X1' =>
          simp only [List.cons_append, List.cons.injEq] at hL2
          obtain ⟨hx1, hL2'⟩ := hL2
          cases X1' with
          | nil =>
            simp only [List.nil_append, List.cons.injEq] at hL2'
            rcases hb with rfl | rfl <;> exact absurd hL2'.1 (by decide)
          | cons x2 X2 =>
            simp only [List.cons_append, List.cons.injEq] at hL2'
            obtain ⟨hx2, hdec2⟩ := hL2'
            subst hX1
            subst hx1
            subst hx2
            rw [show ((serV e ++ (',' :: ' ' :: X2)) ++ ',' :: b :: (Y ++ Z))
                = serV e ++ (',' :: ' ' :: (X2 ++ ',' :: b :: (Y ++ Z))) from by simp]
            have hvlen : (serV e).length < f := by
              simp only [List.length_append] at hlen
              omega
            rw [(parse_ser_all f).1 e (',' :: ' ' :: (X2 ++ ',' :: b :: (Y ++ Z))) hvlen
              (numStopOk_comma _)]
            show (match ((',' :: ' ' :: (X2 ++ ',' :: b :: (Y ++ Z))) : List Char).dropWhile isJsonWs with
              | ',' :: r2 => Option.map (fun (p : List Json × List Char) => (e :: p.1, p.2))
                  (parseArrRest f r2)
              | '\x5d' :: r2 => some ([e], r2)
              | _ => none) = none
            rw [List.dropWhile_cons, if_neg (by decide)]
            show Option.map (fun (p : List Json × List Char) => (e :: p.1, p.2))
              (parseArrRest f (' ' :: (X2 ++ ',' :: b :: (Y ++ Z)))) = none
            rw [parseArrRest_ws f (by decide) _]
            have hsl2 : strsOkList noBrk (e2 :: es2) = true := by
              rw [show strsOkList noBrk (e :: e2 :: es2)
                  = (strsOk noBrk e && strsOkList noBrk (e2 :: es2)) from by
                rw [strsOkList]] at hsl
              simp only [Bool.and_eq_true] at hsl
              exact hsl.2
            have hlen2 : (serV e2 ++ serElemsTail es2).length + 1 < f := by
              have h4 : serElemsTail (e2 :: es2)
                  = ',' :: ' ' :: (serV e2 ++ serElemsTail es2) := by
                simp [serElemsTail]
              have h5 := congrArg List.length h4
              simp only [List.length_cons, List.length_append] at h5 hlen ⊢
              omega
            rw [IHa e2 es2 X2 Y Z b hsl2 hdec2 hb hlen2]
            rfl
  · intro kv kvs X Y Z b hsf hdec hb hlen
    obtain ⟨k, v0⟩ := kv
    have hm : serMember (k, v0) = escStr k ++ ':' :: ' ' :: serV v0 := by rw [serMember]
    rcases split_append_cons hdec with ⟨Y0, hA, hY⟩ | ⟨X1, hX1, hL2⟩
    · rw [hm] at hA
      rcases split_append_cons hA with ⟨Y1, hA1, hY1⟩ | ⟨X2, hX2, hL3⟩
      · have hkall : (k.data.all noBrk) = true := (strsOkFields_mem hsf (List.mem_cons_self (k, v0) kvs)).1
        have hbmem : b ∈ escStr k := by
          rw [hA1]
          simp
        have h2 := escStr_no_brk hkall b hbmem
        rcases hb with rfl | rfl
        · exact absurd rfl h2.1
        · exact absurd rfl h2.2
      · cases X2 with
        | nil =>
          simp only [List.nil_append, List.cons.injEq] at hL3
          rcases hb with rfl | rfl <;> exact absurd hL3.1 (by decide)
        | cons x2 X3 =>
          simp only [List.cons_append, List.cons.injEq] at hL3
          obtain ⟨hx2, hL3'⟩ := hL3
          cases X3 with
          | nil =>
            simp only [List.nil_append, List.cons.injEq] at hL3'
            rcases hb with rfl | rfl <;> exact absurd hL3'.1 (by decide)
          | cons x3 X4 =>
            simp only [List.cons_append, List.cons.injEq] at hL3'
            obtain ⟨hx3, hdecv⟩ := hL3'
            subst hX2
            subst hx2
            subst hx3
            subst hY
            rw [show ((escStr k ++ (':' :: ' ' :: X4)) ++ ',' :: b :: ((Y0 ++ serMembersTail kvs) ++ Z))
                = '"' :: (k.data.flatMap escChar
                  ++ '"' :: (':' :: ' ' :: (X4 ++ ',' :: b :: (Y0 ++ (serMembersTail kvs ++ Z))))) from by
              simp [escStr]]
            unfold parseObjRest
            rw [List.dropWhile_cons, if_neg (by decide)]
            show (match parseStringBody (k.data.flatMap escChar
                ++ '"' :: (':' :: ' ' :: (X4 ++ ',' :: b :: (Y0 ++ (serMembersTail kvs ++ Z))))) with
              | none => none
              | some (key, r1) =>
                match r1.dropWhile isJsonWs with
                | ':' :: r2 =>
                  match parseVal f r2 with
                  | none => none
                  | some (v, r3) =>
                    match r3.dropWhile isJsonWs with
                    | ',' :: r4 => Option.map
                        (fun (p : List (String × Json) × List Char) => ((String.mk key, v) :: p.1, p.2))
                        (parseObjRest f r4)
                    | '\x7d' :: r4 => some ([(String.mk key, v)], r4)
                    | _ => none
                | _ => none) = none
            rw [parseStringBody_esc]
            show (match ((':' :: ' ' :: (X4 ++ ',' :: b :: (Y0 ++ (serMembersTail kvs ++ Z)))) : List Char).dropWhile isJsonWs with
              | ':' :: r2 =>
                match parseVal f r2 with
                | none => none
                | some (v, r3) =>
                  match r3.dropWhile isJsonWs with
                  | ',' :: r4 => Option.map
                      (fun (p : List (String × Json) × List Char) => ((String.mk k.data, v) :: p.1, p.2))
                      (parseObjRest f r4)
                  | '\x7d' :: r4 => some ([(String.mk k.data, v)], r4)
                  | _ => none
              | _ => none) = none
            rw [List.dropWhile_cons, if_neg (by decide)]
            have hokv : strsOk noBrk v0 = true := (strsOkFields_mem hsf (List.mem_cons_self (k, v0) kvs)).2
            have hvlen : (serV v0).length < f := by
              have h2 : (serMember (k, v0)).length
                  = (escStr k).length + 2 + (serV v0).length := by
                simp [serMember]
                omega
              have h3 : 1 ≤ (escStr k).length := by
                simp [escStr]
              simp only [List.length_append] at hlen
              omega
            show (match parseVal f (' ' :: (X4 ++ ',' :: b :: (Y0 ++ (serMembersTail kvs ++ Z)))) with
              | none => none
              | some (v, r3) =>
                match r3.dropWhile isJsonWs with
                | ',' :: r4 => Option.map
                    (fun (p : List (String × Json) × List Char) => ((String.mk k.data, v) :: p.1, p.2))
                    (parseObjRest f r4)
                | '\x7d' :: r4 => some ([(String.mk k.data, v)], r4)
                | _ => none) = none
            rw [parseVal_ws f (by decide),
              IHv v0 X4 Y0 (serMembersTail kvs ++ Z) b hokv hdecv hb hvlen]
    · cases kvs with
      | nil =>
        rw [show serMembersTail ([] : List (String × Json)) = [] from by
          rw [serMembersTail]] at hL2
        cases X1 <;> simp at hL2
      | cons kv2 kvs2 =>
        rw [show serMembersTail (kv2 :: kvs2)
            = ',' :: ' ' :: (serMember kv2 ++ serMembersTail kvs2) from by
          simp [serMembersTail]] at hL2
        cases X1 with
        | nil =>
          simp only [List.nil_append, List.cons.injEq] at hL2
          rcases hb with rfl | rfl <;> exact absurd hL2.1 (by decide)
        | cons x1 X1' =>
          simp only [List.cons_append, List.cons.injEq] at hL2
          obtain ⟨hx1, hL2'⟩ := hL2
          cases X1' with
          | nil =>
            simp only [List.nil_append, List.cons.injEq] at hL2'
            rcases hb with rfl | rfl <;> exact absurd hL2'.1 (by decide)
          | cons x2 X2 =>
            simp only [List.cons_append, List.cons.injEq] at hL2'
            obtain ⟨hx2, hdec2⟩ := hL2'
            subst hX1
            subst hx1
            subst hx2
            rw [show ((serMember (k, v0) ++ (',' :: ' ' :: X2)) ++ ',' :: b :: (Y ++ Z))
                = '"' :: (k.data.flatMap escChar
                  ++ '"' :: (':' :: ' ' :: (serV v0
                    ++ (',' :: ' ' :: (X2 ++ ',' :: b :: (Y ++ Z)))))) from by
              simp [serMember, escStr]]
            unfold parseObjRest
            rw [List.dropWhile_cons, if_neg (by decide)]
            show (match parseStringBody (k.data.flatMap escChar
                ++ '"' :: (':' :: ' ' :: (serV v0 ++ (',' :: ' ' :: (X2 ++ ',' :: b :: (Y ++ Z)))))) with
              | none => none
              | some (key, r1) =>
                match r1.dropWhile isJsonWs with
                | ':' :: r2 =>
                  match parseVal f r2 with
                  | none => none
                  | some (v, r3) =>
                    match r3.dropWhile isJsonWs with
                    | ',' :: r4 => Option.map
                        (fun (p : List (String × Json) × List Char) => ((String.mk key, v) :: p.1, p.2))
                        (parseObjRest f r4)
                    | '\x7d' :: r4 => some ([(String.mk key, v)], r4)
                    | _ => none
                | _ => none) = none
            rw [parseStringBody_esc]
            show (match ((':' :: ' ' :: (serV v0 ++ (',' :: ' ' :: (X2 ++ ',' :: b :: (Y ++ Z))))) : List Char).dropWhile isJsonWs with
              | ':' :: r2 =>
                match parseVal f r2 with
                | none => none
                | some (v, r3) =>
                  match r3.dropWhile isJsonWs with
                  | ',' :: r4 => Option.map
                      (fun (p : List (String × Json) × List Char) => ((String.mk k.data, v) :: p.1, p.2))
                      (parseObjRest f r4)
                  | '\x7d' :: r4 => some ([(String.mk k.data, v)], r4)
                  | _ => none
              | _ => none) = none
            rw [List.dropWhile_cons, if_neg (by decide)]
            have hvlen : (serV v0).length < f := by
              have h2 : (serMember (k, v0)).length
                  = (escStr k).length + 2 + (serV v0).length := by
                simp [serMember]
                omega
              have h3 : 1 ≤ (escStr k).length := by
                simp [escStr]
              simp only [List.length_append] at hlen
              omega
            show (match parseVal f (' ' :: (serV v0 ++ (',' :: ' ' :: (X2 ++ ',' :: b :: (Y ++ Z))))) with
              | none => none
              | some (v, r3) =>
                match r3.dropWhile isJsonWs with
                | ',' :: r4 => Option.map
                    (fun (p : List (String × Json) × List Char) => ((String.mk k.data, v) :: p.1, p.2))
                    (parseObjRest f r4)
                | '\x7d' :: r4 => some ([(String.mk k.data, v)], r4)
                | _ => none) = none
            rw [parseVal_ws f (by decide),
              (parse_ser_all f).1 v0 _ hvlen (numStopOk_comma _)]
            show (match ((',' :: ' ' :: (X2 ++ ',' :: b :: (Y ++ Z))) : List Char).dropWhile isJsonWs with
              | ',' :: r4 => Option.map
                  (fun (p : List (String × Json) × List Char) => ((String.mk k.data, v0) :: p.1, p.2))
                  (parseObjRest f r4)
              | '\x7d' :: r4 => some ([(String.mk k.data, v0)], r4)
              | _ => none) = none
            rw [List.dropWhile_cons, if_neg (by decide)]
            show Option.map
                (fun (p : List (String × Json) × List Char) => ((String.mk k.data, v0) :: p.1, p.2))
                (parseObjRest f (' ' :: (X2 ++ ',' :: b :: (Y ++ Z)))) = none
            rw [parseObjRest_ws f (by decide)]
            have hsf2 : strsOkFields noBrk (kv2 :: kvs2) = true := by
              rw [show strsOkFields noBrk ((k, v0) :: kv2 :: kvs2)
                  = (k.data.all noBrk && strsOk noBrk v0 && strsOkFields noBrk (kv2 :: kvs2)) from by
                rw [strsOkFields]] at hsf
              simp only [Bool.and_eq_true] at hsf
              exact hsf.2
            have hlen2 : (serMember kv2 ++ serMembersTail kvs2).length + 1 < f := by
              have h4 : serMembersTail (kv2 :: kvs2)
                  = ',' :: ' ' :: (serMember kv2 ++ serMembersTail kvs2) := by
                simp [serMembersTail]
              have h5 := congrArg List.length h4
              simp only [List.length_cons, List.length_append] at h5 hlen ⊢
              omega
            rw [IHo kv2 kvs2 X2 Y Z b hsf2 hdec2 hb hlen2]
            rfl


theorem eq_dropLast_concat {l : List Char} {a : Char} (h : l.getLast? = some a) :
    l = l.dropLast ++ [a] := by
  induction l using List.reverseRecOn with
  | nil => simp at h
  | append_singleton l' x _ =>
    rw [List.getLast?_concat] at h
    injection h with h0
    subst h0
    rw [List.dropLast_concat]

/-- A serialized value with one comma inserted right before any closing
brace or bracket never parses as JSON. -/
theorem loadsL_marked_any (v : Json) (X Y : List Char) (b : Char)
    (hwf : strsOk noBrk v = true) (hdec : serV v = X ++ b :: Y)
    (hb : b = '\x7d' ∨ b = '\x5d') :
    loadsL (X ++ ',' :: b :: Y) = none := by
  unfold loadsL
  have h1 : parseVal ((X ++ ',' :: b :: Y).length + 1) (X ++ ',' :: b :: (Y ++ [])) = none := by
    refine (parse_marked_all ((X ++ ',' :: b :: Y).length + 1)).1 v X Y [] b hwf hdec hb ?_
    have h2 := congrArg List.length hdec
    simp only [List.length_append, List.length_cons] at h2 ⊢
    omega
  rw [List.append_nil] at h1
  rw [h1]

/-- C4 (amended): take any JSON object (a dict at the top level) whose
strings and keys contain no closing brace or bracket characters, serialize
it with `json.dumps`, and insert one comma immediately before any closing
brace or bracket of the serialization (the final brace, a nested `\x7d`,
or a nested `\x5d` as in `[1, 2,]`). The normalizer recovers the original
object from the corrupted text — the first two parse attempts fail and the
trailing-comma regex removes exactly the inserted comma — and it also maps
the unmodified serialization to the same object. Without the restriction
on string contents the property fails (see the recorded counterexample):
the comma-removal regex also rewrites inside string literals. -/
theorem fixJson_trailing_comma (v : Json) (X Y : List Char) (b : Char)
    (hd : v.isDict = true) (hwf : strsOk noBrk v = true)
    (hdec : serV v = X ++ b :: Y) (hb : b = '\x7d' ∨ b = '\x5d') :
    fixJson (String.mk (X ++ ',' :: b :: Y)) = .ok v ∧
    fixJson (String.mk (serV v)) = .ok v := by
  obtain ⟨t0, ht0⟩ := serV_dict_head hd
  obtain ⟨p0, hp0⟩ := serV_dict_last hd
  have hXsh : ∃ X2, X = '\x7b' :: X2 := by
    have hdec2 := hdec
    rw [ht0] at hdec2
    cases X with
    | nil =>
      simp only [List.nil_append, List.cons.injEq] at hdec2
      rcases hb with rfl | rfl <;> exact absurd hdec2.1 (by decide)
    | cons x X2 =>
      simp only [List.cons_append, List.cons.injEq] at hdec2
      exact ⟨X2, by rw [hdec2.1]⟩
  obtain ⟨X2, hX2⟩ := hXsh
  have hlastS : (serV v).getLast? = some '\x7d' := by
    rw [hp0]
    exact List.getLast?_concat _
  have hlastM : (X ++ ',' :: b :: Y).getLast? = some '\x7d' := by
    cases Y with
    | nil =>
      have hb7 : b = '\x7d' := by
        rw [hdec] at hlastS
        rw [List.getLast?_concat] at hlastS
        exact Option.some.inj hlastS
      subst hb7
      rw [show X ++ [',', '\x7d'] = (X ++ [',']) ++ ['\x7d'] from by simp]
      exact List.getLast?_concat _
    | cons y0 Y2 =>
      have h1 : (X ++ ',' :: b :: y0 :: Y2).getLast? = (y0 :: Y2).getLast? := by
        rw [show X ++ ',' :: b :: y0 :: Y2 = (X ++ [',', b]) ++ y0 :: Y2 from by simp]
        exact getLast_append_right (by simp)
      have h2 : (serV v).getLast? = (y0 :: Y2).getLast? := by
        rw [hdec, show X ++ b :: y0 :: Y2 = (X ++ [b]) ++ y0 :: Y2 from by simp]
        exact getLast_append_right (by simp)
      rw [h1, ← h2, hlastS]
  have hnlM : '\n' ∉ X ++ ',' :: b :: Y := by
    intro hmem
    rcases List.mem_append.mp hmem with h0 | h0
    · exact serV_no_nl v '\n' (by rw [hdec]; exact List.mem_append_left _ h0) rfl
    · rcases List.mem_cons.mp h0 with h1 | h1
      · exact absurd h1 (by decide)
      · rcases List.mem_cons.mp h1 with h2 | h2
        · rcases hb with rfl | rfl <;> exact absurd h2 (by decide)
        · exact serV_no_nl v '\n' (by
            rw [hdec]
            exact List.mem_append_right _ (List.mem_cons_of_mem _ h2)) rfl
  have hheadM : ∀ c l, X ++ ',' :: b :: Y = c :: l → c = '\x7b' := by
    intro c l hc
    rw [hX2] at hc
    simp only [List.cons_append, List.cons.injEq] at hc
    exact hc.1.symm
  have hps : pyStripList (X ++ ',' :: b :: Y) = X ++ ',' :: b :: Y := by
    apply pyStripList_id
    · intro c l hc
      rw [hheadM c l hc]
      decide
    · intro c hc
      rw [hlastM] at hc
      injection hc with h0
      rw [← h0]
      decide
  have hs1 : sub1 (X ++ ',' :: b :: Y) = X ++ ',' :: b :: Y := by
    apply sub1_id hnlM
    intro c l hc
    rw [hheadM c l hc]
    decide
  have hs2 : sub2 (X ++ ',' :: b :: Y) = X ++ ',' :: b :: Y := by
    apply sub2_id hnlM
    intro c hc
    rw [hlastM] at hc
    injection hc with h0
    rw [← h0]
    exact ⟨by decide, by decide⟩
  have hpipe : pyStripList (sub2 (sub1 (pyStripList
      (String.mk (X ++ ',' :: b :: Y)).data))) = X ++ ',' :: b :: Y := by
    rw [show (String.mk (X ++ ',' :: b :: Y)).data = X ++ ',' :: b :: Y from rfl,
      hps, hs1, hs2, hps]
  have hloads : loadsL (X ++ ',' :: b :: Y) = none := loadsL_marked_any v X Y b hwf hdec hb
  have hM1 : X ++ ',' :: b :: Y = '\x7b' :: (X2 ++ ',' :: b :: Y) := by
    rw [hX2]
    rfl
  have hM2 : X ++ ',' :: b :: Y = (X ++ ',' :: b :: Y).dropLast ++ ['\x7d'] :=
    eq_dropLast_concat hlastM
  have hM3 : 3 ≤ (X ++ ',' :: b :: Y).length := by
    rw [hX2]
    simp only [List.length_append, List.length_cons]
    omega
  have hbrace := braceBlock_whole hM1 hM2 hM3
  have hstr2 : (braceBlock (X ++ ',' :: b :: Y)).bind loadsL = none := by
    rw [hbrace]
    exact hloads
  have hsX : RtcSafe X := rtcSafe_marked_prefix (by rw [← hdec]; exact rtcSafe_serV v hwf) hb
  have hsY : RtcSafe Y := by
    have h2 : RtcSafe ((X ++ [b]) ++ Y) := by
      rw [show (X ++ [b]) ++ Y = X ++ b :: Y from by simp, ← hdec]
      exact rtcSafe_serV v hwf
    exact rtcSafe_suffix h2
  have hrtc : rtc (X ++ ',' :: b :: Y) = serV v := by
    rw [rtc_append_safe (',' :: b :: Y) hsX]
    rw [rtc_comma_stop (show (b :: Y).dropWhile isPyWs = b :: Y from by
        rw [List.dropWhile_cons, if_neg (by rcases hb with rfl | rfl <;> decide)])
      (by rcases hb with rfl | rfl <;> decide)]
    rw [rtc_safe_id hsY]
    exact hdec.symm
  refine ⟨?_, fixJson_serV v⟩
  unfold fixJson
  rw [hpipe, hloads, hstr2, hrtc, loadsL_serV]

/-- Witness for the amended C4 theorem: the comma is inserted before the
inner closing bracket of the serialization of the object with a single key
"a" and an empty-array value, i.e. inside the nested array rather than
before the final closing brace. -/
theorem fixJson_trailing_comma_witness :
    fixJson (String.mk (('\x7b' :: (escStr "a" ++ [':', ' ', '\x5b']))
        ++ ',' :: '\x5d' :: ['\x7d']))
      = .ok (Json.obj [("a", Json.arr [])])
    ∧ fixJson (String.mk (serV (Json.obj [("a", Json.arr [])])))
      = .ok (Json.obj [("a", Json.arr [])]) :=
  fixJson_trailing_comma (Json.obj [("a", Json.arr [])])
    ('\x7b' :: (escStr "a" ++ [':', ' ', '\x5b'])) ['\x7d'] '\x5d'
    rfl
    (by simp [strsOk, strsOkFields, strsOkList, noBrk])
    (by simp [serV, serMember, serMembersTail])
    (Or.inr rfl)

end CareerNova
